import Mathlib

/-!
# A* grid path planning (single-target and multi-target simulators)

A shallow embedding of `astar_single_target_sim.cpp` / `astar_multi_target_sim.cpp`
and a verification development over it.

Modelling conventions
* C++ `int` values are `Int`; no value in a run leaves the range of a 32-bit `int`
  (costs are bounded by the number of cells), so no wrap-around is modelled.
* `vector<vector<int>>` is `List (List Int)`; `maze[x][y]` is `cell maze x y`.  A read outside
  the vector (undefined in the source) yields `0` in the model and a write outside is dropped;
  the search only touches a cell after `isValid` has checked the bounds.
* `Node*` chains are immutable once built, so a node is a value that carries its parent.
* `std::priority_queue` is an abstract structure `PQueue`; the laws a run relies on are in
  `PQueue.Lawful`.  Nothing is assumed about the order among entries of equal `f`.
* The rendering calls (`clearScreen`, `printMaze`, `sleep_for`) and the wall-clock field
  `executionTime` have no effect on the grid, the frontier or the counters and are left out.
* The `while` loop is run with an explicit budget of loop iterations (`fuel`); `none` means the
  budget ran out.
* The multi-target `main` is modelled from the call of `findStart` on, for any grid; the
  grid it builds itself is `multiMaze`.  Its loop state carries a log `legs` of the aStar
  calls made so far, which the program does not have and which no control flow reads.
* `popTrace` runs the `while` loop once more and lists the popped entries; it is used to
  state properties of the order of pops and is not part of the program.
-/

namespace AStar

/-! ## Data model -/

/-- The macro ROW. -/
def ROW : Nat := 12

/-- The macro COL. -/
def COL : Nat := 24

/-- Direction vector `dx`. -/
def dx : List Int := [-1, 1, 0, 0]

/-- Direction vector `dy`. -/
def dy : List Int := [0, 0, -1, 1]

/-- The maze, `vector<vector<int>>`. -/
abbrev Grid := List (List Int)

/-- Read `m[x][y]` of a two-dimensional vector, `d` standing for a read outside of it. -/
def at2 {α : Type} (d : α) (m : List (List α)) (x y : Int) : α :=
  ((m.getD x.toNat []).getD y.toNat d)

/-- Write `m[x][y] = v` in a two-dimensional vector. -/
def set2 {α : Type} (m : List (List α)) (x y : Int) (v : α) : List (List α) :=
  m.set x.toNat ((m.getD x.toNat []).set y.toNat v)

/-- The read `maze[x][y]`. -/
def cell (maze : Grid) (x y : Int) : Int := at2 0 maze x y

/-- The write `maze[x][y] = v`. -/
def setCell (maze : Grid) (x y : Int) (v : Int) : Grid := set2 maze x y v

/-- The struct PerformanceMetrics: the fields of the single-target program (`obstacles`,
`freeSpaces`) and of the multi-target program (`targetsReached`) side by side; the wall-clock
field `executionTime` is left out. -/
structure PerformanceMetrics where
  nodesExplored : Int
  pathLength : Int
  targetsReached : Int
  path : List (Int × Int)
  obstacles : Int
  freeSpaces : Int
  deriving DecidableEq

/-- The struct Node.  `root` is a node whose `parent` is `nullptr`, `child` one whose `parent`
points to the given node.  (The multi-target program adds a field `target_index` that is
stored and never read by the search.) -/
inductive Node where
  | root (x y g h : Int) : Node
  | child (x y g h : Int) (parent : Node) : Node
  deriving DecidableEq

namespace Node

/-- Field `x`. -/
def x : Node → Int
  | root x _ _ _ => x
  | child x _ _ _ _ => x

/-- Field `y`. -/
def y : Node → Int
  | root _ y _ _ => y
  | child _ y _ _ _ => y

/-- Field `g`. -/
def g : Node → Int
  | root _ _ g _ => g
  | child _ _ g _ _ => g

/-- Field `h`. -/
def h : Node → Int
  | root _ _ _ h => h
  | child _ _ _ h _ => h

/-- Field `parent`, `none` for `nullptr`. -/
def parent : Node → Option Node
  | root _ _ _ _ => none
  | child _ _ _ _ p => some p

/-- The method `f()`. -/
def f (n : Node) : Int := n.g + n.h

/-- The position `(x, y)` of a node. -/
def pos (n : Node) : Int × Int := (n.x, n.y)

/-- The nodes met by following `parent` links from `n` to the parentless node, `n` first. -/
def chain : Node → List Node
  | root x y g h => [root x y g h]
  | child x y g h p => child x y g h p :: chain p

/-- Number of `parent` links from `n` to the parentless node. -/
def depth : Node → Nat
  | root _ _ _ _ => 0
  | child _ _ _ _ p => depth p + 1

end Node

/-- The comparator `Compare::operator()`. -/
def Compare (a b : Node) : Bool := decide (a.f > b.f)

/-- The function heuristic, `abs(x1 - x2) + abs(y1 - y2)`, as aStar uses it: on positions
whose Manhattan distance fits in an `int`, which covers every pair of positions of the grid.
There no operation of the source overflows and the value is the one computed in 32-bit
arithmetic, `heuristicInt32` below. -/
def heuristic (x1 y1 x2 y2 : Int) : Int :=
  ((x1 - x2).natAbs : Int) + ((y1 - y2).natAbs : Int)

/-- The value of a 32-bit `int` that an arithmetic result `v` is stored as: `v` brought into
the range `-2147483648 .. 2147483647` by wrap-around (two's complement). -/
def wrapInt32 (v : Int) : Int := (v + 2147483648) % 4294967296 - 2147483648

/-- The function `abs` on a 32-bit `int`: the negation is an `int` operation, so `abs` of
the least `int` is the least `int`. -/
def absInt32 (v : Int) : Int := if v < 0 then wrapInt32 (-v) else v

/-- The function heuristic on all `int` arguments, `abs(x1 - x2) + abs(y1 - y2)` with the
two subtractions, the two calls of `abs` and the addition carried out in 32-bit `int`. -/
def heuristicInt32 (x1 y1 x2 y2 : Int) : Int :=
  wrapInt32 (absInt32 (wrapInt32 (x1 - x2)) + absInt32 (wrapInt32 (y1 - y2)))

/-- The value fits in a 32-bit `int`. -/
def IsInt32 (v : Int) : Prop := -2147483648 ≤ v ∧ v ≤ 2147483647

instance (v : Int) : Decidable (IsInt32 v) :=
  inferInstanceAs (Decidable (-2147483648 ≤ v ∧ v ≤ 2147483647))

/-- The function isValid. -/
def isValid (x y : Int) (maze : Grid) : Bool :=
  decide (x ≥ 0) && decide (x < ROW) && decide (y ≥ 0) && decide (y < COL)
    && decide (cell maze x y ≠ 1)

/-! ## The frontier -/

/-- The operations of `priority_queue<Node*, vector<Node*>, Compare>` that `aStar` uses:
the empty queue, `push`, and `top` followed by `pop` (`none` when `empty()` holds). -/
structure PQueue where
  Q : Type
  empty : Q
  push : Q → Node → Q
  pop : Q → Option (Node × Q)

/-- What `std::priority_queue` guarantees, for `elems q` the multiset of entries held by the
queue `q`: a queue holds the entries pushed and not yet popped, and `top` is an entry that
`Compare` puts below no other entry (no entry has a smaller `f`).  Which entry of minimal
`f` comes out is left open. -/
structure PQueue.Laws (pq : PQueue) (elems : pq.Q → Multiset Node) : Prop where
  empty : elems pq.empty = 0
  push : ∀ q n, elems (pq.push q n) = n ::ₘ elems q
  pop_none : ∀ q, pq.pop q = none → elems q = 0
  pop_some : ∀ q n q', pq.pop q = some (n, q') →
    elems q = n ::ₘ elems q' ∧ ∀ m ∈ elems q, Compare n m = false

/-- The queue behaves as a `std::priority_queue` ordered by `Compare`. -/
def PQueue.Lawful (pq : PQueue) : Prop := ∃ elems : pq.Q → Multiset Node, pq.Laws elems

/-- Take an entry of minimal `f` out of the non-empty list `n :: rest`: the result is that
entry (the first one of minimal `f`) and the entries left. -/
def popMin : Node → List Node → Node × List Node
  | n, [] => (n, [])
  | n, m :: rest =>
    let r := popMin m rest
    if Compare n r.1 then (r.1, n :: r.2) else (n, m :: rest)

/-- A reference queue: the entries in insertion order, `top` being the first entry of
minimal `f`. -/
def listPQ : PQueue where
  Q := List Node
  empty := []
  push := fun q n => q ++ [n]
  pop := fun q =>
    match q with
    | [] => none
    | n :: rest => some (popMin n rest)

/-! ## The search -/

/-- The local state of the `while` loop of aStar. -/
structure SearchState (Q : Type) where
  openSet : Q
  closed : List (List Bool)
  nodesExplored : Int

/-- The read `closed[x][y]`. -/
def isClosed (closed : List (List Bool)) (x y : Int) : Bool := at2 false closed x y

/-- The `for (int i = 0; i < 4; i++)` loop of aStar: push a child node for every neighbour
that is valid and not closed, in the order of `dx`, `dy`. -/
def pushNeighbors (pq : PQueue) (maze : Grid) (tx ty : Int) (current : Node)
    (closed : List (List Bool)) (openSet : pq.Q) : pq.Q :=
  (List.zip dx dy).foldl
    (fun q d =>
      let nx := current.x + d.1
      let ny := current.y + d.2
      if isValid nx ny maze && !isClosed closed nx ny then
        pq.push q (Node.child nx ny (current.g + 1) (heuristic nx ny tx ty) current)
      else q)
    openSet

/-- The `while (!openSet.empty())` loop of aStar, up to the point where the goal node is
popped.  `fuel` bounds the number of executions of the loop body.  Result: the goal node
(`none` when the loop ends with an empty frontier) and the loop state at that point. -/
def searchLoop (pq : PQueue) (maze : Grid) (tx ty : Int) :
    Nat → SearchState pq.Q → Option (Option Node × SearchState pq.Q)
  | fuel, st =>
    match pq.pop st.openSet with
    | none => some (none, st)
    | some (current, rest) =>
      match fuel with
      | 0 => none
      | fuel + 1 =>
        let x := current.x
        let y := current.y
        let explored := st.nodesExplored + 1
        if isClosed st.closed x y then
          searchLoop pq maze tx ty fuel
            { openSet := rest, closed := st.closed, nodesExplored := explored }
        else
          let closed := set2 st.closed x y true
          if x = tx ∧ y = ty then
            some (some current, { openSet := rest, closed := closed, nodesExplored := explored })
          else
            searchLoop pq maze tx ty fuel
              { openSet := pushNeighbors pq maze tx ty current closed rest,
                closed := closed, nodesExplored := explored }

/-- The path reconstruction loop `while (temp->parent != nullptr)` of aStar. -/
def reconstruct : Node → Grid → PerformanceMetrics → Grid × PerformanceMetrics
  | Node.root _ _ _ _, maze, metrics => (maze, metrics)
  | Node.child x y _ _ p, maze, metrics =>
    if cell maze x y = 0 then
      reconstruct p (setCell maze x y 2)
        { metrics with path := metrics.path ++ [(x, y)], pathLength := metrics.pathLength + 1 }
    else
      reconstruct p maze { metrics with pathLength := metrics.pathLength + 1 }

/-- The loop state on entry to the `while` loop of aStar. -/
def initState (pq : PQueue) (sx sy tx ty : Int) : SearchState pq.Q :=
  { openSet := pq.push pq.empty (Node.root sx sy 0 (heuristic sx sy tx ty)),
    closed := List.replicate ROW (List.replicate COL false),
    nodesExplored := 0 }

/-- The function aStar.  Result: the returned `bool`, the maze and the metrics after the
call; `none` when `fuel` loop iterations were not enough. -/
def aStar (pq : PQueue) (fuel : Nat) (maze : Grid) (sx sy tx ty : Int)
    (metrics : PerformanceMetrics) : Option (Bool × Grid × PerformanceMetrics) :=
  match searchLoop pq maze tx ty fuel (initState pq sx sy tx ty) with
  | none => none
  | some (none, st) => some (false, maze, { metrics with nodesExplored := st.nodesExplored })
  | some (some current, st) =>
    let r := reconstruct current maze
      { metrics with nodesExplored := st.nodesExplored, pathLength := 0, path := [] }
    some (true, r.1, r.2)

/-! ## Report and `main` of the single-target program -/

/-- The lines that saveReport writes under "Path Coordinates:", in the order written. -/
def saveReportPathLines (metrics : PerformanceMetrics) : List String :=
  metrics.path.map (fun point => "(" ++ toString point.1 ++ ", " ++ toString point.2 ++ ")")

/-- The scan loop at the head of the single-target `main`: `(sx, sy)` is set at each cell
holding -1 and `(tx, ty)` at each cell holding 9; `none` stands for a pair never assigned. -/
def scanStartTarget (maze : Grid) : Option (Int × Int) × Option (Int × Int) :=
  (List.range ROW).foldl
    (fun acc i =>
      (List.range COL).foldl
        (fun acc j =>
          if cell maze i j = -1 then (some ((i : Int), (j : Int)), acc.2)
          else if cell maze i j = 9 then (acc.1, some ((i : Int), (j : Int)))
          else acc)
        acc)
    (none, none)

/-! ## Notions used to state the properties -/

/-- The position is inside the grid: `x >= 0 && x < ROW && y >= 0 && y < COL`. -/
def InBounds (x y : Int) : Prop := 0 ≤ x ∧ x < ROW ∧ 0 ≤ y ∧ y < COL

instance (x y : Int) : Decidable (InBounds x y) :=
  inferInstanceAs (Decidable (0 ≤ x ∧ x < ROW ∧ 0 ≤ y ∧ y < COL))

/-- The grid has ROW rows of COL cells each. -/
def GridShape (maze : Grid) : Prop := maze.length = ROW ∧ ∀ row ∈ maze, row.length = COL

instance (maze : Grid) : Decidable (GridShape maze) :=
  inferInstanceAs (Decidable (maze.length = ROW ∧ ∀ row ∈ maze, row.length = COL))

/-- The positions `(x, y)` and `(x', y')` are one unit step apart along one axis. -/
def Adj (x y x' y' : Int) : Prop := (x' - x).natAbs + (y' - y).natAbs = 1

/-- The statement `Walk maze sx sy x y k`: there is a 4-directional walk of `k` unit steps
from `(sx, sy)` to `(x, y)` whose every cell after the first is in bounds and not a wall. -/
inductive Walk (maze : Grid) (sx sy : Int) : Int → Int → Nat → Prop
  | start : Walk maze sx sy sx sy 0
  | step {x y x' y' : Int} {k : Nat} :
      Walk maze sx sy x y k → Adj x y x' y' → InBounds x' y' → cell maze x' y' ≠ 1 →
      Walk maze sx sy x' y' (k + 1)

/-- The goal can be reached from the start by some walk. -/
def Reachable (maze : Grid) (sx sy tx ty : Int) : Prop := ∃ k, Walk maze sx sy tx ty k

/-- The number `k` is the least number of steps of a walk from the start to the goal. -/
def IsShortest (maze : Grid) (sx sy tx ty : Int) (k : Nat) : Prop :=
  Walk maze sx sy tx ty k ∧ ∀ j, Walk maze sx sy tx ty j → k ≤ j

namespace Node

/-- The nodes strictly above `n` on its parent chain. -/
def ancestors : Node → List Node
  | root _ _ _ _ => []
  | child _ _ _ _ p => chain p

/-- A node built by a search from `(sx, sy)` towards `(tx, ty)`: the parentless node is the
start node, and every other node is one step from its parent, on a valid cell, with
`g = parent->g + 1`, and every node carries the heuristic of its own position. -/
def WF (maze : Grid) (sx sy tx ty : Int) : Node → Prop
  | root x y g h => x = sx ∧ y = sy ∧ g = 0 ∧ h = heuristic sx sy tx ty
  | child x y g h p =>
    Adj p.x p.y x y ∧ InBounds x y ∧ cell maze x y ≠ 1 ∧ g = p.g + 1 ∧
      h = heuristic x y tx ty ∧ WF maze sx sy tx ty p

end Node

/-- Number of positions not yet closed. -/
def openCount (closed : List (List Bool)) : Nat :=
  (closed.map (fun row => row.count false)).sum

/-- The child nodes pushed by `pushNeighbors`, in push order. -/
def pushedNodes (maze : Grid) (tx ty : Int) (current : Node) (closed : List (List Bool)) :
    List Node :=
  ((List.zip dx dy).filter
      (fun d => isValid (current.x + d.1) (current.y + d.2) maze
        && !isClosed closed (current.x + d.1) (current.y + d.2))).map
    (fun d => Node.child (current.x + d.1) (current.y + d.2) (current.g + 1)
      (heuristic (current.x + d.1) (current.y + d.2) tx ty) current)

/-- The loop invariant of aStar, over the closed array and the multiset `F` of frontier
entries. -/
structure Inv (maze : Grid) (sx sy tx ty : Int) (closed : List (List Bool))
    (F : Multiset Node) : Prop where
  shape : closed.length = ROW ∧ ∀ row ∈ closed, row.length = COL
  wf : ∀ n ∈ F, n.WF maze sx sy tx ty
  sep : ∀ n ∈ F, (∀ a ∈ n.ancestors, isClosed closed a.x a.y = true) ∧
    (n.chain.map Node.pos).Nodup
  start_cov : isClosed closed sx sy = true ∨ Node.root sx sy 0 (heuristic sx sy tx ty) ∈ F
  closed_cov : ∀ cx cy, InBounds cx cy → isClosed closed cx cy = true →
    ∃ gc : Int, (∀ k, Walk maze sx sy cx cy k → gc ≤ k) ∧
      ∀ nx ny, Adj cx cy nx ny → InBounds nx ny → cell maze nx ny ≠ 1 →
        isClosed closed nx ny = true ∨ ∃ m ∈ F, m.x = nx ∧ m.y = ny ∧ m.g ≤ gc + 1
  goal_open : InBounds tx ty → isClosed closed tx ty = false

/-- The node returned by a successful search: a well-formed node at the goal whose cost is
least among all walks to the goal and whose parent chain visits no position twice. -/
def OptimalGoalNode (maze : Grid) (sx sy tx ty : Int) (node : Node) : Prop :=
  node.WF maze sx sy tx ty ∧ node.x = tx ∧ node.y = ty ∧
    (∀ k, Walk maze sx sy tx ty k → node.g ≤ k) ∧ (node.chain.map Node.pos).Nodup

/-! ## The recorded path -/

/-- The node `current` with which aStar enters the path reconstruction; `none` when the run
does not get there. -/
def goalNode (pq : PQueue) (fuel : Nat) (maze : Grid) (sx sy tx ty : Int) : Option Node :=
  match searchLoop pq maze tx ty fuel (initState pq sx sy tx ty) with
  | some (some current, _) => some current
  | _ => none

/-- The nodes of the parent chain of `n` that have a parent (all but the parentless node),
`n` first: the nodes the reconstruction loop visits. -/
def Node.links : Node → List Node
  | Node.root _ _ _ _ => []
  | Node.child x y g h p => Node.child x y g h p :: Node.links p

/-- The nodes visited by the reconstruction loop whose cell holds 0 in `maze`. -/
def markedNodes (maze : Grid) (n : Node) : List Node :=
  n.links.filter (fun a => decide (cell maze a.x a.y = 0))

/-- The path is in start-to-goal order along the parent chain of `node`: each recorded
coordinate lies more links away from the start than the coordinate recorded before it. -/
def StartToGoalOrder (node : Node) : List (Int × Int) → Prop
  | p :: q :: rest =>
    (∃ a ∈ node.chain, ∃ b ∈ node.chain, a.pos = p ∧ b.pos = q ∧ a.depth < b.depth) ∧
      StartToGoalOrder node (q :: rest)
  | _ => True

instance StartToGoalOrder.dec (node : Node) :
    (path : List (Int × Int)) → Decidable (StartToGoalOrder node path)
  | [] => isTrue trivial
  | [_] => isTrue trivial
  | p :: q :: rest =>
    have : Decidable (StartToGoalOrder node (q :: rest)) := StartToGoalOrder.dec node (q :: rest)
    inferInstanceAs (Decidable
      ((∃ a ∈ node.chain, ∃ b ∈ node.chain, a.pos = p ∧ b.pos = q ∧ a.depth < b.depth) ∧
        StartToGoalOrder node (q :: rest)))

/-- The path is in goal-to-start order along the parent chain of `node`: each recorded
coordinate lies fewer links away from the start than every coordinate recorded before it. -/
def GoalToStartOrder (node : Node) (path : List (Int × Int)) : Prop :=
  path.Pairwise (fun p q => ∃ a ∈ node.chain, ∃ b ∈ node.chain,
    a.pos = p ∧ b.pos = q ∧ b.depth < a.depth)

/-- The path holds every position of the parent chain of `node` exactly once, and so has
`pathLength + 1` entries. -/
def CollectsWholeChain (node : Node) (metrics : PerformanceMetrics) : Prop :=
  (∀ a ∈ node.chain, metrics.path.count a.pos = 1) ∧
    (metrics.path.length : Int) = metrics.pathLength + 1

instance (node : Node) (metrics : PerformanceMetrics) :
    Decidable (CollectsWholeChain node metrics) :=
  inferInstanceAs (Decidable ((∀ a ∈ node.chain, metrics.path.count a.pos = 1) ∧
    (metrics.path.length : Int) = metrics.pathLength + 1))

/-! ## Concrete grids -/

/-- The grid literal of the `main` of the single-target program. -/
def referenceMaze : Grid := [
  [1,1,1,1,1,1,1,1,1,1,1,1,1,1,1,1,1,1,1,1,1,1,1,1],
  [1,0,0,0,0,0,0,0,0,1,0,0,0,0,0,0,0,0,0,0,0,0,0,1],
  [1,0,-1,0,0,0,0,0,0,1,0,0,0,0,0,0,0,1,1,1,1,1,0,1],
  [1,0,0,0,0,0,0,0,0,1,0,0,0,0,0,0,0,1,0,0,0,1,0,1],
  [1,0,0,0,0,0,0,0,0,1,0,0,0,1,1,1,1,1,0,0,9,1,0,1],
  [1,0,0,0,0,0,0,0,0,1,0,0,0,1,1,0,0,1,0,0,0,1,0,1],
  [1,0,1,1,1,1,1,1,1,1,0,0,0,1,0,0,0,1,0,0,0,1,0,1],
  [1,0,0,0,0,0,0,0,0,1,0,0,0,1,0,1,0,1,0,0,0,1,0,1],
  [1,0,0,0,0,0,0,0,0,1,0,0,0,1,1,1,0,1,0,0,0,1,0,1],
  [1,0,1,1,1,0,0,0,0,0,0,0,0,0,0,0,0,1,0,0,0,1,0,1],
  [1,0,0,0,1,0,1,1,1,1,0,0,0,0,0,0,0,1,0,0,0,0,0,1],
  [1,1,1,1,1,1,1,1,1,1,1,1,1,1,1,1,1,1,1,1,1,1,1,1]]

/-- The initial metrics of the single-target `main`, `{0, 0, 0.0, {}, 0, 0}`. -/
def metrics0 : PerformanceMetrics :=
  { nodesExplored := 0, pathLength := 0, targetsReached := 0, path := [],
    obstacles := 0, freeSpaces := 0 }

/-- A grid of free cells only. -/
def openField : Grid := List.replicate ROW (List.replicate COL 0)

/-- A grid of walls only. -/
def wallField : Grid := List.replicate ROW (List.replicate COL 1)

/-- A grid of free cells with a start marker at (0,0) and a goal marker at (0,3). -/
def markedField : Grid := setCell (setCell openField 0 0 (-1)) 0 3 9

/-- The grid `markedField` after aStar from (0,0) to (0,3). -/
def markedFieldAfter : Grid := setCell (setCell markedField 0 2 2) 0 1 2

/-- The metrics after aStar on `markedField` from (0,0) to (0,3), called with `metrics0`. -/
def markedFieldMetrics : PerformanceMetrics :=
  { metrics0 with nodesExplored := 4, pathLength := 3, path := [(0, 2), (0, 1)] }

/-- The goal node of aStar on `markedField` from (0,0) to (0,3). -/
def markedFieldGoal : Node :=
  Node.child 0 3 3 0 (Node.child 0 2 2 1 (Node.child 0 1 1 2 (Node.root 0 0 0 3)))

/-! ## Unit-step walks -/

/-- The statement `UnitWalk x y x' y' k`: there is a 4-directional walk of `k` unit steps from
`(x, y)` to `(x', y')`, through any cells. -/
inductive UnitWalk : Int → Int → Int → Int → Nat → Prop
  | nil (x y : Int) : UnitWalk x y x y 0
  | step {x y x' y' x'' y'' : Int} {k : Nat} :
      UnitWalk x y x' y' k → Adj x' y' x'' y'' → UnitWalk x y x'' y'' (k + 1)

/-! ## The multi-target program -/

/-- The function aStar of the multi-target program.  Its code is the code of the
single-target aStar with one more parameter `target_index`, which is stored in every node
and handed to the rendering, and is never read by the search. -/
def aStarMulti (pq : PQueue) (fuel : Nat) (maze : Grid) (sx sy tx ty : Int)
    (_target_index : Nat) (metrics : PerformanceMetrics) :
    Option (Bool × Grid × PerformanceMetrics) :=
  aStar pq fuel maze sx sy tx ty metrics

/-- The function findTargets. -/
def findTargets (maze : Grid) : List (Int × Int) :=
  (List.range ROW).foldl
    (fun (targets : List (Int × Int)) (i : Nat) =>
      (List.range COL).foldl
        (fun (targets : List (Int × Int)) (j : Nat) =>
          if cell maze (i : Int) (j : Int) = 9 ∨ cell maze (i : Int) (j : Int) = 8 ∨
              cell maze (i : Int) (j : Int) = 7 ∨ cell maze (i : Int) (j : Int) = 6 then
            targets ++ [((i : Int), (j : Int))]
          else targets)
        targets)
    []

/-- The function findStart: the first cell holding -1 in scan order, `(-1, -1)` when there is
none.  The accumulator is `some p` once the loops have returned `p`. -/
def findStart (maze : Grid) : Int × Int :=
  ((List.range ROW).foldl
    (fun (found : Option (Int × Int)) (i : Nat) =>
      (List.range COL).foldl
        (fun (found : Option (Int × Int)) (j : Nat) =>
          match found with
          | some p => some p
          | none => if cell maze (i : Int) (j : Int) = -1 then some ((i : Int), (j : Int)) else none)
        found)
    none).getD (-1, -1)

/-- One aStar invocation of the multi-goal loop of `main`, as logged by the model: the loop
index, the start and the target handed to aStar, the returned `bool`, and `metrics.path` and
the maze right after the call. -/
structure Leg where
  index : Nat
  sx : Int
  sy : Int
  tx : Int
  ty : Int
  found : Bool
  path : List (Int × Int)
  mazeSearched : Grid
  deriving DecidableEq

/-- The variables of the multi-target `main` during the loop over the targets: `maze`,
`metrics`, `current_x`, `current_y`, and the log of the aStar invocations made so far. -/
structure RunState where
  maze : Grid
  metrics : PerformanceMetrics
  current_x : Int
  current_y : Int
  legs : List Leg
  deriving DecidableEq

/-- One iteration of the loop `for (size_t i = 0; i < targets.size(); i++)` of the
multi-target `main`, for the target `t = targets[i]`. -/
def visitTarget (pq : PQueue) (fuel : Nat) (st : RunState) (i : Nat) (t : Int × Int) :
    Option RunState :=
  match aStarMulti pq fuel st.maze st.current_x st.current_y t.1 t.2 i st.metrics with
  | none => none
  | some (false, maze', metrics') =>
    some { maze := maze', metrics := metrics',
           current_x := st.current_x, current_y := st.current_y,
           legs := st.legs ++ [{ index := i, sx := st.current_x, sy := st.current_y,
                                 tx := t.1, ty := t.2, found := false,
                                 path := metrics'.path, mazeSearched := maze' }] }
  | some (true, maze', metrics') =>
    some { maze := setCell maze' t.1 t.2 2,
           metrics := { metrics' with targetsReached := metrics'.targetsReached + 1 },
           current_x := t.1, current_y := t.2,
           legs := st.legs ++ [{ index := i, sx := st.current_x, sy := st.current_y,
                                 tx := t.1, ty := t.2, found := true,
                                 path := metrics'.path, mazeSearched := maze' }] }

/-- The loop `for (size_t i = 0; i < targets.size(); i++)` of the multi-target `main`, from
index `i` on, over the targets not yet visited. -/
def visitAll (pq : PQueue) (fuel : Nat) : RunState → Nat → List (Int × Int) → Option RunState
  | st, _, [] => some st
  | st, i, t :: rest =>
    match visitTarget pq fuel st i t with
    | none => none
    | some st' => visitAll pq fuel st' (i + 1) rest

/-- How the multi-target `main` ends: with the error message and `return 1` before any
search, or with `return 0` after the loop over the targets. -/
inductive MainOutcome where
  | noStartOrTargets : MainOutcome
  | completed (final : RunState) : MainOutcome
  deriving DecidableEq

/-- The aStar invocations made by `main`. -/
def MainOutcome.legs : MainOutcome → List Leg
  | MainOutcome.noStartOrTargets => []
  | MainOutcome.completed final => final.legs

/-- The multi-target `main` from the line `auto start_pos = findStart(maze)` on, for the
grid `maze`; `none` when some aStar call ran out of fuel. -/
def mainMulti (pq : PQueue) (fuel : Nat) (maze : Grid) : Option MainOutcome :=
  let start_pos := findStart maze
  let targets := findTargets maze
  if start_pos.1 = -1 ∨ targets = [] then some MainOutcome.noStartOrTargets
  else
    (visitAll pq fuel
      { maze := maze, metrics := metrics0, current_x := start_pos.1,
        current_y := start_pos.2, legs := [] } 0 targets).map MainOutcome.completed

/-- The grid built by the multi-target `main`: its grid literal (the same literal as in the
single-target program) followed by the four assignments `maze[3][20] = 9`,
`maze[7][15] = 8`, `maze[5][5] = 7`, `maze[9][18] = 6`. -/
def multiMaze : Grid :=
  setCell (setCell (setCell (setCell referenceMaze 3 20 9) 7 15 8) 5 5 7) 9 18 6

/-! ## Notions used to state the properties of the multi-target program -/

/-- All positions of the grid in row-major order. -/
def allCells : List (Int × Int) :=
  (List.range ROW).flatMap
    (fun (i : Nat) => (List.range COL).map (fun (j : Nat) => ((i : Int), (j : Int))))

/-- The value is one of the goal markers 9, 8, 7, 6. -/
def IsGoalMarker (v : Int) : Prop := v = 9 ∨ v = 8 ∨ v = 7 ∨ v = 6

instance (v : Int) : Decidable (IsGoalMarker v) :=
  inferInstanceAs (Decidable (v = 9 ∨ v = 8 ∨ v = 7 ∨ v = 6))

/-- Strict lexicographic order on positions: by row, then by column. -/
def RowMajorLt (p q : Int × Int) : Prop := p.1 < q.1 ∨ (p.1 = q.1 ∧ p.2 < q.2)

instance (p q : Int × Int) : Decidable (RowMajorLt p q) :=
  inferInstanceAs (Decidable (p.1 < q.1 ∨ (p.1 = q.1 ∧ p.2 < q.2)))

/-- The target of a logged aStar invocation. -/
def Leg.target (l : Leg) : Int × Int := (l.tx, l.ty)

/-- A grid of free cells with a start marker at (0,0) and goal markers 9 at (0,3) and 8 at
(0,6). -/
def twoGoalField : Grid := setCell (setCell (setCell openField 0 0 (-1)) 0 3 9) 0 6 8

/-- The grid `twoGoalField` after the first aStar call of the multi-goal run. -/
def twoGoalSearched1 : Grid := setCell (setCell twoGoalField 0 2 2) 0 1 2

/-- The grid `twoGoalField` after the second aStar call of the multi-goal run. -/
def twoGoalSearched2 : Grid := setCell (setCell (setCell twoGoalSearched1 0 3 2) 0 5 2) 0 4 2

/-- The variables of `main` at the end of the multi-goal run on `twoGoalField`. -/
def twoGoalFinal : RunState :=
  { maze := setCell twoGoalSearched2 0 6 2,
    metrics := { metrics0 with nodesExplored := 4, pathLength := 3, targetsReached := 2, path := [(0, 5), (0, 4)] },
    current_x := 0, current_y := 6,
    legs := [
      { index := 0, sx := 0, sy := 0, tx := 0, ty := 3, found := true, path := [(0, 2), (0, 1)], mazeSearched := twoGoalSearched1 },
      { index := 1, sx := 0, sy := 3, tx := 0, ty := 6, found := true, path := [(0, 5), (0, 4)], mazeSearched := twoGoalSearched2 }] }

/-- The grids `m` and `m0` have their walls on the same cells. -/
def SameWalls (m m0 : Grid) : Prop :=
  ∀ x y, InBounds x y → (cell m x y = 1 ↔ cell m0 x y = 1)

/-- Each target of the list can be reached from the one before it, the first one from `c`,
on the grid `m0`. -/
def ChainReachable (m0 : Grid) : Int × Int → List (Int × Int) → Prop
  | _, [] => True
  | c, t :: rest => Reachable m0 c.1 c.2 t.1 t.2 ∧ ChainReachable m0 t rest

/-- The final variables of a run of `main` that got to its loop. -/
def MainOutcome.final? : MainOutcome → Option RunState
  | MainOutcome.noStartOrTargets => none
  | MainOutcome.completed final => some final

/-- The targets of the successful legs, in leg order. -/
def reachedTargets (legs : List Leg) : List (Int × Int) :=
  (legs.filter (fun l => l.found)).map Leg.target

/-- The path recorded by the last successful leg, empty when no leg succeeded. -/
def lastFoundPath (legs : List Leg) : List (Int × Int) :=
  match legs.reverse.find? (fun l => l.found) with
  | some l => l.path
  | none => []

/-- The path holds the coordinates recorded by every successful leg. -/
def HoldsEveryLegPath (legs : List Leg) (path : List (Int × Int)) : Prop :=
  ∀ l ∈ legs, l.found = true → ∀ p ∈ l.path, p ∈ path

instance (legs : List Leg) (path : List (Int × Int)) : Decidable (HoldsEveryLegPath legs path) :=
  inferInstanceAs (Decidable (∀ l ∈ legs, l.found = true → ∀ p ∈ l.path, p ∈ path))

/-- The coordinate lists left in `metrics.path` by two successful legs have no coordinate in
common. -/
def LegsDisjoint (a b : Leg) : Prop :=
  a.found = true → b.found = true → ∀ p ∈ a.path, p ∉ b.path

/-- The variables of the multi-target `main` when iteration `k` of its loop over the targets
begins, for the grid `maze`: the result of the iterations `0 .. k - 1`. -/
def stateBefore (pq : PQueue) (fuel : Nat) (maze : Grid) (k : Nat) : Option RunState :=
  visitAll pq fuel
    { maze := maze, metrics := metrics0, current_x := (findStart maze).1,
      current_y := (findStart maze).2, legs := [] } 0 ((findTargets maze).take k)

/-- The invariant of the loop over the targets that concerns the recorded coordinates, for
the initial grid `m0`: the grid has its shape, the current position is inside it, a cell
holding 0 held 0 initially, every coordinate left in `metrics.path` by a successful leg is a
cell inside the grid that held 0 initially and holds 2 since that leg, and no two successful
legs left a coordinate in common. -/
structure LegsInv (m0 : Grid) (st : RunState) : Prop where
  shape : GridShape st.maze
  current : InBounds st.current_x st.current_y
  free : ∀ x y, InBounds x y → cell st.maze x y = 0 → cell m0 x y = 0
  recorded : ∀ l ∈ st.legs, l.found = true → ∀ p ∈ l.path,
    InBounds p.1 p.2 ∧ cell m0 p.1 p.2 = 0 ∧ cell l.mazeSearched p.1 p.2 = 2 ∧
      cell st.maze p.1 p.2 = 2
  disjoint : st.legs.Pairwise LegsDisjoint

/-- Every cell of `m` holding 2 held 0 in `m0`. -/
def MarksOnlyFree (m0 m : Grid) : Prop :=
  ∀ x y, InBounds x y → cell m x y = 2 → cell m0 x y = 0

/-- Every cell of `m` holds the value it holds in `m0`, or holds 2 and either held 0 in `m0`
or is one of the positions `reached`. -/
def MarksFreeOrReached (m0 m : Grid) (reached : List (Int × Int)) : Prop :=
  ∀ x y, InBounds x y →
    cell m x y = cell m0 x y ∨ (cell m x y = 2 ∧ (cell m0 x y = 0 ∨ (x, y) ∈ reached))

/-! ## The trace of the search loop -/

/-- The entries popped by the `while` loop of aStar, in the order popped, each with the value
of `closed[x][y]` read right after the pop (`true`: the entry is discarded by `continue`;
`false`: the loop body goes on, closes the position and, unless it is the goal, generates
the neighbours).  The recursion is that of `searchLoop`. -/
def popTrace (pq : PQueue) (maze : Grid) (tx ty : Int) :
    Nat → SearchState pq.Q → List (Node × Bool)
  | fuel, st =>
    match pq.pop st.openSet with
    | none => []
    | some (current, rest) =>
      match fuel with
      | 0 => []
      | fuel + 1 =>
        if isClosed st.closed current.x current.y then
          (current, true) :: popTrace pq maze tx ty fuel
            { openSet := rest, closed := st.closed, nodesExplored := st.nodesExplored + 1 }
        else if current.x = tx ∧ current.y = ty then
          [(current, false)]
        else
          (current, false) :: popTrace pq maze tx ty fuel
            { openSet := pushNeighbors pq maze tx ty current
                (set2 st.closed current.x current.y true) rest,
              closed := set2 st.closed current.x current.y true,
              nodesExplored := st.nodesExplored + 1 }

/-- The positions closed by the loop, in the order closed: the positions of the popped
entries that were not discarded. -/
def expandedPositions (trace : List (Node × Bool)) : List (Int × Int) :=
  (trace.filter (fun e => !e.2)).map (fun e => e.1.pos)

/-- The number of popped entries discarded because their position was already closed. -/
def discardedCount (trace : List (Node × Bool)) : Nat :=
  (trace.filter (fun e => e.2)).length

/-- The list `cells` holds, once each, the cells reachable from the start. -/
def IsRegion (maze : Grid) (sx sy : Int) (cells : List (Int × Int)) : Prop :=
  cells.Nodup ∧ ∀ p, p ∈ cells ↔ Reachable maze sx sy p.1 p.2

/-- A wall grid with a block of four free cells (1,1), (1,2), (2,1), (2,2), the start marker
on (1,1), and a goal marker 9 on (5,5), walled in. -/
def blockGrid : Grid :=
  setCell (setCell (setCell (setCell (setCell wallField 1 1 (-1)) 1 2 0) 2 1 0) 2 2 0) 5 5 9

/-! ## Two-dimensional vectors -/

theorem getD_set_eq {α : Type} (l : List α) (i j : Nat) (v d : α) :
    (l.set i v).getD j d = if i = j ∧ i < l.length then v else l.getD j d := by
  simp only [List.getD_eq_getElem?_getD, List.getElem?_set]
  by_cases hij : i = j
  · subst hij
    by_cases hl : i < l.length
    · simp [hl]
    · have : l[i]? = none := List.getElem?_eq_none (by omega)
      simp [hl, this]
  · simp [hij]

theorem at2_set2 {α : Type} (d : α) (m : List (List α)) (x y x' y' : Int) (v : α) :
    at2 d (set2 m x y v) x' y' =
      if x.toNat = x'.toNat ∧ y.toNat = y'.toNat ∧ x.toNat < m.length ∧
          y.toNat < (m.getD x.toNat []).length
      then v else at2 d m x' y' := by
  unfold at2 set2
  rw [getD_set_eq]
  by_cases hx : x.toNat = x'.toNat ∧ x.toNat < m.length
  · rw [if_pos hx, getD_set_eq]
    obtain ⟨hx1, hx2⟩ := hx
    by_cases hy : y.toNat = y'.toNat ∧ y.toNat < (m.getD x.toNat []).length
    · rw [if_pos hy, if_pos ⟨hx1, hy.1, hx2, hy.2⟩]
    · rw [if_neg hy, if_neg (fun h => hy ⟨h.2.1, h.2.2.2⟩), hx1]
  · rw [if_neg hx, if_neg (fun h => hx ⟨h.1, h.2.2.1⟩)]

theorem set2_length {α : Type} (m : List (List α)) (x y : Int) (v : α) :
    (set2 m x y v).length = m.length := by
  simp [set2]

theorem set2_row_length {α : Type} (m : List (List α)) (x y : Int) (v : α) (c : Nat)
    (h : ∀ row ∈ m, row.length = c) : ∀ row ∈ set2 m x y v, row.length = c := by
  intro row hrow
  by_cases hl : x.toNat < m.length
  · rcases List.mem_or_eq_of_mem_set hrow with h1 | h1
    · exact h row h1
    · subst h1
      rw [List.length_set]
      apply h
      rw [List.getD_eq_getElem?_getD, List.getElem?_eq_getElem hl]
      exact List.getElem_mem hl
  · have hm : set2 m x y v = m := by
      unfold set2
      exact List.set_eq_of_length_le (by omega)
    rw [hm] at hrow
    exact h row hrow

/-! ## The closed array -/

theorem count_set_true (l : List Bool) (i : Nat) (hi : i < l.length)
    (hf : l.getD i false = false) : (l.set i true).count false + 1 = l.count false := by
  induction l generalizing i with
  | nil => simp at hi
  | cons b rest ih =>
    cases i with
    | zero =>
      simp only [List.getD_cons_zero] at hf
      subst hf
      simp
    | succ i =>
      simp only [List.length_cons, Nat.add_lt_add_iff_right] at hi
      have hf2 : rest.getD i false = false := by simpa using hf
      have := ih i hi hf2
      simp only [List.set_cons_succ, List.count_cons]
      omega

theorem openCount_set (m : List (List Bool)) (i : Nat) (row : List Bool) (hi : i < m.length) :
    openCount (m.set i row) + (m.getD i []).count false = openCount m + row.count false := by
  induction m generalizing i with
  | nil => simp at hi
  | cons r rest ih =>
    cases i with
    | zero => simp [openCount]; omega
    | succ i =>
      simp only [List.length_cons, Nat.add_lt_add_iff_right] at hi
      have := ih i hi
      simp only [openCount, List.set_cons_succ, List.map_cons, List.sum_cons,
        List.getD_cons_succ] at this ⊢
      omega

theorem openCount_close (closed : List (List Bool)) (x y : Int)
    (hx : x.toNat < closed.length) (hy : y.toNat < (closed.getD x.toNat []).length)
    (hc : isClosed closed x y = false) :
    openCount (set2 closed x y true) + 1 = openCount closed := by
  unfold set2
  have h1 := openCount_set closed x.toNat ((closed.getD x.toNat []).set y.toNat true) hx
  have h2 := count_set_true (closed.getD x.toNat []) y.toNat hy hc
  omega

theorem openCount_init : openCount (List.replicate ROW (List.replicate COL false)) = ROW * COL := by
  decide

theorem row_length_of_shape {α : Type} (m : List (List α)) (r c : Nat)
    (hs : m.length = r ∧ ∀ row ∈ m, row.length = c) (i : Nat) (hi : i < r) :
    (m.getD i []).length = c := by
  have hl : i < m.length := by omega
  apply hs.2
  rw [List.getD_eq_getElem?_getD, List.getElem?_eq_getElem hl]
  exact List.getElem_mem hl

theorem isClosed_set2 (closed : List (List Bool)) (x y x' y' : Int)
    (hs : closed.length = ROW ∧ ∀ row ∈ closed, row.length = COL)
    (hb : InBounds x y) (hb' : InBounds x' y') :
    isClosed (set2 closed x y true) x' y' = (decide (x = x' ∧ y = y') || isClosed closed x' y') := by
  unfold isClosed
  rw [at2_set2]
  obtain ⟨h1, h2, h3, h4⟩ := hb
  obtain ⟨h1', h2', h3', h4'⟩ := hb'
  have hr := row_length_of_shape closed ROW COL hs x.toNat (by omega)
  by_cases hxy : x = x' ∧ y = y'
  · rw [if_pos]
    · simp [hxy]
    · refine ⟨by rw [hxy.1], by rw [hxy.2], by omega, by omega⟩
  · rw [if_neg]
    · simp [hxy]
    · intro h
      apply hxy
      constructor <;> omega

theorem isClosed_set2_mono (closed : List (List Bool)) (x y x' y' : Int)
    (h : isClosed closed x' y' = true) : isClosed (set2 closed x y true) x' y' = true := by
  unfold isClosed at h ⊢
  rw [at2_set2]
  split
  · rfl
  · exact h

theorem getD_replicate {α : Type} (n i : Nat) (a d : α) :
    (List.replicate n a).getD i d = if i < n then a else d := by
  simp only [List.getD_eq_getElem?_getD, List.getElem?_replicate]
  split <;> rfl

theorem isClosed_init (x y : Int) :
    isClosed (List.replicate ROW (List.replicate COL false)) x y = false := by
  unfold isClosed at2
  rw [getD_replicate]
  split
  · rw [getD_replicate]
    split <;> rfl
  · rfl

/-! ## Heuristic, steps and walks -/

theorem heuristic_self (x y : Int) : heuristic x y x y = 0 := by
  simp [heuristic]

theorem heuristic_nonneg (x y tx ty : Int) : 0 ≤ heuristic x y tx ty := by
  unfold heuristic; omega

theorem heuristic_consistent (x y x' y' tx ty : Int) (h : Adj x y x' y') :
    heuristic x y tx ty ≤ 1 + heuristic x' y' tx ty := by
  unfold Adj at h
  unfold heuristic
  omega

theorem zip_dx_dy : List.zip dx dy = [(-1, 0), (1, 0), (0, -1), (0, 1)] := by
  decide

theorem adj_iff_dir (x y x' y' : Int) :
    Adj x y x' y' ↔ ∃ d ∈ List.zip dx dy, x' = x + d.1 ∧ y' = y + d.2 := by
  rw [zip_dx_dy]
  unfold Adj
  simp only [List.mem_cons, List.mem_singleton, List.not_mem_nil, or_false, Prod.exists,
    Prod.mk.injEq]
  constructor
  · intro h
    have : (x' = x + -1 ∧ y' = y + 0) ∨ (x' = x + 1 ∧ y' = y + 0) ∨
        (x' = x + 0 ∧ y' = y + -1) ∨ (x' = x + 0 ∧ y' = y + 1) := by omega
    rcases this with h | h | h | h
    · exact ⟨-1, 0, Or.inl ⟨rfl, rfl⟩, h⟩
    · exact ⟨1, 0, Or.inr (Or.inl ⟨rfl, rfl⟩), h⟩
    · exact ⟨0, -1, Or.inr (Or.inr (Or.inl ⟨rfl, rfl⟩)), h⟩
    · exact ⟨0, 1, Or.inr (Or.inr (Or.inr ⟨rfl, rfl⟩)), h⟩
  · rintro ⟨a, b, hab, h1, h2⟩
    rcases hab with ⟨rfl, rfl⟩ | ⟨rfl, rfl⟩ | ⟨rfl, rfl⟩ | ⟨rfl, rfl⟩ <;> omega

theorem isValid_iff (x y : Int) (maze : Grid) :
    isValid x y maze = true ↔ InBounds x y ∧ cell maze x y ≠ 1 := by
  unfold isValid InBounds
  simp only [Bool.and_eq_true, decide_eq_true_eq, ge_iff_le]
  tauto

theorem Walk.end_inBounds {maze : Grid} {sx sy x y : Int} {k : Nat} (hs : InBounds sx sy)
    (w : Walk maze sx sy x y k) : InBounds x y := by
  cases w with
  | start => exact hs
  | step _ _ hb _ => exact hb

theorem Walk.heuristic_le {maze : Grid} {sx sy x y : Int} {k : Nat}
    (w : Walk maze sx sy x y k) : heuristic sx sy x y ≤ k := by
  induction w with
  | start => simp [heuristic_self]
  | @step x y x' y' k _ ha _ _ ih =>
    unfold Adj at ha
    unfold heuristic at ih ⊢
    simp only [Nat.cast_add, Nat.cast_one]
    omega

/-! ## Nodes and parent chains -/

theorem Node.WF.g_eq_depth {maze : Grid} {sx sy tx ty : Int} {n : Node}
    (h : n.WF maze sx sy tx ty) : n.g = n.depth := by
  induction n with
  | root x y g h0 => exact h.2.2.1
  | child x y g h0 p ih =>
    obtain ⟨_, _, _, hg, _, hp⟩ := h
    simp only [Node.g, Node.depth, Nat.cast_add, Nat.cast_one]
    rw [hg, ih hp]

theorem Node.WF.h_eq {maze : Grid} {sx sy tx ty : Int} {n : Node}
    (h : n.WF maze sx sy tx ty) : n.h = heuristic n.x n.y tx ty := by
  cases n with
  | root x y g h0 =>
    obtain ⟨hx, hy, _, hh⟩ := h
    simp only [Node.h, Node.x, Node.y]
    rw [hh, hx, hy]
  | child x y g h0 p => exact h.2.2.2.2.1

theorem Node.WF.walk {maze : Grid} {sx sy tx ty : Int} {n : Node}
    (h : n.WF maze sx sy tx ty) : Walk maze sx sy n.x n.y n.depth := by
  induction n with
  | root x y g h0 =>
    obtain ⟨hx, hy, _, _⟩ := h
    simp only [Node.x, Node.y, Node.depth]
    rw [hx, hy]
    exact Walk.start
  | child x y g h0 p ih =>
    obtain ⟨ha, hb, hc, _, _, hp⟩ := h
    exact Walk.step (ih hp) ha hb hc

theorem Node.WF.pos_inBounds {maze : Grid} {sx sy tx ty : Int} {n : Node}
    (hs : InBounds sx sy) (h : n.WF maze sx sy tx ty) : InBounds n.x n.y :=
  (Node.WF.walk h).end_inBounds hs

theorem Node.chain_eq_cons (n : Node) : n.chain = n :: n.ancestors := by
  cases n <;> rfl

theorem Node.self_mem_chain (n : Node) : n ∈ n.chain := by
  rw [Node.chain_eq_cons]
  exact List.mem_cons_self _ _

theorem Node.chain_length (n : Node) : n.chain.length = n.depth + 1 := by
  induction n with
  | root x y g h => rfl
  | child x y g h p ih => simp [Node.chain, Node.depth, ih]

/-! ## The frontier -/

theorem pushNeighbors_fold (pq : PQueue) (elems : pq.Q → Multiset Node)
    (hpush : ∀ q n, elems (pq.push q n) = n ::ₘ elems q)
    (maze : Grid) (tx ty : Int) (current : Node) (closed : List (List Bool))
    (ds : List (Int × Int)) (q : pq.Q) :
    elems (ds.foldl
      (fun q d =>
        let nx := current.x + d.1
        let ny := current.y + d.2
        if isValid nx ny maze && !isClosed closed nx ny then
          pq.push q (Node.child nx ny (current.g + 1) (heuristic nx ny tx ty) current)
        else q) q)
    = elems q + ((ds.filter
      (fun d => isValid (current.x + d.1) (current.y + d.2) maze
        && !isClosed closed (current.x + d.1) (current.y + d.2))).map
      (fun d => Node.child (current.x + d.1) (current.y + d.2) (current.g + 1)
        (heuristic (current.x + d.1) (current.y + d.2) tx ty) current) : List Node) := by
  induction ds generalizing q with
  | nil => simp
  | cons d rest ih =>
    rw [List.foldl_cons, ih]
    by_cases hc : (isValid (current.x + d.1) (current.y + d.2) maze
        && !isClosed closed (current.x + d.1) (current.y + d.2)) = true
    · simp only [hc, if_true, hpush, List.filter_cons_of_pos, List.map_cons]
      rw [← Multiset.cons_coe, Multiset.add_cons, Multiset.cons_add]
    · simp only [hc, if_false, List.filter_cons_of_neg, not_false_eq_true, Bool.false_eq_true]

theorem elems_pushNeighbors (pq : PQueue) (elems : pq.Q → Multiset Node)
    (hpush : ∀ q n, elems (pq.push q n) = n ::ₘ elems q)
    (maze : Grid) (tx ty : Int) (current : Node) (closed : List (List Bool)) (q : pq.Q) :
    elems (pushNeighbors pq maze tx ty current closed q)
      = elems q + (pushedNodes maze tx ty current closed : List Node) :=
  pushNeighbors_fold pq elems hpush maze tx ty current closed (List.zip dx dy) q

theorem pushedNodes_length_le (maze : Grid) (tx ty : Int) (current : Node)
    (closed : List (List Bool)) : (pushedNodes maze tx ty current closed).length ≤ 4 := by
  unfold pushedNodes
  rw [List.length_map]
  exact le_trans (List.length_filter_le _ _) (by rw [zip_dx_dy]; simp)

theorem mem_pushedNodes (maze : Grid) (tx ty : Int) (current : Node)
    (closed : List (List Bool)) (m : Node) :
    m ∈ pushedNodes maze tx ty current closed ↔
      ∃ nx ny, Adj current.x current.y nx ny ∧ InBounds nx ny ∧ cell maze nx ny ≠ 1 ∧
        isClosed closed nx ny = false ∧
        m = Node.child nx ny (current.g + 1) (heuristic nx ny tx ty) current := by
  unfold pushedNodes
  simp only [List.mem_map, List.mem_filter, Bool.and_eq_true, Bool.not_eq_true',
    isValid_iff]
  constructor
  · rintro ⟨d, ⟨hd, ⟨hb, hc⟩, hcl⟩, rfl⟩
    exact ⟨_, _, (adj_iff_dir _ _ _ _).2 ⟨d, hd, rfl, rfl⟩, hb, hc, hcl, rfl⟩
  · rintro ⟨nx, ny, ha, hb, hc, hcl, rfl⟩
    obtain ⟨d, hd, h1, h2⟩ := (adj_iff_dir _ _ _ _).1 ha
    subst h1 h2
    exact ⟨d, ⟨hd, ⟨hb, hc⟩, hcl⟩, rfl⟩

/-! ## The loop invariant -/

theorem Inv.init (maze : Grid) (sx sy tx ty : Int) :
    Inv maze sx sy tx ty (List.replicate ROW (List.replicate COL false))
      {Node.root sx sy 0 (heuristic sx sy tx ty)} where
  shape := by
    refine ⟨List.length_replicate _ _, ?_⟩
    intro row hrow
    rw [List.eq_of_mem_replicate hrow]
    exact List.length_replicate _ _
  wf := by
    intro n hn
    rw [Multiset.mem_singleton] at hn
    subst hn
    exact ⟨rfl, rfl, rfl, rfl⟩
  sep := by
    intro n hn
    rw [Multiset.mem_singleton] at hn
    subst hn
    refine ⟨?_, ?_⟩
    · intro a ha
      simp [Node.ancestors] at ha
    · simp [Node.chain]
  start_cov := Or.inr (Multiset.mem_singleton_self _)
  closed_cov := by
    intro cx cy _ hc
    rw [isClosed_init] at hc
    exact absurd hc (by decide)
  goal_open := fun _ => isClosed_init tx ty

/-- While a position reached by a walk of `k` steps is not closed, the frontier holds an
entry whose `f` is at most `k` plus the heuristic of that position. -/
theorem Inv.frontier_bound {maze : Grid} {sx sy tx ty : Int} {closed : List (List Bool)}
    {F : Multiset Node} (hs : InBounds sx sy) (inv : Inv maze sx sy tx ty closed F)
    {x y : Int} {k : Nat} (w : Walk maze sx sy x y k) :
    isClosed closed x y = false → ∃ m ∈ F, m.f ≤ k + heuristic x y tx ty := by
  induction w with
  | start =>
    intro hc
    rcases inv.start_cov with h | h
    · rw [hc] at h
      exact absurd h (by decide)
    · exact ⟨_, h, by simp [Node.f, Node.g, Node.h]⟩
  | @step x y x' y' k w ha hb hw ih =>
    intro hc
    by_cases hcl : isClosed closed x y = true
    · obtain ⟨gc, hgc, hn⟩ := inv.closed_cov x y (w.end_inBounds hs) hcl
      rcases hn x' y' ha hb hw with h | ⟨m, hm, hmx, hmy, hmg⟩
      · rw [hc] at h
        exact absurd h (by decide)
      · refine ⟨m, hm, ?_⟩
        have hh := (inv.wf m hm).h_eq
        rw [hmx, hmy] at hh
        have := hgc k w
        simp only [Node.f, hh, Nat.cast_add, Nat.cast_one]
        omega
    · obtain ⟨m, hm, hmf⟩ := ih (by simpa using hcl)
      refine ⟨m, hm, ?_⟩
      have := heuristic_consistent x y x' y' tx ty ha
      simp only [Nat.cast_add, Nat.cast_one]
      omega

/-- The entry popped from the frontier, when its position is not closed yet, has the least
cost among all walks to its position. -/
theorem Inv.pop_optimal {maze : Grid} {sx sy tx ty : Int} {closed : List (List Bool)}
    {F : Multiset Node} (hs : InBounds sx sy) (inv : Inv maze sx sy tx ty closed F)
    {cur : Node} (hcur : cur ∈ F) (hmin : ∀ m ∈ F, Compare cur m = false)
    (hc : isClosed closed cur.x cur.y = false) {k : Nat}
    (w : Walk maze sx sy cur.x cur.y k) : cur.g ≤ k := by
  obtain ⟨m, hm, hmf⟩ := inv.frontier_bound hs w hc
  have h1 := hmin m hm
  have h2 := (inv.wf cur hcur).h_eq
  simp only [Compare, decide_eq_false_iff_not, gt_iff_lt, not_lt] at h1
  simp only [Node.f] at h1 hmf
  omega

theorem Inv.skip {maze : Grid} {sx sy tx ty : Int} {closed : List (List Bool)}
    {R : Multiset Node} {cur : Node} (inv : Inv maze sx sy tx ty closed (cur ::ₘ R))
    (hc : isClosed closed cur.x cur.y = true) : Inv maze sx sy tx ty closed R where
  shape := inv.shape
  wf := fun n hn => inv.wf n (Multiset.mem_cons_of_mem hn)
  sep := fun n hn => inv.sep n (Multiset.mem_cons_of_mem hn)
  start_cov := by
    rcases inv.start_cov with h | h
    · exact Or.inl h
    · rcases Multiset.mem_cons.1 h with h | h
      · left
        rw [← h] at hc
        exact hc
      · exact Or.inr h
  closed_cov := by
    intro cx cy hb hcl
    obtain ⟨gc, hgc, hn⟩ := inv.closed_cov cx cy hb hcl
    refine ⟨gc, hgc, ?_⟩
    intro nx ny ha hnb hw
    rcases hn nx ny ha hnb hw with h | ⟨m, hm, hmx, hmy, hmg⟩
    · exact Or.inl h
    · rcases Multiset.mem_cons.1 hm with h | h
      · left
        rw [← hmx, ← hmy, h]
        exact hc
      · exact Or.inr ⟨m, h, hmx, hmy, hmg⟩
  goal_open := inv.goal_open

theorem Inv.expand {maze : Grid} {sx sy tx ty : Int} {closed : List (List Bool)}
    {R : Multiset Node} {cur : Node} (hs : InBounds sx sy)
    (inv : Inv maze sx sy tx ty closed (cur ::ₘ R))
    (hmin : ∀ m ∈ cur ::ₘ R, Compare cur m = false)
    (hc : isClosed closed cur.x cur.y = false) (hg : ¬ (cur.x = tx ∧ cur.y = ty)) :
    Inv maze sx sy tx ty (set2 closed cur.x cur.y true)
      (R + (pushedNodes maze tx ty cur (set2 closed cur.x cur.y true) : List Node)) := by
  have hcurF : cur ∈ cur ::ₘ R := Multiset.mem_cons_self _ _
  have hcurWF := inv.wf cur hcurF
  have hcurB : InBounds cur.x cur.y := hcurWF.pos_inBounds hs
  have hcurC : isClosed (set2 closed cur.x cur.y true) cur.x cur.y = true := by
    rw [isClosed_set2 closed _ _ _ _ inv.shape hcurB hcurB]
    simp
  constructor
  · exact ⟨by rw [set2_length]; exact inv.shape.1,
      set2_row_length closed _ _ _ COL inv.shape.2⟩
  · intro n hn
    rcases Multiset.mem_add.1 hn with h | h
    · exact inv.wf n (Multiset.mem_cons_of_mem h)
    · obtain ⟨nx, ny, ha, hb, hw, _, rfl⟩ := (mem_pushedNodes _ _ _ _ _ _).1 (Multiset.mem_coe.1 h)
      exact ⟨ha, hb, hw, rfl, rfl, hcurWF⟩
  · intro n hn
    rcases Multiset.mem_add.1 hn with h | h
    · obtain ⟨h1, h2⟩ := inv.sep n (Multiset.mem_cons_of_mem h)
      exact ⟨fun a ha => isClosed_set2_mono _ _ _ _ _ (h1 a ha), h2⟩
    · obtain ⟨nx, ny, ha, hb, hw, hcl, rfl⟩ :=
        (mem_pushedNodes _ _ _ _ _ _).1 (Multiset.mem_coe.1 h)
      obtain ⟨h1, h2⟩ := inv.sep cur hcurF
      have hanc : ∀ a ∈ cur.chain, isClosed (set2 closed cur.x cur.y true) a.x a.y = true := by
        intro a ha
        rw [Node.chain_eq_cons] at ha
        rcases List.mem_cons.1 ha with h | h
        · rw [h]; exact hcurC
        · exact isClosed_set2_mono _ _ _ _ _ (h1 a h)
      refine ⟨hanc, ?_⟩
      simp only [Node.chain, List.map_cons, List.nodup_cons]
      refine ⟨?_, h2⟩
      intro hmem
      obtain ⟨a, ha, hpa⟩ := List.mem_map.1 hmem
      have := hanc a ha
      have hpx : a.x = nx := congrArg Prod.fst hpa
      have hpy : a.y = ny := congrArg Prod.snd hpa
      rw [hpx, hpy, hcl] at this
      exact absurd this (by decide)
  · rcases inv.start_cov with h | h
    · exact Or.inl (isClosed_set2_mono _ _ _ _ _ h)
    · rcases Multiset.mem_cons.1 h with h | h
      · left
        have hx : cur.x = sx := by rw [← h]; rfl
        have hy : cur.y = sy := by rw [← h]; rfl
        rw [← hx, ← hy]
        exact hcurC
      · exact Or.inr (Multiset.mem_add.2 (Or.inl h))
  · intro cx cy hb hcl
    by_cases hold : isClosed closed cx cy = true
    · obtain ⟨gc, hgc, hn⟩ := inv.closed_cov cx cy hb hold
      refine ⟨gc, hgc, ?_⟩
      intro nx ny ha hnb hw
      rcases hn nx ny ha hnb hw with h | ⟨m, hm, hmx, hmy, hmg⟩
      · exact Or.inl (isClosed_set2_mono _ _ _ _ _ h)
      · rcases Multiset.mem_cons.1 hm with h | h
        · left
          rw [← hmx, ← hmy, h]
          exact hcurC
        · exact Or.inr ⟨m, Multiset.mem_add.2 (Or.inl h), hmx, hmy, hmg⟩
    · rw [isClosed_set2 closed _ _ _ _ inv.shape hcurB hb] at hcl
      have hpos : cur.x = cx ∧ cur.y = cy := by
        simpa [hold] using hcl
      obtain ⟨rfl, rfl⟩ := hpos
      refine ⟨cur.g, fun k w => inv.pop_optimal hs hcurF hmin hc w, ?_⟩
      intro nx ny ha hnb hw
      by_cases hncl : isClosed (set2 closed cur.x cur.y true) nx ny = true
      · exact Or.inl hncl
      · right
        refine ⟨Node.child nx ny (cur.g + 1) (heuristic nx ny tx ty) cur, ?_, rfl, rfl,
          le_refl _⟩
        apply Multiset.mem_add.2
        right
        apply Multiset.mem_coe.2
        exact (mem_pushedNodes _ _ _ _ _ _).2 ⟨nx, ny, ha, hnb, hw, by simpa using hncl, rfl⟩
  · intro hb
    rw [isClosed_set2 closed _ _ _ _ inv.shape hcurB hb, inv.goal_open hb]
    simp [hg]

/-! ## The search loop -/

theorem searchLoop_empty (pq : PQueue) (maze : Grid) (tx ty : Int) (fuel : Nat)
    (st : SearchState pq.Q) (h : pq.pop st.openSet = none) :
    searchLoop pq maze tx ty fuel st = some (none, st) := by
  cases fuel <;> simp [searchLoop, h]

theorem searchLoop_zero (pq : PQueue) (maze : Grid) (tx ty : Int)
    (st : SearchState pq.Q) (cur : Node) (rest : pq.Q)
    (h : pq.pop st.openSet = some (cur, rest)) :
    searchLoop pq maze tx ty 0 st = none := by
  simp [searchLoop, h]

theorem searchLoop_succ (pq : PQueue) (maze : Grid) (tx ty : Int) (fuel : Nat)
    (st : SearchState pq.Q) (cur : Node) (rest : pq.Q)
    (h : pq.pop st.openSet = some (cur, rest)) :
    searchLoop pq maze tx ty (fuel + 1) st =
      if isClosed st.closed cur.x cur.y then
        searchLoop pq maze tx ty fuel
          { openSet := rest, closed := st.closed, nodesExplored := st.nodesExplored + 1 }
      else if cur.x = tx ∧ cur.y = ty then
        some (some cur, { openSet := rest, closed := set2 st.closed cur.x cur.y true,
                          nodesExplored := st.nodesExplored + 1 })
      else
        searchLoop pq maze tx ty fuel
          { openSet := pushNeighbors pq maze tx ty cur (set2 st.closed cur.x cur.y true) rest,
            closed := set2 st.closed cur.x cur.y true,
            nodesExplored := st.nodesExplored + 1 } := by
  rw [searchLoop]
  simp only [h]

/-- More fuel does not change the outcome of a run that ended. -/
theorem searchLoop_mono (pq : PQueue) (maze : Grid) (tx ty : Int) (fuel : Nat) :
    ∀ (st : SearchState pq.Q) (r : Option Node × SearchState pq.Q) (extra : Nat),
      searchLoop pq maze tx ty fuel st = some r →
      searchLoop pq maze tx ty (fuel + extra) st = some r := by
  induction fuel with
  | zero =>
    intro st r extra h
    cases hp : pq.pop st.openSet with
    | none =>
      rw [searchLoop_empty _ _ _ _ _ _ hp] at h ⊢
      exact h
    | some p =>
      obtain ⟨cur, rest⟩ := p
      rw [searchLoop_zero _ _ _ _ _ cur rest hp] at h
      exact absurd h (by simp)
  | succ fuel ih =>
    intro st r extra h
    cases hp : pq.pop st.openSet with
    | none =>
      rw [searchLoop_empty _ _ _ _ _ _ hp] at h ⊢
      exact h
    | some p =>
      obtain ⟨cur, rest⟩ := p
      have he : fuel + 1 + extra = (fuel + extra) + 1 := by omega
      rw [he, searchLoop_succ _ _ _ _ _ _ cur rest hp]
      rw [searchLoop_succ _ _ _ _ _ _ cur rest hp] at h
      split at h
      · rename_i hc
        rw [if_pos hc]
        exact ih _ _ _ h
      · rename_i hc
        rw [if_neg hc]
        split at h
        · rename_i hg
          rw [if_pos hg]
          exact h
        · rename_i hg
          rw [if_neg hg]
          exact ih _ _ _ h

/-- Total correctness of the search loop from any state that satisfies the invariant: with
fuel for `|frontier| + 4 * (open positions)` iterations the loop ends, having run at most
that many iterations, either with no entry left and the goal unreachable, or with an optimal
goal node. -/
theorem searchLoop_total (pq : PQueue) (elems : pq.Q → Multiset Node) (laws : pq.Laws elems)
    (maze : Grid) (sx sy tx ty : Int) (hs : InBounds sx sy) (fuel : Nat) :
    ∀ st : SearchState pq.Q, Inv maze sx sy tx ty st.closed (elems st.openSet) →
      Multiset.card (elems st.openSet) + 4 * openCount st.closed ≤ fuel →
      ∃ res st', searchLoop pq maze tx ty fuel st = some (res, st') ∧
        st.nodesExplored ≤ st'.nodesExplored ∧
        st'.nodesExplored ≤ st.nodesExplored
          + ((Multiset.card (elems st.openSet) + 4 * openCount st.closed : Nat) : Int) ∧
        (elems st.openSet ≠ 0 → st.nodesExplored + 1 ≤ st'.nodesExplored) ∧
        (res = none → ¬ Reachable maze sx sy tx ty) ∧
        (∀ node, res = some node → OptimalGoalNode maze sx sy tx ty node) := by
  induction fuel with
  | zero =>
    intro st inv hfuel
    cases hp : pq.pop st.openSet with
    | none =>
      refine ⟨none, st, searchLoop_empty _ _ _ _ _ _ hp, le_refl _, by omega,
        fun h => absurd (laws.pop_none _ hp) h, ?_, by simp⟩
      rintro - ⟨k, w⟩
      obtain ⟨m, hm, -⟩ := inv.frontier_bound hs w (inv.goal_open (w.end_inBounds hs))
      rw [laws.pop_none _ hp] at hm
      exact absurd hm (Multiset.not_mem_zero _)
    | some p =>
      obtain ⟨cur, rest⟩ := p
      have := (laws.pop_some _ _ _ hp).1
      rw [this, Multiset.card_cons] at hfuel
      omega
  | succ fuel ih =>
    intro st inv hfuel
    cases hp : pq.pop st.openSet with
    | none =>
      refine ⟨none, st, searchLoop_empty _ _ _ _ _ _ hp, le_refl _, by omega,
        fun h => absurd (laws.pop_none _ hp) h, ?_, by simp⟩
      rintro - ⟨k, w⟩
      obtain ⟨m, hm, -⟩ := inv.frontier_bound hs w (inv.goal_open (w.end_inBounds hs))
      rw [laws.pop_none _ hp] at hm
      exact absurd hm (Multiset.not_mem_zero _)
    | some p =>
      obtain ⟨cur, rest⟩ := p
      obtain ⟨hel, hmin⟩ := laws.pop_some _ _ _ hp
      rw [hel] at inv hfuel hmin ⊢
      rw [Multiset.card_cons] at hfuel ⊢
      have hcurF : cur ∈ cur ::ₘ elems rest := Multiset.mem_cons_self _ _
      have hcurB : InBounds cur.x cur.y := (inv.wf cur hcurF).pos_inBounds hs
      rw [searchLoop_succ _ _ _ _ _ _ cur rest hp]
      by_cases hc : isClosed st.closed cur.x cur.y = true
      · rw [if_pos hc]
        obtain ⟨res, st', hrun, h1, h2, -, h3, h4⟩ :=
          ih { openSet := rest, closed := st.closed, nodesExplored := st.nodesExplored + 1 }
            (inv.skip hc) (by simp only; omega)
        refine ⟨res, st', hrun, ?_, ?_, ?_, h3, h4⟩
        · simp only at h1; omega
        · simp only at h2; push_cast at h2 ⊢; omega
        · intro _; simp only at h1; omega
      · rw [if_neg hc]
        have hc' : isClosed st.closed cur.x cur.y = false := by simpa using hc
        by_cases hg : cur.x = tx ∧ cur.y = ty
        · rw [if_pos hg]
          refine ⟨some cur, _, rfl, ?_, ?_, ?_, by simp, ?_⟩
          · simp only; omega
          · simp only; push_cast; omega
          · intro _; simp only; omega
          · intro node hn
            simp only [Option.some.injEq] at hn
            subst hn
            refine ⟨inv.wf _ hcurF, hg.1, hg.2, ?_, (inv.sep _ hcurF).2⟩
            intro k w
            rw [← hg.1, ← hg.2] at w
            exact inv.pop_optimal hs hcurF hmin hc' w
        · rw [if_neg hg]
          have hoc : openCount (set2 st.closed cur.x cur.y true) + 1 = openCount st.closed := by
            obtain ⟨b1, b2, b3, b4⟩ := hcurB
            apply openCount_close _ _ _ _ _ hc'
            · rw [inv.shape.1]; omega
            · rw [row_length_of_shape st.closed ROW COL inv.shape cur.x.toNat (by omega)]
              omega
          have hlen := pushedNodes_length_le maze tx ty cur (set2 st.closed cur.x cur.y true)
          have hel2 := elems_pushNeighbors pq elems laws.push maze tx ty cur
            (set2 st.closed cur.x cur.y true) rest
          have hcard : Multiset.card (elems (pushNeighbors pq maze tx ty cur
              (set2 st.closed cur.x cur.y true) rest)) ≤ Multiset.card (elems rest) + 4 := by
            rw [hel2, Multiset.card_add, Multiset.coe_card]
            omega
          obtain ⟨res, st', hrun, h1, h2, -, h3, h4⟩ :=
            ih { openSet := pushNeighbors pq maze tx ty cur (set2 st.closed cur.x cur.y true) rest,
                 closed := set2 st.closed cur.x cur.y true,
                 nodesExplored := st.nodesExplored + 1 }
              (by simp only; rw [hel2]; exact inv.expand hs hmin hc' hg)
              (by simp only; omega)
          refine ⟨res, st', hrun, ?_, ?_, ?_, h3, h4⟩
          · simp only at h1; omega
          · simp only at h2; push_cast at h2 ⊢; omega
          · intro _; simp only at h1; omega

theorem initState_elems (pq : PQueue) (elems : pq.Q → Multiset Node) (laws : pq.Laws elems)
    (sx sy tx ty : Int) :
    elems (initState pq sx sy tx ty).openSet = {Node.root sx sy 0 (heuristic sx sy tx ty)} := by
  simp only [initState, laws.push, laws.empty]
  rfl

/-- From the initial state the loop ends within `1 + 4 * ROW * COL` iterations. -/
theorem searchLoop_init (pq : PQueue) (elems : pq.Q → Multiset Node) (laws : pq.Laws elems)
    (maze : Grid) (sx sy tx ty : Int) (hs : InBounds sx sy) :
    ∃ res st', searchLoop pq maze tx ty (1 + 4 * ROW * COL) (initState pq sx sy tx ty)
        = some (res, st') ∧
      1 ≤ st'.nodesExplored ∧ st'.nodesExplored ≤ 1 + 4 * ROW * COL ∧
      (res = none → ¬ Reachable maze sx sy tx ty) ∧
      (∀ node, res = some node → OptimalGoalNode maze sx sy tx ty node) := by
  have hel := initState_elems pq elems laws sx sy tx ty
  have hinv : Inv maze sx sy tx ty (initState pq sx sy tx ty).closed
      (elems (initState pq sx sy tx ty).openSet) := by
    rw [hel]
    exact Inv.init maze sx sy tx ty
  have hcl : (initState pq sx sy tx ty).closed = List.replicate ROW (List.replicate COL false) :=
    rfl
  have hn0 : (initState pq sx sy tx ty).nodesExplored = 0 := rfl
  have hphi : Multiset.card (elems (initState pq sx sy tx ty).openSet)
      + 4 * openCount (initState pq sx sy tx ty).closed = 1 + 4 * ROW * COL := by
    rw [hel, hcl, openCount_init, Multiset.card_singleton]
    ring
  obtain ⟨res, st', hrun, -, h2, h3, h4, h5⟩ :=
    searchLoop_total pq elems laws maze sx sy tx ty hs (1 + 4 * ROW * COL) _ hinv (le_of_eq hphi)
  refine ⟨res, st', hrun, ?_, ?_, h4, h5⟩
  · have := h3 (by rw [hel]; exact Multiset.singleton_ne_zero _)
    rw [hn0] at this
    omega
  · rw [hphi, hn0] at h2
    push_cast at h2
    omega

/-- Whatever fuel a run of the loop from the initial state ended with, it ended as
`searchLoop_init` says. -/
theorem searchLoop_sound (pq : PQueue) (elems : pq.Q → Multiset Node) (laws : pq.Laws elems)
    (maze : Grid) (sx sy tx ty : Int) (hs : InBounds sx sy) (fuel : Nat)
    (res : Option Node) (st' : SearchState pq.Q)
    (h : searchLoop pq maze tx ty fuel (initState pq sx sy tx ty) = some (res, st')) :
    1 ≤ st'.nodesExplored ∧ st'.nodesExplored ≤ 1 + 4 * ROW * COL ∧
      (res = none → ¬ Reachable maze sx sy tx ty) ∧
      (∀ node, res = some node → OptimalGoalNode maze sx sy tx ty node) := by
  obtain ⟨res2, st2, hrun, hrest⟩ := searchLoop_init pq elems laws maze sx sy tx ty hs
  have h1 := searchLoop_mono pq maze tx ty fuel _ _ (1 + 4 * ROW * COL) h
  have h2 := searchLoop_mono pq maze tx ty (1 + 4 * ROW * COL) _ _ fuel hrun
  rw [Nat.add_comm] at h2
  rw [h1] at h2
  simp only [Option.some.injEq, Prod.mk.injEq] at h2
  obtain ⟨rfl, rfl⟩ := h2
  exact hrest

/-! ## The reference queue -/

theorem popMin_spec (n : Node) (rest : List Node) :
    ((popMin n rest).1 ::ₘ ((popMin n rest).2 : Multiset Node)) = (n :: rest : List Node) ∧
      ∀ m ∈ n :: rest, Compare (popMin n rest).1 m = false := by
  induction rest generalizing n with
  | nil => simp [popMin, Compare]
  | cons m rest ih =>
    obtain ⟨h1, h2⟩ := ih m
    simp only [popMin]
    by_cases hc : Compare n (popMin m rest).1 = true
    · rw [if_pos hc]
      refine ⟨?_, ?_⟩
      · simp only
        rw [← Multiset.cons_coe, Multiset.cons_swap, h1]
        rfl
      · intro k hk
        rcases List.mem_cons.1 hk with h | h
        · subst h
          simp only [Compare, decide_eq_true_eq, decide_eq_false_iff_not] at hc ⊢
          omega
        · exact h2 k h
    · rw [if_neg hc]
      refine ⟨rfl, ?_⟩
      intro k hk
      rcases List.mem_cons.1 hk with h | h
      · subst h
        simp [Compare]
      · have := h2 k h
        simp only [Compare, decide_eq_true_eq, decide_eq_false_iff_not] at hc this ⊢
        omega

theorem coe_snoc (q : List Node) (n : Node) :
    ((q ++ [n] : List Node) : Multiset Node) = n ::ₘ (q : Multiset Node) := by
  rw [← Multiset.coe_add, add_comm]
  rfl

theorem listPQ_laws : listPQ.Laws (fun q : List Node => (q : Multiset Node)) where
  empty := rfl
  push := fun q n => coe_snoc q n
  pop_none := by
    intro q h
    cases q with
    | nil => rfl
    | cons n rest => simp [listPQ] at h
  pop_some := by
    intro q n q' h
    cases q with
    | nil => simp [listPQ] at h
    | cons a rest =>
      have hp : popMin a rest = (n, q') := by simpa [listPQ] using h
      have := popMin_spec a rest
      rw [hp] at this
      obtain ⟨h1, h2⟩ := this
      refine ⟨h1.symm, ?_⟩
      intro m hm
      exact h2 m (Multiset.mem_coe.1 hm)

theorem listPQ_lawful : listPQ.Lawful := ⟨_, listPQ_laws⟩

/-! ## Path reconstruction -/

theorem reconstruct_pathLength (n : Node) (maze : Grid) (m : PerformanceMetrics) :
    (reconstruct n maze m).2.pathLength = m.pathLength + n.depth := by
  induction n generalizing maze m with
  | root x y g h => simp [reconstruct, Node.depth]
  | child x y g h p ih =>
    simp only [reconstruct, Node.depth]
    split <;> rw [ih] <;> push_cast <;> ring

theorem reconstruct_frame (n : Node) (maze : Grid) (m : PerformanceMetrics) :
    (reconstruct n maze m).2.nodesExplored = m.nodesExplored ∧
    (reconstruct n maze m).2.targetsReached = m.targetsReached ∧
    (reconstruct n maze m).2.obstacles = m.obstacles ∧
    (reconstruct n maze m).2.freeSpaces = m.freeSpaces := by
  induction n generalizing maze m with
  | root x y g h => simp [reconstruct]
  | child x y g h p ih =>
    simp only [reconstruct]
    split <;> exact ih _ _

theorem at2_congr {α : Type} (d : α) (m : List (List α)) (x y x' y' : Int)
    (hx : x.toNat = x'.toNat) (hy : y.toNat = y'.toNat) : at2 d m x y = at2 d m x' y' := by
  unfold at2
  rw [hx, hy]

/-- The marking loop only turns cells holding 0 into 2. -/
theorem reconstruct_cells (n : Node) (maze : Grid) (m : PerformanceMetrics) (i j : Int) :
    cell (reconstruct n maze m).1 i j ≠ cell maze i j →
      cell maze i j = 0 ∧ cell (reconstruct n maze m).1 i j = 2 := by
  induction n generalizing maze m with
  | root x y g h =>
    intro hne
    exact absurd rfl hne
  | child x y g h p ih =>
    simp only [reconstruct]
    split
    · rename_i h0
      intro hne
      have hset : cell (setCell maze x y 2) i j =
          if x.toNat = i.toNat ∧ y.toNat = j.toNat ∧ x.toNat < maze.length ∧
            y.toNat < (maze.getD x.toNat []).length then 2 else cell maze i j :=
        at2_set2 0 maze x y i j 2
      split at hset
      · rename_i hcond
        have hold : cell maze i j = 0 := by
          rw [← h0]
          exact (at2_congr 0 maze x y i j hcond.1 hcond.2.1).symm
        refine ⟨hold, ?_⟩
        by_contra hne2
        have := (ih (setCell maze x y 2) _ (by rw [hset]; exact hne2)).1
        rw [hset] at this
        exact absurd this (by decide)
      · rw [← hset] at hne ⊢
        exact ih _ _ hne
    · exact ih _ _

/-! ## The function aStar -/

theorem aStar_true_iff (pq : PQueue) (fuel : Nat) (maze : Grid) (sx sy tx ty : Int)
    (metrics : PerformanceMetrics) (maze' : Grid) (metrics' : PerformanceMetrics) :
    aStar pq fuel maze sx sy tx ty metrics = some (true, maze', metrics') ↔
      ∃ node st, searchLoop pq maze tx ty fuel (initState pq sx sy tx ty) = some (some node, st) ∧
        maze' = (reconstruct node maze
          { metrics with nodesExplored := st.nodesExplored, pathLength := 0, path := [] }).1 ∧
        metrics' = (reconstruct node maze
          { metrics with nodesExplored := st.nodesExplored, pathLength := 0, path := [] }).2 := by
  unfold aStar
  cases hrun : searchLoop pq maze tx ty fuel (initState pq sx sy tx ty) with
  | none => simp
  | some r =>
    obtain ⟨res, st⟩ := r
    cases res with
    | none => simp
    | some node =>
      simp only [Option.some.injEq, Prod.mk.injEq, true_and]
      constructor
      · rintro ⟨h1, h2⟩
        exact ⟨node, st, ⟨rfl, rfl⟩, h1.symm, h2.symm⟩
      · rintro ⟨node', st', ⟨h1, h2⟩, h3, h4⟩
        subst h1 h2
        exact ⟨h3.symm, h4.symm⟩

theorem aStar_false_iff (pq : PQueue) (fuel : Nat) (maze : Grid) (sx sy tx ty : Int)
    (metrics : PerformanceMetrics) (maze' : Grid) (metrics' : PerformanceMetrics) :
    aStar pq fuel maze sx sy tx ty metrics = some (false, maze', metrics') ↔
      ∃ st, searchLoop pq maze tx ty fuel (initState pq sx sy tx ty) = some (none, st) ∧
        maze' = maze ∧ metrics' = { metrics with nodesExplored := st.nodesExplored } := by
  unfold aStar
  cases hrun : searchLoop pq maze tx ty fuel (initState pq sx sy tx ty) with
  | none => simp
  | some r =>
    obtain ⟨res, st⟩ := r
    cases res with
    | none =>
      simp only [Option.some.injEq, Prod.mk.injEq, true_and]
      constructor
      · rintro ⟨h1, h2⟩
        exact ⟨st, rfl, h1.symm, h2.symm⟩
      · rintro ⟨st', h1, h3, h4⟩
        subst h1
        exact ⟨h3.symm, h4.symm⟩
    | some node => simp

/-- A successful run: the path length is the depth of an optimal goal node. -/
theorem aStar_true_spec (pq : PQueue) (hq : pq.Lawful) (fuel : Nat) (maze : Grid)
    (sx sy tx ty : Int) (hs : InBounds sx sy) (metrics : PerformanceMetrics)
    (maze' : Grid) (metrics' : PerformanceMetrics)
    (h : aStar pq fuel maze sx sy tx ty metrics = some (true, maze', metrics')) :
    ∃ node st, searchLoop pq maze tx ty fuel (initState pq sx sy tx ty) = some (some node, st) ∧
      OptimalGoalNode maze sx sy tx ty node ∧
      maze' = (reconstruct node maze
          { metrics with nodesExplored := st.nodesExplored, pathLength := 0, path := [] }).1 ∧
      metrics' = (reconstruct node maze
          { metrics with nodesExplored := st.nodesExplored, pathLength := 0, path := [] }).2 ∧
      metrics'.pathLength = node.depth ∧
      metrics'.nodesExplored = st.nodesExplored ∧
      1 ≤ st.nodesExplored ∧ st.nodesExplored ≤ 1 + 4 * ROW * COL := by
  obtain ⟨elems, laws⟩ := hq
  obtain ⟨node, st, hrun, h1, h2⟩ := (aStar_true_iff _ _ _ _ _ _ _ _ _ _).1 h
  obtain ⟨b1, b2, -, hg⟩ := searchLoop_sound pq elems laws maze sx sy tx ty hs fuel _ _ hrun
  refine ⟨node, st, hrun, hg node rfl, h1, h2, ?_, ?_, b1, b2⟩
  · rw [h2, reconstruct_pathLength]
    simp
  · rw [h2, (reconstruct_frame _ _ _).1]

theorem OptimalGoalNode.isShortest {maze : Grid} {sx sy tx ty : Int} {node : Node}
    (h : OptimalGoalNode maze sx sy tx ty node) : IsShortest maze sx sy tx ty node.depth := by
  obtain ⟨hwf, hx, hy, hopt, -⟩ := h
  constructor
  · have := hwf.walk
    rw [hx, hy] at this
    exact this
  · intro j w
    have := hopt j w
    rw [hwf.g_eq_depth] at this
    exact_mod_cast this

theorem IsShortest.unique {maze : Grid} {sx sy tx ty : Int} {k j : Nat}
    (hk : IsShortest maze sx sy tx ty k) (hj : IsShortest maze sx sy tx ty j) : k = j :=
  Nat.le_antisymm (hk.2 j hj.1) (hj.2 k hk.1)

/-- Every run with fuel for `1 + 4 * ROW * COL` iterations returns, with `true` exactly
when the goal is reachable. -/
theorem aStar_total (pq : PQueue) (hq : pq.Lawful) (maze : Grid) (sx sy tx ty : Int)
    (hs : InBounds sx sy) (metrics : PerformanceMetrics) (extra : Nat) :
    ∃ b maze' metrics', aStar pq (1 + 4 * ROW * COL + extra) maze sx sy tx ty metrics
        = some (b, maze', metrics') ∧
      (b = true ↔ Reachable maze sx sy tx ty) ∧
      1 ≤ metrics'.nodesExplored ∧ metrics'.nodesExplored ≤ 1 + 4 * ROW * COL := by
  obtain ⟨elems, laws⟩ := hq
  obtain ⟨res, st, hrun, b1, b2, hnone, hsome⟩ :=
    searchLoop_init pq elems laws maze sx sy tx ty hs
  have hrun2 := searchLoop_mono pq maze tx ty _ _ _ extra hrun
  cases res with
  | none =>
    refine ⟨false, maze, { metrics with nodesExplored := st.nodesExplored }, ?_, ?_, b1, b2⟩
    · exact (aStar_false_iff _ _ _ _ _ _ _ _ _ _).2 ⟨st, hrun2, rfl, rfl⟩
    · simp only [Bool.false_eq_true, false_iff]
      exact hnone rfl
  | some node =>
    refine ⟨true, _, _, (aStar_true_iff _ _ _ _ _ _ _ _ _ _).2 ⟨node, st, hrun2, rfl, rfl⟩,
      ?_, ?_, ?_⟩
    · simp only [true_iff]
      exact ⟨_, (hsome node rfl).isShortest.1⟩
    · rw [(reconstruct_frame _ _ _).1]
      exact b1
    · rw [(reconstruct_frame _ _ _).1]
      exact b2

/-- Any run that returns does so with `true` exactly when the goal is reachable. -/
theorem aStar_result (pq : PQueue) (hq : pq.Lawful) (fuel : Nat) (maze : Grid)
    (sx sy tx ty : Int) (hs : InBounds sx sy) (metrics : PerformanceMetrics)
    (b : Bool) (maze' : Grid) (metrics' : PerformanceMetrics)
    (h : aStar pq fuel maze sx sy tx ty metrics = some (b, maze', metrics')) :
    (b = true ↔ Reachable maze sx sy tx ty) := by
  cases b with
  | true =>
    obtain ⟨node, st, -, hg, -⟩ := aStar_true_spec pq hq fuel maze sx sy tx ty hs metrics _ _ h
    simp only [true_iff]
    exact ⟨_, hg.isShortest.1⟩
  | false =>
    obtain ⟨elems, laws⟩ := hq
    obtain ⟨st, hrun, -, -⟩ := (aStar_false_iff _ _ _ _ _ _ _ _ _ _).1 h
    obtain ⟨-, -, hnone, -⟩ := searchLoop_sound pq elems laws maze sx sy tx ty hs fuel _ _ hrun
    simp only [Bool.false_eq_true, false_iff]
    exact hnone rfl

/-! ## Properties of aStar -/

/-- C1. Optimality of aStar: on a 12x24 grid with in-bounds start and goal, whenever aStar
returns true, `metrics.pathLength` is the minimum number of unit steps over all
4-directional walks from start to goal whose every cell after the start is in bounds and not
a wall: such a walk of that length exists and no walk is shorter.  This holds for every
queue that obeys the priority-queue laws, whatever it does among entries of equal `f`. -/
theorem aStar_optimal (pq : PQueue) (hq : pq.Lawful) (fuel : Nat) (maze : Grid)
    (hm : GridShape maze) (sx sy tx ty : Int) (hs : InBounds sx sy) (ht : InBounds tx ty)
    (metrics : PerformanceMetrics) (maze' : Grid) (metrics' : PerformanceMetrics)
    (h : aStar pq fuel maze sx sy tx ty metrics = some (true, maze', metrics')) :
    ∃ k : Nat, metrics'.pathLength = k ∧ IsShortest maze sx sy tx ty k := by
  obtain ⟨node, st, -, hg, -, -, hlen, -⟩ :=
    aStar_true_spec pq hq fuel maze sx sy tx ty hs metrics maze' metrics' h
  exact ⟨node.depth, hlen, hg.isShortest⟩

theorem aStar_optimal_witness :
    listPQ.Lawful ∧ GridShape openField ∧ InBounds 0 0 ∧ InBounds 0 2 ∧
      aStar listPQ 10 openField 0 0 0 2 metrics0 = some (true,
        setCell (setCell openField 0 2 2) 0 1 2,
        { metrics0 with nodesExplored := 3, pathLength := 2, path := [(0, 2), (0, 1)] }) ∧
      ∃ k : Nat, (2 : Int) = k ∧ IsShortest openField 0 0 0 2 k :=
  ⟨listPQ_lawful, by decide, by decide, by decide, by decide,
    aStar_optimal listPQ listPQ_lawful 10 openField (by decide) 0 0 0 2 (by decide) (by decide)
      metrics0 (setCell (setCell openField 0 2 2) 0 1 2)
      { metrics0 with nodesExplored := 3, pathLength := 2, path := [(0, 2), (0, 1)] }
      (by decide)⟩

/-- C2. Completeness: on a 12x24 grid with in-bounds start and goal, a run of aStar with
fuel for `1 + 4 * ROW * COL` loop iterations (or more) returns, and every run that returns
gives false if and only if no 4-directional walk through in-bounds non-wall cells leads from
start to goal (so it gives true exactly when the goal is reachable). -/
theorem aStar_complete (pq : PQueue) (hq : pq.Lawful) (maze : Grid) (hm : GridShape maze)
    (sx sy tx ty : Int) (hs : InBounds sx sy) (ht : InBounds tx ty)
    (metrics : PerformanceMetrics) :
    (∀ extra, ∃ r, aStar pq (1 + 4 * ROW * COL + extra) maze sx sy tx ty metrics = some r) ∧
    ∀ fuel b maze' metrics', aStar pq fuel maze sx sy tx ty metrics = some (b, maze', metrics') →
      ((b = false ↔ ¬ Reachable maze sx sy tx ty) ∧ (b = true ↔ Reachable maze sx sy tx ty)) := by
  constructor
  · intro extra
    obtain ⟨b, maze', metrics', h, -⟩ := aStar_total pq hq maze sx sy tx ty hs metrics extra
    exact ⟨_, h⟩
  · intro fuel b maze' metrics' h
    have := aStar_result pq hq fuel maze sx sy tx ty hs metrics b maze' metrics' h
    refine ⟨?_, this⟩
    rw [← this]
    cases b <;> simp

theorem aStar_complete_witness :
    listPQ.Lawful ∧ GridShape wallField ∧ InBounds 0 0 ∧ InBounds 0 1 ∧
    ((∀ extra, ∃ r, aStar listPQ (1 + 4 * ROW * COL + extra) wallField 0 0 0 1 metrics0 = some r) ∧
    ∀ fuel b maze' metrics', aStar listPQ fuel wallField 0 0 0 1 metrics0
        = some (b, maze', metrics') →
      ((b = false ↔ ¬ Reachable wallField 0 0 0 1) ∧ (b = true ↔ Reachable wallField 0 0 0 1))) :=
  ⟨listPQ_lawful, by decide, by decide, by decide,
    aStar_complete listPQ listPQ_lawful wallField (by decide) 0 0 0 1 (by decide) (by decide)
      metrics0⟩

/-- C3. Termination: on a 12x24 grid with an in-bounds start and any goal, the search loop
of aStar ends within `1 + 4 * ROW * COL` iterations: a run with fuel for that many loop
iterations (or more) returns, and the iteration counter `nodesExplored` it returns is at
least 1 and at most `1 + 4 * ROW * COL`. -/
theorem aStar_terminates (pq : PQueue) (hq : pq.Lawful) (maze : Grid) (hm : GridShape maze)
    (sx sy tx ty : Int) (hs : InBounds sx sy) (metrics : PerformanceMetrics) (extra : Nat) :
    ∃ b maze' metrics', aStar pq (1 + 4 * ROW * COL + extra) maze sx sy tx ty metrics
        = some (b, maze', metrics') ∧
      1 ≤ metrics'.nodesExplored ∧ metrics'.nodesExplored ≤ 1 + 4 * ROW * COL := by
  obtain ⟨b, maze', metrics', h, -, h1, h2⟩ :=
    aStar_total pq hq maze sx sy tx ty hs metrics extra
  exact ⟨b, maze', metrics', h, h1, h2⟩

theorem aStar_terminates_witness :
    listPQ.Lawful ∧ GridShape referenceMaze ∧ InBounds 2 2 ∧
    ∃ b maze' metrics', aStar listPQ (1 + 4 * ROW * COL + 0) referenceMaze 2 2 5 15 metrics0
        = some (b, maze', metrics') ∧
      1 ≤ metrics'.nodesExplored ∧ metrics'.nodesExplored ≤ 1 + 4 * ROW * COL :=
  ⟨listPQ_lawful, by decide, by decide,
    aStar_terminates listPQ listPQ_lawful referenceMaze (by decide) 2 2 5 15 (by decide)
      metrics0 0⟩

/-- C4. Failure is atomic: whenever aStar returns false, the grid after the call is the grid
before the call, and `metrics.path` and `metrics.pathLength` keep their values. -/
theorem aStar_failure_atomic (pq : PQueue) (fuel : Nat) (maze : Grid) (sx sy tx ty : Int)
    (metrics : PerformanceMetrics) (maze' : Grid) (metrics' : PerformanceMetrics)
    (h : aStar pq fuel maze sx sy tx ty metrics = some (false, maze', metrics')) :
    maze' = maze ∧ (∀ x y, cell maze' x y = cell maze x y) ∧
      metrics'.path = metrics.path ∧ metrics'.pathLength = metrics.pathLength := by
  obtain ⟨st, -, h1, h2⟩ := (aStar_false_iff _ _ _ _ _ _ _ _ _ _).1 h
  subst h1 h2
  exact ⟨rfl, fun _ _ => rfl, rfl, rfl⟩

theorem aStar_failure_atomic_witness :
    aStar listPQ 10 wallField 0 0 0 1
        { metrics0 with pathLength := 7, path := [(3, 3)] }
      = some (false, wallField, { metrics0 with nodesExplored := 1, pathLength := 7, path := [(3, 3)] }) ∧
    (wallField = wallField ∧ (∀ x y, cell wallField x y = cell wallField x y) ∧
      ({ metrics0 with nodesExplored := 1, pathLength := 7, path := [(3, 3)] } : PerformanceMetrics).path
        = ({ metrics0 with pathLength := 7, path := [(3, 3)] } : PerformanceMetrics).path ∧
      ({ metrics0 with nodesExplored := 1, pathLength := 7, path := [(3, 3)] } : PerformanceMetrics).pathLength
        = ({ metrics0 with pathLength := 7, path := [(3, 3)] } : PerformanceMetrics).pathLength) :=
  ⟨by decide, aStar_failure_atomic listPQ 10 wallField 0 0 0 1
      { metrics0 with pathLength := 7, path := [(3, 3)] } wallField
      { metrics0 with nodesExplored := 1, pathLength := 7, path := [(3, 3)] } (by decide)⟩

/-- C5. Path marking only overwrites free cells: after a successful aStar, every cell whose
value differs from its value before the call held 0 before and holds 2 after; every cell
that held a wall (1), the start marker (-1), a goal marker (6..9) or an earlier path mark
(2), and indeed any value other than 0, is unchanged. -/
theorem aStar_marks_only_free (pq : PQueue) (fuel : Nat) (maze : Grid) (sx sy tx ty : Int)
    (metrics : PerformanceMetrics) (maze' : Grid) (metrics' : PerformanceMetrics)
    (h : aStar pq fuel maze sx sy tx ty metrics = some (true, maze', metrics')) (x y : Int) :
    (cell maze' x y ≠ cell maze x y → cell maze x y = 0 ∧ cell maze' x y = 2) ∧
    (cell maze x y ≠ 0 → cell maze' x y = cell maze x y) ∧
    (cell maze x y = 1 ∨ cell maze x y = -1 ∨ (6 ≤ cell maze x y ∧ cell maze x y ≤ 9) ∨
      cell maze x y = 2 → cell maze' x y = cell maze x y) := by
  obtain ⟨node, st, -, h1, -⟩ := (aStar_true_iff _ _ _ _ _ _ _ _ _ _).1 h
  subst h1
  have key := reconstruct_cells node maze
    { metrics with nodesExplored := st.nodesExplored, pathLength := 0, path := [] } x y
  have key2 : cell maze x y ≠ 0 → cell (reconstruct node maze
      { metrics with nodesExplored := st.nodesExplored, pathLength := 0, path := [] }).1 x y
      = cell maze x y := by
    intro h0
    by_contra hne
    exact h0 (key hne).1
  refine ⟨key, key2, ?_⟩
  intro hv
  apply key2
  omega

theorem aStar_marks_only_free_witness :
    aStar listPQ 10 openField 0 0 0 2 metrics0 = some (true,
        setCell (setCell openField 0 2 2) 0 1 2,
        { metrics0 with nodesExplored := 3, pathLength := 2, path := [(0, 2), (0, 1)] }) ∧
    ((cell (setCell (setCell openField 0 2 2) 0 1 2) 0 1 ≠ cell openField 0 1 →
        cell openField 0 1 = 0 ∧ cell (setCell (setCell openField 0 2 2) 0 1 2) 0 1 = 2) ∧
    (cell openField 0 1 ≠ 0 →
        cell (setCell (setCell openField 0 2 2) 0 1 2) 0 1 = cell openField 0 1) ∧
    (cell openField 0 1 = 1 ∨ cell openField 0 1 = -1 ∨
      (6 ≤ cell openField 0 1 ∧ cell openField 0 1 ≤ 9) ∨ cell openField 0 1 = 2 →
        cell (setCell (setCell openField 0 2 2) 0 1 2) 0 1 = cell openField 0 1)) :=
  ⟨by decide, aStar_marks_only_free listPQ 10 openField 0 0 0 2 metrics0
      (setCell (setCell openField 0 2 2) 0 1 2)
      { metrics0 with nodesExplored := 3, pathLength := 2, path := [(0, 2), (0, 1)] }
      (by decide) 0 1⟩

/-- C6. Start == goal: for every in-bounds position, aStar called with start = goal returns
true after exactly one loop iteration (one unit of fuel is enough, `nodesExplored` is 1),
with `pathLength` 0, an empty `path`, and the grid unchanged. -/
theorem aStar_start_eq_goal (pq : PQueue) (hq : pq.Lawful) (fuel : Nat) (maze : Grid)
    (px py : Int) (hp : InBounds px py) (metrics : PerformanceMetrics) :
    aStar pq (fuel + 1) maze px py px py metrics
      = some (true, maze, { metrics with nodesExplored := 1, pathLength := 0, path := [] }) := by
  obtain ⟨elems, laws⟩ := hq
  have hel := initState_elems pq elems laws px py px py
  cases hpop : pq.pop (initState pq px py px py).openSet with
  | none =>
    rw [laws.pop_none _ hpop] at hel
    exact absurd hel.symm (Multiset.singleton_ne_zero _)
  | some p =>
    obtain ⟨cur, rest⟩ := p
    have hcur : cur = Node.root px py 0 (heuristic px py px py) := by
      have h1 := (laws.pop_some _ _ _ hpop).1
      rw [hel] at h1
      have : cur ∈ ({Node.root px py 0 (heuristic px py px py)} : Multiset Node) := by
        rw [h1]
        exact Multiset.mem_cons_self _ _
      exact Multiset.mem_singleton.1 this
    subst hcur
    apply (aStar_true_iff _ _ _ _ _ _ _ _ _ _).2
    refine ⟨Node.root px py 0 (heuristic px py px py),
      { openSet := rest,
        closed := set2 (initState pq px py px py).closed px py true,
        nodesExplored := (initState pq px py px py).nodesExplored + 1 }, ?_, rfl, ?_⟩
    · rw [searchLoop_succ _ _ _ _ _ _ _ rest hpop]
      have hc : isClosed (initState pq px py px py).closed
          (Node.root px py 0 (heuristic px py px py)).x
          (Node.root px py 0 (heuristic px py px py)).y = false := isClosed_init _ _
      rw [hc]
      simp only [Bool.false_eq_true, if_false, Node.x, Node.y, and_self, if_true]
    · simp [reconstruct, initState]

theorem aStar_start_eq_goal_witness :
    listPQ.Lawful ∧ InBounds 2 2 ∧
    aStar listPQ (0 + 1) referenceMaze 2 2 2 2 metrics0
      = some (true, referenceMaze,
          { metrics0 with nodesExplored := 1, pathLength := 0, path := [] }) :=
  ⟨listPQ_lawful, by decide,
    aStar_start_eq_goal listPQ listPQ_lawful 0 referenceMaze 2 2 (by decide) metrics0⟩

/-! ## The reconstruction loop along the parent chain -/

theorem Node.links_sublist_chain (n : Node) : List.Sublist n.links n.chain := by
  induction n with
  | root x y g h => exact List.nil_sublist _
  | child x y g h p ih => exact ih.cons₂ _

theorem Node.depth_le_of_mem_chain (n : Node) : ∀ a ∈ n.chain, a.depth ≤ n.depth := by
  induction n with
  | root x y g h =>
    intro a ha
    simp only [Node.chain, List.mem_singleton] at ha
    rw [ha]
  | child x y g h p ih =>
    intro a ha
    simp only [Node.chain, List.mem_cons] at ha
    rcases ha with ha | ha
    · rw [ha]
    · have := ih a ha
      simp only [Node.depth]
      omega

theorem Node.chain_depth_decreasing (n : Node) :
    n.chain.Pairwise (fun a b => b.depth < a.depth) := by
  induction n with
  | root x y g h => simp [Node.chain]
  | child x y g h p ih =>
    simp only [Node.chain, List.pairwise_cons]
    refine ⟨?_, ih⟩
    intro b hb
    have := Node.depth_le_of_mem_chain p b hb
    simp only [Node.depth]
    omega

theorem Node.WF.of_mem_chain {maze : Grid} {sx sy tx ty : Int} {n : Node}
    (h : n.WF maze sx sy tx ty) : ∀ a ∈ n.chain, a.WF maze sx sy tx ty := by
  induction n with
  | root x y g h0 =>
    intro a ha
    simp only [Node.chain, List.mem_singleton] at ha
    rw [ha]
    exact h
  | child x y g h0 p ih =>
    intro a ha
    simp only [Node.chain, List.mem_cons] at ha
    rcases ha with ha | ha
    · rw [ha]
      exact h
    · exact ih h.2.2.2.2.2 a ha

theorem Node.WF.start_mem_chain {maze : Grid} {sx sy tx ty : Int} {n : Node}
    (h : n.WF maze sx sy tx ty) : (sx, sy) ∈ n.chain.map Node.pos := by
  induction n with
  | root x y g h0 =>
    obtain ⟨hx, hy, -, -⟩ := h
    simp [Node.chain, Node.pos, Node.x, Node.y, hx, hy]
  | child x y g h0 p ih =>
    simp only [Node.chain, List.map_cons, List.mem_cons]
    exact Or.inr (ih h.2.2.2.2.2)

theorem Node.WF.start_not_mem_links {maze : Grid} {sx sy tx ty : Int} {n : Node}
    (h : n.WF maze sx sy tx ty) (hnd : (n.chain.map Node.pos).Nodup) :
    (sx, sy) ∉ n.links.map Node.pos := by
  induction n with
  | root x y g h0 => simp [Node.links]
  | child x y g h0 p ih =>
    simp only [Node.chain, List.map_cons, List.nodup_cons] at hnd
    simp only [Node.links, List.map_cons, List.mem_cons, not_or]
    refine ⟨?_, ih h.2.2.2.2.2 hnd.2⟩
    intro heq
    apply hnd.1
    rw [← heq]
    exact Node.WF.start_mem_chain h.2.2.2.2.2

theorem Node.WF.links_inBounds {maze : Grid} {sx sy tx ty : Int} {n : Node}
    (h : n.WF maze sx sy tx ty) : ∀ a ∈ n.links, InBounds a.x a.y := by
  induction n with
  | root x y g h0 =>
    intro a ha
    simp [Node.links] at ha
  | child x y g h0 p ih =>
    intro a ha
    simp only [Node.links, List.mem_cons] at ha
    rcases ha with ha | ha
    · rw [ha]
      exact h.2.1
    · exact ih h.2.2.2.2.2 a ha

theorem cell_setCell_same (maze : Grid) (hm : GridShape maze) (x y v : Int)
    (hb : InBounds x y) : cell (setCell maze x y v) x y = v := by
  unfold cell setCell
  rw [at2_set2, if_pos]
  obtain ⟨h1, h2, h3, h4⟩ := hb
  have hr := row_length_of_shape maze ROW COL hm x.toNat (by omega)
  refine ⟨rfl, rfl, ?_, ?_⟩
  · rw [hm.1]; omega
  · rw [hr]; omega

theorem cell_setCell_other (maze : Grid) (x y v i j : Int) (hb : InBounds x y)
    (hb' : InBounds i j) (hne : (i, j) ≠ (x, y)) :
    cell (setCell maze x y v) i j = cell maze i j := by
  unfold cell setCell
  rw [at2_set2, if_neg]
  rintro ⟨h1, h2, -, -⟩
  obtain ⟨b1, b2, b3, b4⟩ := hb
  obtain ⟨c1, c2, c3, c4⟩ := hb'
  apply hne
  rw [Prod.mk.injEq]
  constructor <;> omega

theorem setCell_shape (maze : Grid) (hm : GridShape maze) (x y v : Int) :
    GridShape (setCell maze x y v) :=
  ⟨by unfold setCell; rw [set2_length]; exact hm.1, set2_row_length maze x y v COL hm.2⟩

/-- The grid after the reconstruction loop, cell by cell: a cell holds 2 if it held 0 and is
the position of a visited node, and its old value otherwise. -/
theorem reconstruct_cell_eq (n : Node) (maze : Grid) (m : PerformanceMetrics)
    (hm : GridShape maze) (hb : ∀ a ∈ n.links, InBounds a.x a.y) (i j : Int)
    (hij : InBounds i j) :
    cell (reconstruct n maze m).1 i j =
      if cell maze i j = 0 ∧ (i, j) ∈ n.links.map Node.pos then 2 else cell maze i j := by
  induction n generalizing maze m with
  | root x y g h => simp [reconstruct, Node.links]
  | child x y g h p ih =>
    have hxy : InBounds x y := hb (Node.child x y g h p) (by simp [Node.links])
    have hb' : ∀ a ∈ p.links, InBounds a.x a.y :=
      fun a ha => hb a (by simp only [Node.links, List.mem_cons]; exact Or.inr ha)
    simp only [reconstruct, Node.links, List.map_cons, List.mem_cons]
    have hpos : (Node.child x y g h p).pos = (x, y) := rfl
    rw [hpos]
    by_cases h0 : cell maze x y = 0
    · rw [if_pos h0, ih _ _ (setCell_shape maze hm x y 2) hb']
      by_cases he : (i, j) = (x, y)
      · have h1 : i = x := congrArg Prod.fst he
        have h2 : j = y := congrArg Prod.snd he
        subst h1 h2
        rw [cell_setCell_same maze hm _ _ _ hxy]
        simp [h0]
      · rw [cell_setCell_other maze x y 2 i j hxy hij he]
        simp [he]
    · rw [if_neg h0, ih _ _ hm hb']
      by_cases he : (i, j) = (x, y)
      · have h1 : i = x := congrArg Prod.fst he
        have h2 : j = y := congrArg Prod.snd he
        subst h1 h2
        simp [h0]
      · simp [he]

/-- The path recorded by the reconstruction loop: the positions of the visited nodes whose
cell held 0, in the order visited (from the goal node towards the start node). -/
theorem reconstruct_path (n : Node) (maze : Grid) (m : PerformanceMetrics)
    (hb : ∀ a ∈ n.links, InBounds a.x a.y) (hnd : (n.links.map Node.pos).Nodup) :
    (reconstruct n maze m).2.path = m.path ++ (markedNodes maze n).map Node.pos := by
  induction n generalizing maze m with
  | root x y g h => simp [reconstruct, markedNodes, Node.links]
  | child x y g h p ih =>
    have hxy : InBounds x y := hb (Node.child x y g h p) (by simp [Node.links])
    have hb' : ∀ a ∈ p.links, InBounds a.x a.y :=
      fun a ha => hb a (by simp only [Node.links, List.mem_cons]; exact Or.inr ha)
    simp only [Node.links, List.map_cons, List.nodup_cons] at hnd
    have hpos : (Node.child x y g h p).pos = (x, y) := rfl
    rw [hpos] at hnd
    simp only [reconstruct]
    by_cases h0 : cell maze x y = 0
    · rw [if_pos h0, ih _ _ hb' hnd.2]
      have hsame : markedNodes (setCell maze x y 2) p = markedNodes maze p := by
        unfold markedNodes
        apply List.filter_congr
        intro a ha
        have hne : (a.x, a.y) ≠ (x, y) := by
          intro heq
          apply hnd.1
          rw [← heq]
          exact List.mem_map.2 ⟨a, ha, rfl⟩
        rw [cell_setCell_other maze x y 2 a.x a.y hxy (hb' a ha) hne]
      rw [hsame]
      simp [markedNodes, Node.links, Node.x, Node.y, h0, Node.pos]
    · rw [if_neg h0, ih _ _ hb' hnd.2]
      simp [markedNodes, Node.links, Node.x, Node.y, h0]

theorem Node.links_length (n : Node) : n.links.length = n.depth := by
  induction n with
  | root x y g h => rfl
  | child x y g h p ih => simp [Node.links, Node.depth, ih]

theorem goalNode_of_run (pq : PQueue) (fuel : Nat) (maze : Grid) (sx sy tx ty : Int)
    (node : Node) (st : SearchState pq.Q)
    (h : searchLoop pq maze tx ty fuel (initState pq sx sy tx ty) = some (some node, st)) :
    goalNode pq fuel maze sx sy tx ty = some node := by
  simp [goalNode, h]

/-- A successful run in terms of its goal node: the recorded path, the path length and the
cells of the grid after the call. -/
theorem aStar_true_path (pq : PQueue) (hq : pq.Lawful) (fuel : Nat) (maze : Grid)
    (sx sy tx ty : Int) (hs : InBounds sx sy) (metrics : PerformanceMetrics)
    (maze' : Grid) (metrics' : PerformanceMetrics)
    (h : aStar pq fuel maze sx sy tx ty metrics = some (true, maze', metrics')) :
    ∃ node, goalNode pq fuel maze sx sy tx ty = some node ∧
      OptimalGoalNode maze sx sy tx ty node ∧
      metrics'.path = (markedNodes maze node).map Node.pos ∧
      metrics'.pathLength = node.depth ∧
      (GridShape maze → ∀ i j, InBounds i j → cell maze' i j =
        if cell maze i j = 0 ∧ (i, j) ∈ node.links.map Node.pos then 2 else cell maze i j) := by
  obtain ⟨node, st, hrun, hg, h1, h2, hlen, -⟩ :=
    aStar_true_spec pq hq fuel maze sx sy tx ty hs metrics maze' metrics' h
  have hb := hg.1.links_inBounds
  have hnd : (node.links.map Node.pos).Nodup :=
    hg.2.2.2.2.sublist ((Node.links_sublist_chain node).map Node.pos)
  refine ⟨node, goalNode_of_run _ _ _ _ _ _ _ _ _ hrun, hg, ?_, hlen, ?_⟩
  · rw [h2, reconstruct_path node maze _ hb hnd]
    rfl
  · intro hm i j hij
    rw [h1]
    exact reconstruct_cell_eq node maze _ hm hb i j hij

/-- C7 (as stated, refuted). On a grid of free cells with the start marker at (0,0) and the
goal marker at (0,3), the recorded path is `[(0,2), (0,1)]`: its first entry lies two links
from the start and its second entry one link, so the path is not in start-to-goal order. -/
theorem aStar_path_order_counterexample :
    aStar listPQ 10 markedField 0 0 0 3 metrics0
      = some (true, markedFieldAfter, markedFieldMetrics) ∧
    goalNode listPQ 10 markedField 0 0 0 3 = some markedFieldGoal ∧
    markedFieldMetrics.path = [(0, 2), (0, 1)] ∧
    ¬ StartToGoalOrder markedFieldGoal markedFieldMetrics.path := by
  decide

/-- C7 (amended). Path coordinates are in goal-to-start order: on every successful aStar,
each coordinate stored in `metrics.path` lies fewer links away from the start along the
parent chain of the goal node than every coordinate recorded before it, and saveReport
writes the coordinates one per line in that stored order. -/
theorem aStar_path_goal_to_start (pq : PQueue) (hq : pq.Lawful) (fuel : Nat) (maze : Grid)
    (sx sy tx ty : Int) (hs : InBounds sx sy) (metrics : PerformanceMetrics)
    (maze' : Grid) (metrics' : PerformanceMetrics)
    (h : aStar pq fuel maze sx sy tx ty metrics = some (true, maze', metrics')) :
    ∃ node, goalNode pq fuel maze sx sy tx ty = some node ∧
      GoalToStartOrder node metrics'.path ∧
      saveReportPathLines metrics' = metrics'.path.map
        (fun point => "(" ++ toString point.1 ++ ", " ++ toString point.2 ++ ")") := by
  obtain ⟨node, hnode, hg, hpath, -, -⟩ :=
    aStar_true_path pq hq fuel maze sx sy tx ty hs metrics maze' metrics' h
  refine ⟨node, hnode, ?_, rfl⟩
  unfold GoalToStartOrder
  rw [hpath, List.pairwise_map]
  have hsub : List.Sublist (markedNodes maze node) node.chain :=
    (List.filter_sublist _).trans (Node.links_sublist_chain node)
  have hdec := (Node.chain_depth_decreasing node).sublist hsub
  refine hdec.imp_of_mem ?_
  intro a b ha hb hab
  exact ⟨a, hsub.subset ha, b, hsub.subset hb, rfl, rfl, hab⟩

theorem aStar_path_goal_to_start_witness :
    listPQ.Lawful ∧ InBounds 0 0 ∧
    aStar listPQ 10 markedField 0 0 0 3 metrics0
      = some (true, markedFieldAfter, markedFieldMetrics) ∧
    ∃ node, goalNode listPQ 10 markedField 0 0 0 3 = some node ∧
      GoalToStartOrder node markedFieldMetrics.path ∧
      saveReportPathLines markedFieldMetrics = markedFieldMetrics.path.map
        (fun point => "(" ++ toString point.1 ++ ", " ++ toString point.2 ++ ")") :=
  ⟨listPQ_lawful, by decide, by decide,
    aStar_path_goal_to_start listPQ listPQ_lawful 10 markedField 0 0 0 3 (by decide) metrics0
      markedFieldAfter markedFieldMetrics (by decide)⟩

/-- C8 (as stated, refuted). On a grid of free cells with the start marker at (0,0) and the
goal marker at (0,3), the parent chain has the four positions (0,3), (0,2), (0,1), (0,0) and
`pathLength` is 3, but the recorded path `[(0,2), (0,1)]` has two entries, not four: neither
the start position nor the goal position is recorded. -/
theorem aStar_path_collects_counterexample :
    aStar listPQ 10 markedField 0 0 0 3 metrics0
      = some (true, markedFieldAfter, markedFieldMetrics) ∧
    goalNode listPQ 10 markedField 0 0 0 3 = some markedFieldGoal ∧
    markedFieldMetrics.path = [(0, 2), (0, 1)] ∧ markedFieldMetrics.pathLength = 3 ∧
    ¬ CollectsWholeChain markedFieldGoal markedFieldMetrics := by
  decide

/-- C8 (amended). On every successful aStar, `metrics.path` holds, exactly once each and in
the order visited, the positions of those nodes on the parent chain of the goal node, other
than the parentless start node, whose cell held 0 before the call; so it has no repeated
entry and at most `metrics.pathLength` entries, `pathLength` being the number of links
walked. -/
theorem aStar_path_collects_free (pq : PQueue) (hq : pq.Lawful) (fuel : Nat) (maze : Grid)
    (sx sy tx ty : Int) (hs : InBounds sx sy) (metrics : PerformanceMetrics)
    (maze' : Grid) (metrics' : PerformanceMetrics)
    (h : aStar pq fuel maze sx sy tx ty metrics = some (true, maze', metrics')) :
    ∃ node, goalNode pq fuel maze sx sy tx ty = some node ∧
      metrics'.path = (node.links.filter (fun a => decide (cell maze a.x a.y = 0))).map Node.pos ∧
      metrics'.path.Nodup ∧
      (∀ p, p ∈ metrics'.path ↔ ∃ a ∈ node.links, a.pos = p ∧ cell maze a.x a.y = 0) ∧
      metrics'.pathLength = node.links.length ∧
      (metrics'.path.length : Int) ≤ metrics'.pathLength := by
  obtain ⟨node, hnode, hg, hpath, hlen, -⟩ :=
    aStar_true_path pq hq fuel maze sx sy tx ty hs metrics maze' metrics' h
  have hnd : (node.links.map Node.pos).Nodup :=
    hg.2.2.2.2.sublist ((Node.links_sublist_chain node).map Node.pos)
  refine ⟨node, hnode, hpath, ?_, ?_, ?_, ?_⟩
  · rw [hpath]
    exact hnd.sublist ((List.filter_sublist _).map Node.pos)
  · intro p
    rw [hpath]
    simp only [markedNodes, List.mem_map, List.mem_filter, decide_eq_true_eq]
    constructor
    · rintro ⟨a, ⟨ha, h0⟩, hp⟩
      exact ⟨a, ha, hp, h0⟩
    · rintro ⟨a, ha, hp, h0⟩
      exact ⟨a, ⟨ha, h0⟩, hp⟩
  · rw [hlen, Node.links_length]
  · rw [hlen, hpath, List.length_map, ← Node.links_length]
    exact_mod_cast List.length_filter_le _ _

theorem aStar_path_collects_free_witness :
    listPQ.Lawful ∧ InBounds 0 0 ∧
    aStar listPQ 10 markedField 0 0 0 3 metrics0
      = some (true, markedFieldAfter, markedFieldMetrics) ∧
    ∃ node, goalNode listPQ 10 markedField 0 0 0 3 = some node ∧
      markedFieldMetrics.path
        = (node.links.filter (fun a => decide (cell markedField a.x a.y = 0))).map Node.pos ∧
      markedFieldMetrics.path.Nodup ∧
      (∀ p, p ∈ markedFieldMetrics.path ↔
        ∃ a ∈ node.links, a.pos = p ∧ cell markedField a.x a.y = 0) ∧
      markedFieldMetrics.pathLength = node.links.length ∧
      (markedFieldMetrics.path.length : Int) ≤ markedFieldMetrics.pathLength :=
  ⟨listPQ_lawful, by decide, by decide,
    aStar_path_collects_free listPQ listPQ_lawful 10 markedField 0 0 0 3 (by decide) metrics0
      markedFieldAfter markedFieldMetrics (by decide)⟩

/-- C9 (as stated, refuted). On the grid of free cells, from (0,0) to (0,2), the goal cell
(0,2) holds 0 before the call and 2 after it: the goal position is marked. -/
theorem aStar_endpoints_counterexample :
    aStar listPQ 10 openField 0 0 0 2 metrics0 = some (true,
        setCell (setCell openField 0 2 2) 0 1 2,
        { metrics0 with nodesExplored := 3, pathLength := 2, path := [(0, 2), (0, 1)] }) ∧
    cell openField 0 2 = 0 ∧ cell (setCell (setCell openField 0 2 2) 0 1 2) 0 2 = 2 ∧
    ¬ (cell (setCell (setCell openField 0 2 2) 0 1 2) 0 0 = cell openField 0 0 ∧
       cell (setCell (setCell openField 0 2 2) 0 1 2) 0 2 = cell openField 0 2) := by
  decide

/-- C9 (amended). The start is excluded from marking, the goal is not: on a 12x24 grid with
in-bounds start and goal, after a successful aStar the start cell holds the value it held
before; the goal cell holds the value it held before when that value was not 0 or when the
goal is the start, and holds 2 when it held 0 and the goal is not the start; and a cell is
changed exactly when it held 0 and is the position of a node on the route other than the
start node. -/
theorem aStar_endpoints (pq : PQueue) (hq : pq.Lawful) (fuel : Nat) (maze : Grid)
    (hm : GridShape maze) (sx sy tx ty : Int) (hs : InBounds sx sy) (ht : InBounds tx ty)
    (metrics : PerformanceMetrics) (maze' : Grid) (metrics' : PerformanceMetrics)
    (h : aStar pq fuel maze sx sy tx ty metrics = some (true, maze', metrics')) :
    cell maze' sx sy = cell maze sx sy ∧
    (cell maze tx ty ≠ 0 ∨ (tx, ty) = (sx, sy) → cell maze' tx ty = cell maze tx ty) ∧
    (cell maze tx ty = 0 → (tx, ty) ≠ (sx, sy) → cell maze' tx ty = 2) ∧
    ∃ node, goalNode pq fuel maze sx sy tx ty = some node ∧
      ∀ x y, InBounds x y →
        (cell maze' x y ≠ cell maze x y ↔
          cell maze x y = 0 ∧ (x, y) ∈ node.links.map Node.pos) := by
  obtain ⟨node, hnode, hg, -, -, hcell⟩ :=
    aStar_true_path pq hq fuel maze sx sy tx ty hs metrics maze' metrics' h
  have hcell := hcell hm
  obtain ⟨hwf, hx, hy, -, hnd⟩ := hg
  have hstart : (sx, sy) ∉ node.links.map Node.pos := hwf.start_not_mem_links hnd
  have hs' : cell maze' sx sy = cell maze sx sy := by
    rw [hcell sx sy hs, if_neg (fun hc => hstart hc.2)]
  refine ⟨hs', ?_, ?_, node, hnode, ?_⟩
  · rintro (h0 | he)
    · rw [hcell tx ty ht, if_neg (fun hc => h0 hc.1)]
    · rw [Prod.mk.injEq] at he
      rw [he.1, he.2]
      exact hs'
  · intro h0 hne
    have hmem : (tx, ty) ∈ node.links.map Node.pos := by
      cases node with
      | root x y g h1 =>
        exfalso
        apply hne
        obtain ⟨e1, e2, -, -⟩ := hwf
        simp only [Node.x, Node.y] at hx hy
        rw [← hx, ← hy, e1, e2]
      | child x y g h1 p =>
        simp only [Node.x, Node.y] at hx hy
        simp [Node.links, Node.pos, Node.x, Node.y, hx, hy]
    rw [hcell tx ty ht, if_pos ⟨h0, hmem⟩]
  · intro x y hxy
    rw [hcell x y hxy]
    constructor
    · intro hne
      by_contra hc
      rw [if_neg hc] at hne
      exact hne rfl
    · intro hc
      rw [if_pos hc, hc.1]
      decide

theorem aStar_endpoints_witness :
    listPQ.Lawful ∧ GridShape openField ∧ InBounds 0 0 ∧ InBounds 0 2 ∧
    aStar listPQ 10 openField 0 0 0 2 metrics0 = some (true,
        setCell (setCell openField 0 2 2) 0 1 2,
        { metrics0 with nodesExplored := 3, pathLength := 2, path := [(0, 2), (0, 1)] }) ∧
    (cell (setCell (setCell openField 0 2 2) 0 1 2) 0 0 = cell openField 0 0 ∧
    (cell openField 0 2 ≠ 0 ∨ ((0 : Int), (2 : Int)) = (0, 0) →
      cell (setCell (setCell openField 0 2 2) 0 1 2) 0 2 = cell openField 0 2) ∧
    (cell openField 0 2 = 0 → ((0 : Int), (2 : Int)) ≠ (0, 0) →
      cell (setCell (setCell openField 0 2 2) 0 1 2) 0 2 = 2) ∧
    ∃ node, goalNode listPQ 10 openField 0 0 0 2 = some node ∧
      ∀ x y, InBounds x y →
        (cell (setCell (setCell openField 0 2 2) 0 1 2) x y ≠ cell openField x y ↔
          cell openField x y = 0 ∧ (x, y) ∈ node.links.map Node.pos)) :=
  ⟨listPQ_lawful, by decide, by decide, by decide, by decide,
    aStar_endpoints listPQ listPQ_lawful 10 openField (by decide) 0 0 0 2 (by decide)
      (by decide) metrics0 (setCell (setCell openField 0 2 2) 0 1 2)
      { metrics0 with nodesExplored := 3, pathLength := 2, path := [(0, 2), (0, 1)] }
      (by decide)⟩

/-! ## Scenario A -/

set_option maxRecDepth 1000000 in
set_option maxHeartbeats 4000000 in
/-- The run of Scenario A with the reference queue. -/
theorem referenceMaze_run :
    (aStar listPQ 400 referenceMaze 2 2 4 20 metrics0).map
      (fun r => (r.1, r.2.2.pathLength)) = some (true, 54) := by
  decide

set_option maxRecDepth 1000000 in
theorem referenceMaze_scan : scanStartTarget referenceMaze = (some (2, 2), some (4, 20)) := by
  decide

theorem referenceMaze_shortest : IsShortest referenceMaze 2 2 4 20 54 := by
  have hrun := referenceMaze_run
  rw [Option.map_eq_some'] at hrun
  obtain ⟨r, hr, hval⟩ := hrun
  obtain ⟨b, maze', metrics'⟩ := r
  simp only [Prod.mk.injEq] at hval
  obtain ⟨hb, hlen⟩ := hval
  subst hb
  obtain ⟨node, st, -, hg, -, -, hlen2, -⟩ :=
    aStar_true_spec listPQ listPQ_lawful 400 referenceMaze 2 2 4 20 (by decide) metrics0 _ _ hr
  have hd : node.depth = 54 := by
    rw [hlen] at hlen2
    exact_mod_cast hlen2.symm
  rw [← hd]
  exact hg.isShortest

/-- C10 (as stated, refuted). On the reference grid, whose scan gives the start (2,2) and the
goal (4,20), aStar returns true with `pathLength` 54, not 28. -/
theorem scenarioA_counterexample :
    scanStartTarget referenceMaze = (some (2, 2), some (4, 20)) ∧
    (aStar listPQ 400 referenceMaze 2 2 4 20 metrics0).map
      (fun r => (r.1, r.2.2.pathLength)) = some (true, 54) ∧
    ¬ ((aStar listPQ 400 referenceMaze 2 2 4 20 metrics0).map
      (fun r => (r.1, r.2.2.pathLength)) = some (true, 28)) := by
  refine ⟨referenceMaze_scan, referenceMaze_run, ?_⟩
  rw [referenceMaze_run]
  decide

/-- C10 (amended). Scenario A: on the reference grid of the single-target program, whose
start marker is at (2,2) and whose goal marker is at (4,20), aStar returns true with
`metrics.pathLength == 54`, the length of a shortest route, whatever the queue does among
entries of equal `f`. -/
theorem scenarioA (pq : PQueue) (hq : pq.Lawful) (metrics : PerformanceMetrics) :
    scanStartTarget referenceMaze = (some (2, 2), some (4, 20)) ∧
    (∃ maze' metrics', aStar pq (1 + 4 * ROW * COL) referenceMaze 2 2 4 20 metrics
        = some (true, maze', metrics') ∧ metrics'.pathLength = 54) ∧
    ∀ fuel b maze' metrics', aStar pq fuel referenceMaze 2 2 4 20 metrics
        = some (b, maze', metrics') → b = true ∧ metrics'.pathLength = 54 := by
  have hall : ∀ fuel b maze' metrics', aStar pq fuel referenceMaze 2 2 4 20 metrics
      = some (b, maze', metrics') → b = true ∧ metrics'.pathLength = 54 := by
    intro fuel b maze' metrics' h
    have hb : b = true :=
      (aStar_result pq hq fuel referenceMaze 2 2 4 20 (by decide) metrics b maze' metrics' h).2
        ⟨54, referenceMaze_shortest.1⟩
    subst hb
    obtain ⟨node, st, -, hg, -, -, hlen, -⟩ :=
      aStar_true_spec pq hq fuel referenceMaze 2 2 4 20 (by decide) metrics _ _ h
    refine ⟨rfl, ?_⟩
    rw [hlen, hg.isShortest.unique referenceMaze_shortest]
    rfl
  refine ⟨referenceMaze_scan, ?_, hall⟩
  obtain ⟨b, maze', metrics', h, -⟩ :=
    aStar_total pq hq referenceMaze 2 2 4 20 (by decide) metrics 0
  obtain ⟨hb, hlen⟩ := hall _ b maze' metrics' h
  subst hb
  exact ⟨maze', metrics', h, hlen⟩

theorem scenarioA_witness :
    listPQ.Lawful ∧
    (scanStartTarget referenceMaze = (some (2, 2), some (4, 20)) ∧
    (∃ maze' metrics', aStar listPQ (1 + 4 * ROW * COL) referenceMaze 2 2 4 20 metrics0
        = some (true, maze', metrics') ∧ metrics'.pathLength = 54) ∧
    ∀ fuel b maze' metrics', aStar listPQ fuel referenceMaze 2 2 4 20 metrics0
        = some (b, maze', metrics') → b = true ∧ metrics'.pathLength = 54) :=
  ⟨listPQ_lawful, scenarioA listPQ listPQ_lawful metrics0⟩

/-! ## The heuristic -/

theorem heuristic_eq_abs (x1 y1 x2 y2 : Int) :
    heuristic x1 y1 x2 y2 = |x1 - x2| + |y1 - y2| := by
  unfold heuristic
  rw [Int.natCast_natAbs, Int.natCast_natAbs]

theorem UnitWalk.heuristic_le_length {x y x' y' : Int} {k : Nat} (w : UnitWalk x y x' y' k) :
    heuristic x y x' y' ≤ k := by
  induction w with
  | nil => simp [heuristic_self]
  | @step x' y' x'' y'' k _ ha ih =>
    unfold Adj at ha
    unfold heuristic at ih ⊢
    simp only [Nat.cast_add, Nat.cast_one]
    omega

theorem Walk.toUnitWalk {maze : Grid} {sx sy x y : Int} {k : Nat}
    (w : Walk maze sx sy x y k) : UnitWalk sx sy x y k := by
  induction w with
  | start => exact UnitWalk.nil _ _
  | step _ ha _ _ ih => exact UnitWalk.step ih ha

theorem wrapInt32_of_isInt32 (v : Int) (h : IsInt32 v) : wrapInt32 v = v := by
  unfold IsInt32 at h
  unfold wrapInt32
  omega

theorem wrapInt32_le (v : Int) : wrapInt32 v ≤ 2147483647 := by
  unfold wrapInt32
  omega

theorem absInt32_eq_natAbs (v : Int) (h1 : -2147483647 ≤ v) (h2 : v ≤ 2147483647) :
    absInt32 v = (v.natAbs : Int) := by
  unfold absInt32 wrapInt32
  split_ifs <;> omega

theorem heuristicInt32_eq_heuristic (x1 y1 x2 y2 : Int)
    (h : |x1 - x2| + |y1 - y2| ≤ 2147483647) :
    heuristicInt32 x1 y1 x2 y2 = heuristic x1 y1 x2 y2 := by
  rw [← Int.natCast_natAbs, ← Int.natCast_natAbs] at h
  unfold heuristicInt32 heuristic
  rw [wrapInt32_of_isInt32 (x1 - x2) (by unfold IsInt32; omega),
    wrapInt32_of_isInt32 (y1 - y2) (by unfold IsInt32; omega),
    absInt32_eq_natAbs _ (by omega) (by omega), absInt32_eq_natAbs _ (by omega) (by omega),
    wrapInt32_of_isInt32 _ (by unfold IsInt32; omega)]

theorem heuristicInt32_overflow (x1 y1 x2 y2 : Int)
    (h : |x1 - x2| + |y1 - y2| = 2147483648) :
    heuristicInt32 x1 y1 x2 y2 = -2147483648 := by
  rw [← Int.natCast_natAbs, ← Int.natCast_natAbs] at h
  unfold heuristicInt32
  by_cases hx : (x1 - x2).natAbs = 2147483648
  · have hy : y1 - y2 = 0 := by omega
    have h1 : wrapInt32 (x1 - x2) = -2147483648 := by unfold wrapInt32; omega
    rw [h1, hy]
    decide
  · by_cases hy : (y1 - y2).natAbs = 2147483648
    · have hx0 : x1 - x2 = 0 := by omega
      have h1 : wrapInt32 (y1 - y2) = -2147483648 := by unfold wrapInt32; omega
      rw [h1, hx0]
      decide
    · rw [wrapInt32_of_isInt32 (x1 - x2) (by unfold IsInt32; omega),
        wrapInt32_of_isInt32 (y1 - y2) (by unfold IsInt32; omega),
        absInt32_eq_natAbs _ (by omega) (by omega), absInt32_eq_natAbs _ (by omega) (by omega)]
      unfold wrapInt32
      omega

theorem heuristicInt32_consistent (x y x' y' gx gy : Int) (ha : Adj x y x' y')
    (h' : |x' - gx| + |y' - gy| ≤ 2147483647) :
    heuristicInt32 x y gx gy ≤ 1 + heuristicInt32 x' y' gx gy := by
  rw [heuristicInt32_eq_heuristic x' y' gx gy h']
  by_cases h : |x - gx| + |y - gy| ≤ 2147483647
  · rw [heuristicInt32_eq_heuristic x y gx gy h]
    exact heuristic_consistent x y x' y' gx gy ha
  · have hM : |x - gx| + |y - gy| = 2147483648 := by
      rw [← Int.natCast_natAbs, ← Int.natCast_natAbs] at h h' ⊢
      unfold Adj at ha
      omega
    rw [heuristicInt32_overflow x y gx gy hM]
    have := heuristic_nonneg x' y' gx gy
    omega

theorem heuristicInt32_self (x y : Int) : heuristicInt32 x y x y = 0 := by
  unfold heuristicInt32 absInt32 wrapInt32
  simp

theorem manhattan_inBounds (x1 y1 x2 y2 : Int) (h1 : InBounds x1 y1) (h2 : InBounds x2 y2) :
    |x1 - x2| + |y1 - y2| ≤ 2147483647 := by
  rw [← Int.natCast_natAbs, ← Int.natCast_natAbs]
  unfold InBounds ROW COL at h1 h2
  omega

/-- Every node built by a search between two positions of the grid carries the heuristic as
computed in 32-bit arithmetic: on the grid no `int` operation of heuristic overflows. -/
theorem Node.WF.h_eq_heuristicInt32 {maze : Grid} {sx sy tx ty : Int} {n : Node}
    (h : n.WF maze sx sy tx ty) (hs : InBounds sx sy) (ht : InBounds tx ty) :
    n.h = heuristicInt32 n.x n.y tx ty := by
  rw [heuristicInt32_eq_heuristic n.x n.y tx ty
    (manhattan_inBounds _ _ _ _ (Node.WF.pos_inBounds hs h) ht)]
  exact h.h_eq

theorem UnitWalk.heuristicInt32_le {x y x' y' : Int} {k : Nat} (w : UnitWalk x y x' y' k) :
    heuristicInt32 x y x' y' ≤ k := by
  have hk := w.heuristic_le_length
  by_cases h : |x - x'| + |y - y'| ≤ 2147483647
  · rw [heuristicInt32_eq_heuristic x y x' y' h]
    exact hk
  · rw [heuristic_eq_abs] at hk
    have := wrapInt32_le (absInt32 (wrapInt32 (x - x')) + absInt32 (wrapInt32 (y - y')))
    unfold heuristicInt32
    omega

/-- C16 (as stated, refuted). The arguments 2147483647, 0, -1, 0 are `int` values; in 32-bit
arithmetic the heuristic of (2147483647, 0) and (-1, 0) is -2147483648, while the Manhattan
distance `|x1-x2| + |y1-y2|` is 2147483648; and across the unit step from (2147483646, 0) to
(2147483647, 0) the heuristic towards (-1, 0) drops from 2147483647 to -2147483648, by more
than 1. -/
theorem heuristic_overflow_counterexample :
    IsInt32 2147483647 ∧ IsInt32 0 ∧ IsInt32 (-1) ∧
    heuristicInt32 2147483647 0 (-1) 0 = -2147483648 ∧
    |(2147483647 : Int) - (-1)| + |(0 : Int) - 0| = 2147483648 ∧
    heuristicInt32 2147483647 0 (-1) 0 ≠ |(2147483647 : Int) - (-1)| + |(0 : Int) - 0| ∧
    Adj 2147483646 0 2147483647 0 ∧
    heuristicInt32 2147483646 0 (-1) 0 = 2147483647 ∧
    ¬ (heuristicInt32 2147483646 0 (-1) 0 ≤ 1 + heuristicInt32 2147483647 0 (-1) 0) := by
  have h1 : heuristicInt32 2147483647 0 (-1) 0 = -2147483648 := by decide
  have h2 : heuristicInt32 2147483646 0 (-1) 0 = 2147483647 := by decide
  have h3 : |(2147483647 : Int) - (-1)| + |(0 : Int) - 0| = 2147483648 := by norm_num
  refine ⟨by decide, by decide, by decide, h1, h3, ?_, by unfold Adj; decide, h2, ?_⟩
  · rw [h1, h3]
    decide
  · rw [h1, h2]
    decide

/-- C16 (amended). The heuristic is the Manhattan distance wherever its 32-bit arithmetic
does not overflow: for all coordinates with `|x1-x2| + |y1-y2| <= 2147483647`, which holds
for every two positions of the grid, the value computed in `int` is `|x1-x2| + |y1-y2|`
(and is the value the search is modelled with).  It is consistent there (it drops by at
most 1 across a unit step to a position within that range of the goal, in particular
across each move of `dx`, `dy`), with `heuristic(goal, goal) = 0`; it is admissible (at
most `k` for every 4-directional walk of `k` unit steps between the two positions); and
every successful aStar has `pathLength >= heuristic(start, goal)`. -/
theorem heuristic_manhattan_in_range (pq : PQueue) (hq : pq.Lawful) (fuel : Nat)
    (maze : Grid) (sx sy tx ty : Int) (hs : InBounds sx sy) (metrics : PerformanceMetrics)
    (maze' : Grid) (metrics' : PerformanceMetrics)
    (h : aStar pq fuel maze sx sy tx ty metrics = some (true, maze', metrics')) :
    (∀ x1 y1 x2 y2 : Int, |x1 - x2| + |y1 - y2| ≤ 2147483647 →
      heuristicInt32 x1 y1 x2 y2 = |x1 - x2| + |y1 - y2| ∧
      heuristic x1 y1 x2 y2 = heuristicInt32 x1 y1 x2 y2) ∧
    (∀ x1 y1 x2 y2 : Int, InBounds x1 y1 → InBounds x2 y2 →
      |x1 - x2| + |y1 - y2| ≤ 2147483647) ∧
    (∀ x y x' y' gx gy : Int, Adj x y x' y' → |x' - gx| + |y' - gy| ≤ 2147483647 →
      heuristicInt32 x y gx gy ≤ 1 + heuristicInt32 x' y' gx gy) ∧
    (∀ x y gx gy : Int, ∀ d ∈ List.zip dx dy,
      |x + d.1 - gx| + |y + d.2 - gy| ≤ 2147483647 →
      heuristicInt32 x y gx gy ≤ 1 + heuristicInt32 (x + d.1) (y + d.2) gx gy) ∧
    (∀ gx gy : Int, heuristicInt32 gx gy gx gy = 0) ∧
    (∀ (x y x' y' : Int) (k : Nat), UnitWalk x y x' y' k → heuristicInt32 x y x' y' ≤ k) ∧
    InBounds tx ty ∧
    heuristic sx sy tx ty = heuristicInt32 sx sy tx ty ∧
    heuristicInt32 sx sy tx ty ≤ metrics'.pathLength := by
  obtain ⟨node, st, -, hg, -, -, hlen, -⟩ :=
    aStar_true_spec pq hq fuel maze sx sy tx ty hs metrics maze' metrics' h
  have ht : InBounds tx ty := by
    have := hg.1.pos_inBounds hs
    rw [hg.2.1, hg.2.2.1] at this
    exact this
  have heq := heuristicInt32_eq_heuristic sx sy tx ty (manhattan_inBounds sx sy tx ty hs ht)
  refine ⟨fun x1 y1 x2 y2 hr => ?_, manhattan_inBounds,
    fun x y x' y' gx gy ha hr => heuristicInt32_consistent x y x' y' gx gy ha hr, ?_,
    heuristicInt32_self, fun x y x' y' k w => w.heuristicInt32_le, ht, heq.symm, ?_⟩
  · rw [heuristicInt32_eq_heuristic x1 y1 x2 y2 hr]
    exact ⟨heuristic_eq_abs x1 y1 x2 y2, rfl⟩
  · intro x y gx gy d hd hr
    exact heuristicInt32_consistent x y _ _ gx gy ((adj_iff_dir _ _ _ _).2 ⟨d, hd, rfl, rfl⟩) hr
  · rw [heq, hlen]
    exact hg.isShortest.1.heuristic_le

theorem heuristic_manhattan_in_range_witness :
    listPQ.Lawful ∧ InBounds 0 0 ∧
    aStar listPQ 10 markedField 0 0 0 3 metrics0
      = some (true, markedFieldAfter, markedFieldMetrics) ∧
    ((∀ x1 y1 x2 y2 : Int, |x1 - x2| + |y1 - y2| ≤ 2147483647 →
      heuristicInt32 x1 y1 x2 y2 = |x1 - x2| + |y1 - y2| ∧
      heuristic x1 y1 x2 y2 = heuristicInt32 x1 y1 x2 y2) ∧
    (∀ x1 y1 x2 y2 : Int, InBounds x1 y1 → InBounds x2 y2 →
      |x1 - x2| + |y1 - y2| ≤ 2147483647) ∧
    (∀ x y x' y' gx gy : Int, Adj x y x' y' → |x' - gx| + |y' - gy| ≤ 2147483647 →
      heuristicInt32 x y gx gy ≤ 1 + heuristicInt32 x' y' gx gy) ∧
    (∀ x y gx gy : Int, ∀ d ∈ List.zip dx dy,
      |x + d.1 - gx| + |y + d.2 - gy| ≤ 2147483647 →
      heuristicInt32 x y gx gy ≤ 1 + heuristicInt32 (x + d.1) (y + d.2) gx gy) ∧
    (∀ gx gy : Int, heuristicInt32 gx gy gx gy = 0) ∧
    (∀ (x y x' y' : Int) (k : Nat), UnitWalk x y x' y' k → heuristicInt32 x y x' y' ≤ k) ∧
    InBounds 0 3 ∧
    heuristic 0 0 0 3 = heuristicInt32 0 0 0 3 ∧
    heuristicInt32 0 0 0 3 ≤ markedFieldMetrics.pathLength) :=
  ⟨listPQ_lawful, by decide, by decide,
    heuristic_manhattan_in_range listPQ listPQ_lawful 10 markedField 0 0 0 3 (by decide)
      metrics0 markedFieldAfter markedFieldMetrics (by decide)⟩

/-! ## The parent chain of the goal node -/

theorem Adj.swap {x y x' y' : Int} (h : Adj x y x' y') : Adj x' y' x y := by
  unfold Adj at h ⊢
  omega

theorem Node.WF.chain_eq_links {maze : Grid} {sx sy tx ty : Int} {n : Node}
    (h : n.WF maze sx sy tx ty) :
    n.chain = n.links ++ [Node.root sx sy 0 (heuristic sx sy tx ty)] := by
  induction n with
  | root x y g h0 =>
    obtain ⟨hx, hy, hg, hh⟩ := h
    subst hx hy hg hh
    rfl
  | child x y g h0 p ih =>
    simp only [Node.chain, Node.links, List.cons_append]
    rw [ih h.2.2.2.2.2]

theorem Node.WF.chain_steps {maze : Grid} {sx sy tx ty : Int} {n : Node}
    (h : n.WF maze sx sy tx ty) :
    (n.chain.map Node.pos).Chain' (fun p q => Adj p.1 p.2 q.1 q.2) := by
  induction n with
  | root x y g h0 => simp [Node.chain]
  | child x y g h0 p ih =>
    have hp := ih h.2.2.2.2.2
    rw [Node.chain_eq_cons p] at hp
    simp only [Node.chain]
    rw [Node.chain_eq_cons p]
    simp only [List.map_cons] at hp ⊢
    exact List.Chain'.cons h.1.swap hp

theorem Node.WF.parent_step {maze : Grid} {sx sy tx ty : Int} {n : Node}
    (h : n.WF maze sx sy tx ty) :
    ∀ a ∈ n.chain, ∀ p, a.parent = some p →
      Adj a.x a.y p.x p.y ∧ InBounds a.x a.y ∧ cell maze a.x a.y ≠ 1 ∧ a.g = p.g + 1 := by
  intro a ha p hp
  have hwf := h.of_mem_chain a ha
  cases a with
  | root x y g h0 => simp [Node.parent] at hp
  | child x y g h0 q =>
    simp only [Node.parent, Option.some.injEq] at hp
    subst hp
    exact ⟨hwf.1.swap, hwf.2.1, hwf.2.2.1, hwf.2.2.2.1⟩

theorem Node.WF.root_start {maze : Grid} {sx sy tx ty : Int} {n : Node}
    (h : n.WF maze sx sy tx ty) :
    ∀ a ∈ n.chain, a.parent = none → a.pos = (sx, sy) ∧ a.g = 0 := by
  intro a ha hp
  have hwf := h.of_mem_chain a ha
  cases a with
  | root x y g h0 =>
    obtain ⟨hx, hy, hg, -⟩ := hwf
    subst hx hy hg
    exact ⟨rfl, rfl⟩
  | child x y g h0 q => simp [Node.parent] at hp

/-- C19. The reconstructed parent chain is a valid simple walk: on every successful aStar,
the positions met by following parent links from the goal node (which lies on the goal) to
the parentless node are such that consecutive positions are one unit step apart, every node
with a parent lies in bounds on a cell that is not a wall, no position repeats, the last
position is the start, each node's `g` is its number of links to the start node (one more
than its parent's `g`, and 0 at the parentless node), and `metrics.pathLength` equals the
goal node's `g`. -/
theorem aStar_chain_simple_walk (pq : PQueue) (hq : pq.Lawful) (fuel : Nat) (maze : Grid)
    (sx sy tx ty : Int) (hs : InBounds sx sy) (metrics : PerformanceMetrics)
    (maze' : Grid) (metrics' : PerformanceMetrics)
    (h : aStar pq fuel maze sx sy tx ty metrics = some (true, maze', metrics')) :
    ∃ node, goalNode pq fuel maze sx sy tx ty = some node ∧
      node.pos = (tx, ty) ∧
      (node.chain.map Node.pos).Chain' (fun p q => Adj p.1 p.2 q.1 q.2) ∧
      (∀ a ∈ node.chain, ∀ p, a.parent = some p →
        Adj a.x a.y p.x p.y ∧ InBounds a.x a.y ∧ cell maze a.x a.y ≠ 1 ∧ a.g = p.g + 1) ∧
      (∀ a ∈ node.chain, a.parent = none → a.pos = (sx, sy) ∧ a.g = 0) ∧
      (node.chain.map Node.pos).Nodup ∧
      (node.chain.map Node.pos).getLast? = some (sx, sy) ∧
      (∀ a ∈ node.chain, a.g = a.depth) ∧
      metrics'.pathLength = node.g := by
  obtain ⟨node, hnode, hg, -, hlen, -⟩ :=
    aStar_true_path pq hq fuel maze sx sy tx ty hs metrics maze' metrics' h
  obtain ⟨hwf, hx, hy, -, hnd⟩ := hg
  refine ⟨node, hnode, ?_, hwf.chain_steps, hwf.parent_step, hwf.root_start, hnd, ?_, ?_, ?_⟩
  · simp only [Node.pos, hx, hy]
  · rw [hwf.chain_eq_links]
    simp [Node.pos, Node.x, Node.y]
  · intro a ha
    exact (hwf.of_mem_chain a ha).g_eq_depth
  · rw [hlen, hwf.g_eq_depth]

theorem aStar_chain_simple_walk_witness :
    listPQ.Lawful ∧ InBounds 0 0 ∧
    aStar listPQ 10 markedField 0 0 0 3 metrics0
      = some (true, markedFieldAfter, markedFieldMetrics) ∧
    ∃ node, goalNode listPQ 10 markedField 0 0 0 3 = some node ∧
      node.pos = (0, 3) ∧
      (node.chain.map Node.pos).Chain' (fun p q => Adj p.1 p.2 q.1 q.2) ∧
      (∀ a ∈ node.chain, ∀ p, a.parent = some p →
        Adj a.x a.y p.x p.y ∧ InBounds a.x a.y ∧ cell markedField a.x a.y ≠ 1 ∧
          a.g = p.g + 1) ∧
      (∀ a ∈ node.chain, a.parent = none → a.pos = (0, 0) ∧ a.g = 0) ∧
      (node.chain.map Node.pos).Nodup ∧
      (node.chain.map Node.pos).getLast? = some (0, 0) ∧
      (∀ a ∈ node.chain, a.g = a.depth) ∧
      markedFieldMetrics.pathLength = node.g :=
  ⟨listPQ_lawful, by decide, by decide,
    aStar_chain_simple_walk listPQ listPQ_lawful 10 markedField 0 0 0 3 (by decide) metrics0
      markedFieldAfter markedFieldMetrics (by decide)⟩

/-! ## The scans of the multi-target program -/

theorem findTargets_inner (maze : Grid) (i : Nat) (js : List Nat) (acc : List (Int × Int)) :
    List.foldl
        (fun (targets : List (Int × Int)) (j : Nat) =>
          if cell maze (i : Int) (j : Int) = 9 ∨ cell maze (i : Int) (j : Int) = 8 ∨
              cell maze (i : Int) (j : Int) = 7 ∨ cell maze (i : Int) (j : Int) = 6 then
            targets ++ [((i : Int), (j : Int))]
          else targets)
        acc js
      = acc ++ (js.map (fun (j : Nat) => ((i : Int), (j : Int)))).filter
          (fun p => decide (IsGoalMarker (cell maze p.1 p.2))) := by
  induction js generalizing acc with
  | nil => simp
  | cons j rest ih =>
    rw [List.foldl_cons, ih]
    by_cases hc : cell maze i j = 9 ∨ cell maze i j = 8 ∨ cell maze i j = 7 ∨ cell maze i j = 6
    · simp [hc, IsGoalMarker]
    · simp [hc, IsGoalMarker]

theorem findTargets_outer (maze : Grid) (is : List Nat) (acc : List (Int × Int)) :
    List.foldl
        (fun (targets : List (Int × Int)) (i : Nat) =>
          (List.range COL).foldl
            (fun (targets : List (Int × Int)) (j : Nat) =>
              if cell maze (i : Int) (j : Int) = 9 ∨ cell maze (i : Int) (j : Int) = 8 ∨
                  cell maze (i : Int) (j : Int) = 7 ∨ cell maze (i : Int) (j : Int) = 6 then
                targets ++ [((i : Int), (j : Int))]
              else targets)
            targets)
        acc is
      = acc ++ (is.flatMap
          (fun (i : Nat) => (List.range COL).map (fun (j : Nat) => ((i : Int), (j : Int))))).filter
          (fun p => decide (IsGoalMarker (cell maze p.1 p.2))) := by
  induction is generalizing acc with
  | nil => simp
  | cons i rest ih =>
    rw [List.foldl_cons, ih, findTargets_inner]
    simp [List.flatMap_cons, List.filter_append, List.append_assoc]

/-- The result of findTargets is the row-major list of all positions, restricted to the
cells holding a goal marker. -/
theorem findTargets_eq_filter (maze : Grid) :
    findTargets maze = allCells.filter (fun p => decide (IsGoalMarker (cell maze p.1 p.2))) := by
  unfold findTargets allCells
  rw [findTargets_outer]
  simp

theorem findStart_inner (maze : Grid) (i : Nat) (js : List Nat) (acc : Option (Int × Int)) :
    List.foldl
        (fun (found : Option (Int × Int)) (j : Nat) =>
          match found with
          | some p => some p
          | none => if cell maze (i : Int) (j : Int) = -1 then some ((i : Int), (j : Int)) else none)
        acc js
      = acc.or ((js.map (fun (j : Nat) => ((i : Int), (j : Int)))).find?
          (fun p => decide (cell maze p.1 p.2 = -1))) := by
  induction js generalizing acc with
  | nil => cases acc <;> simp
  | cons j rest ih =>
    rw [List.foldl_cons, ih]
    cases acc with
    | some p => simp
    | none =>
      by_cases hc : cell maze i j = -1
      · simp [hc]
      · simp [hc]

theorem findStart_outer (maze : Grid) (is : List Nat) (acc : Option (Int × Int)) :
    List.foldl
        (fun (found : Option (Int × Int)) (i : Nat) =>
          (List.range COL).foldl
            (fun (found : Option (Int × Int)) (j : Nat) =>
              match found with
              | some p => some p
              | none =>
                if cell maze (i : Int) (j : Int) = -1 then some ((i : Int), (j : Int)) else none)
            found)
        acc is
      = acc.or ((is.flatMap
          (fun (i : Nat) => (List.range COL).map (fun (j : Nat) => ((i : Int), (j : Int))))).find?
          (fun p => decide (cell maze p.1 p.2 = -1))) := by
  induction is generalizing acc with
  | nil => cases acc <;> simp
  | cons i rest ih =>
    rw [List.foldl_cons, ih, findStart_inner]
    rw [List.flatMap_cons, List.find?_append]
    cases acc <;> simp [Option.or_assoc]

/-- The result of findStart is the first position in row-major order holding -1, and
`(-1, -1)` when there is none. -/
theorem findStart_eq_find (maze : Grid) :
    findStart maze
      = (allCells.find? (fun p => decide (cell maze p.1 p.2 = -1))).getD (-1, -1) := by
  unfold findStart allCells
  rw [findStart_outer]
  simp

theorem mem_allCells (p : Int × Int) : p ∈ allCells ↔ InBounds p.1 p.2 := by
  unfold allCells InBounds
  simp only [List.mem_flatMap, List.mem_range, List.mem_map]
  constructor
  · rintro ⟨i, hi, j, hj, rfl⟩
    simp only [ROW, COL] at hi hj ⊢
    omega
  · rintro ⟨h1, h2, h3, h4⟩
    refine ⟨p.1.toNat, ?_, p.2.toNat, ?_, ?_⟩
    · simp only [ROW] at h2 ⊢; omega
    · simp only [COL] at h4 ⊢; omega
    · apply Prod.ext
      · simp only; omega
      · simp only; omega

theorem allCells_sorted : allCells.Pairwise RowMajorLt := by
  unfold allCells
  rw [List.pairwise_flatMap]
  constructor
  · intro i _
    rw [List.pairwise_map]
    refine (List.pairwise_lt_range COL).imp ?_
    intro a b hab
    right
    exact ⟨rfl, by simp only; omega⟩
  · refine (List.pairwise_lt_range ROW).imp ?_
    intro a b hab x hx y hy
    obtain ⟨j, -, rfl⟩ := List.mem_map.1 hx
    obtain ⟨j', -, rfl⟩ := List.mem_map.1 hy
    left
    simp only
    omega

theorem RowMajorLt.ne {p q : Int × Int} (h : RowMajorLt p q) : p ≠ q := by
  intro he
  subst he
  unfold RowMajorLt at h
  omega

theorem mem_findTargets (maze : Grid) (p : Int × Int) :
    p ∈ findTargets maze ↔ InBounds p.1 p.2 ∧ IsGoalMarker (cell maze p.1 p.2) := by
  rw [findTargets_eq_filter, List.mem_filter, mem_allCells]
  simp

theorem findTargets_sorted (maze : Grid) : (findTargets maze).Pairwise RowMajorLt := by
  rw [findTargets_eq_filter]
  exact allCells_sorted.filter _

theorem findTargets_nodup (maze : Grid) : (findTargets maze).Nodup :=
  (findTargets_sorted maze).imp (fun h => h.ne)

/-! ## The loop over the targets -/

theorem visitTarget_legs (pq : PQueue) (fuel : Nat) (st st' : RunState) (i : Nat)
    (t : Int × Int) (h : visitTarget pq fuel st i t = some st') :
    ∃ l : Leg, st'.legs = st.legs ++ [l] ∧ l.index = i ∧ l.target = t ∧
      l.sx = st.current_x ∧ l.sy = st.current_y := by
  unfold visitTarget at h
  split at h
  · exact absurd h (by simp)
  · simp only [Option.some.injEq] at h
    subst h
    exact ⟨_, rfl, rfl, rfl, rfl, rfl⟩
  · simp only [Option.some.injEq] at h
    subst h
    exact ⟨_, rfl, rfl, rfl, rfl, rfl⟩

theorem visitAll_legs (pq : PQueue) (fuel : Nat) (ts : List (Int × Int)) :
    ∀ (st st' : RunState) (i : Nat), visitAll pq fuel st i ts = some st' →
      st'.legs.map Leg.target = st.legs.map Leg.target ++ ts ∧
      st'.legs.map Leg.index = st.legs.map Leg.index ++ List.range' i ts.length := by
  induction ts with
  | nil =>
    intro st st' i h
    simp only [visitAll, Option.some.injEq] at h
    subst h
    simp
  | cons t rest ih =>
    intro st st' i h
    simp only [visitAll] at h
    cases hv : visitTarget pq fuel st i t with
    | none => rw [hv] at h; exact absurd h (by simp)
    | some st1 =>
      rw [hv] at h
      obtain ⟨l, hl, hi, ht, -, -⟩ := visitTarget_legs pq fuel st st1 i t hv
      obtain ⟨h1, h2⟩ := ih st1 st' (i + 1) h
      rw [h1, h2, hl]
      simp [hi, ht, List.range']

theorem mainMulti_completed (pq : PQueue) (fuel : Nat) (maze : Grid) (final : RunState)
    (h : mainMulti pq fuel maze = some (MainOutcome.completed final)) :
    ¬ ((findStart maze).1 = -1 ∨ findTargets maze = []) ∧
    visitAll pq fuel
      { maze := maze, metrics := metrics0, current_x := (findStart maze).1,
        current_y := (findStart maze).2, legs := [] } 0 (findTargets maze) = some final := by
  unfold mainMulti at h
  simp only at h
  split at h
  · simp at h
  · rename_i hc
    refine ⟨hc, ?_⟩
    rw [Option.map_eq_some'] at h
    obtain ⟨st, hst, he⟩ := h
    simp only [MainOutcome.completed.injEq] at he
    rw [← he]
    exact hst

/-- C11. The function findTargets scans in row-major order: on a 12x24 grid it returns
exactly the in-bounds positions whose cell value is 6, 7, 8 or 9, each exactly once, in
strictly increasing lexicographic (row, then column) order; and a multi-goal run that gets
to its loop calls aStar once per target, with the targets in exactly that order (loop index
0, 1, 2, ...), whatever their distance. -/
theorem findTargets_row_major (maze : Grid) (hm : GridShape maze) :
    (∀ p, p ∈ findTargets maze ↔
      InBounds p.1 p.2 ∧ (cell maze p.1 p.2 = 6 ∨ cell maze p.1 p.2 = 7 ∨
        cell maze p.1 p.2 = 8 ∨ cell maze p.1 p.2 = 9)) ∧
    (findTargets maze).Nodup ∧
    (findTargets maze).Pairwise RowMajorLt ∧
    ∀ (pq : PQueue) (fuel : Nat) (final : RunState),
      mainMulti pq fuel maze = some (MainOutcome.completed final) →
      final.legs.map Leg.target = findTargets maze ∧
      final.legs.map Leg.index = List.range (findTargets maze).length := by
  refine ⟨?_, findTargets_nodup maze, findTargets_sorted maze, ?_⟩
  · intro p
    rw [mem_findTargets]
    unfold IsGoalMarker
    constructor
    · rintro ⟨hb, h9 | h8 | h7 | h6⟩
      · exact ⟨hb, Or.inr (Or.inr (Or.inr h9))⟩
      · exact ⟨hb, Or.inr (Or.inr (Or.inl h8))⟩
      · exact ⟨hb, Or.inr (Or.inl h7)⟩
      · exact ⟨hb, Or.inl h6⟩
    · rintro ⟨hb, h6 | h7 | h8 | h9⟩
      · exact ⟨hb, Or.inr (Or.inr (Or.inr h6))⟩
      · exact ⟨hb, Or.inr (Or.inr (Or.inl h7))⟩
      · exact ⟨hb, Or.inr (Or.inl h8)⟩
      · exact ⟨hb, Or.inl h9⟩
  · intro pq fuel final h
    have hl := visitAll_legs pq fuel _ _ _ _ (mainMulti_completed pq fuel maze final h).2
    refine ⟨?_, ?_⟩
    · simpa using hl.1
    · simpa [List.range_eq_range'] using hl.2

set_option maxRecDepth 100000 in
theorem twoGoalField_run :
    mainMulti listPQ 10 twoGoalField = some (MainOutcome.completed twoGoalFinal) := by
  decide

set_option maxRecDepth 1000000 in
theorem findTargets_row_major_witness :
    GridShape twoGoalField ∧
    mainMulti listPQ 10 twoGoalField = some (MainOutcome.completed twoGoalFinal) ∧
    findTargets twoGoalField = [(0, 3), (0, 6)] ∧
    ((∀ p, p ∈ findTargets twoGoalField ↔
      InBounds p.1 p.2 ∧ (cell twoGoalField p.1 p.2 = 6 ∨ cell twoGoalField p.1 p.2 = 7 ∨
        cell twoGoalField p.1 p.2 = 8 ∨ cell twoGoalField p.1 p.2 = 9)) ∧
    (findTargets twoGoalField).Nodup ∧
    (findTargets twoGoalField).Pairwise RowMajorLt ∧
    ∀ (pq : PQueue) (fuel : Nat) (final : RunState),
      mainMulti pq fuel twoGoalField = some (MainOutcome.completed final) →
      final.legs.map Leg.target = findTargets twoGoalField ∧
      final.legs.map Leg.index = List.range (findTargets twoGoalField).length) :=
  ⟨by decide, twoGoalField_run, by decide, findTargets_row_major twoGoalField (by decide)⟩

/-! ## Start and exit code of the multi-target program -/

theorem findStart_inBounds (maze : Grid) (h : (findStart maze).1 ≠ -1) :
    InBounds (findStart maze).1 (findStart maze).2 := by
  rw [findStart_eq_find] at h ⊢
  cases hf : allCells.find? (fun p => decide (cell maze p.1 p.2 = -1)) with
  | none =>
    rw [hf] at h
    simp at h
  | some p =>
    simp only [Option.getD_some]
    exact (mem_allCells p).1 (List.mem_of_find?_eq_some hf)

theorem visitTarget_total (pq : PQueue) (hq : pq.Lawful) (extra : Nat) (st : RunState) (i : Nat)
    (t : Int × Int) (hc : InBounds st.current_x st.current_y) (ht : InBounds t.1 t.2) :
    ∃ st', visitTarget pq (1 + 4 * ROW * COL + extra) st i t = some st' ∧
      InBounds st'.current_x st'.current_y := by
  obtain ⟨b, maze', metrics', h, -⟩ :=
    aStar_total pq hq st.maze st.current_x st.current_y t.1 t.2 hc st.metrics extra
  unfold visitTarget aStarMulti
  rw [h]
  cases b with
  | false => exact ⟨_, rfl, hc⟩
  | true => exact ⟨_, rfl, ht⟩

theorem visitAll_total (pq : PQueue) (hq : pq.Lawful) (extra : Nat) (ts : List (Int × Int)) :
    ∀ (st : RunState) (i : Nat), InBounds st.current_x st.current_y →
      (∀ t ∈ ts, InBounds t.1 t.2) →
      ∃ st', visitAll pq (1 + 4 * ROW * COL + extra) st i ts = some st' := by
  induction ts with
  | nil =>
    intro st i _ _
    exact ⟨st, rfl⟩
  | cons t rest ih =>
    intro st i hc hts
    obtain ⟨st1, h1, hc1⟩ := visitTarget_total pq hq extra st i t hc
      (hts t (List.mem_cons_self _ _))
    obtain ⟨st2, h2⟩ := ih st1 (i + 1) hc1 (fun u hu => hts u (List.mem_cons_of_mem _ hu))
    refine ⟨st2, ?_⟩
    simp only [visitAll, h1]
    exact h2

theorem mainMulti_total (pq : PQueue) (hq : pq.Lawful) (maze : Grid) (extra : Nat) :
    ∃ o, mainMulti pq (1 + 4 * ROW * COL + extra) maze = some o := by
  unfold mainMulti
  simp only
  split
  · exact ⟨_, rfl⟩
  · rename_i hc
    rw [not_or] at hc
    have hb : InBounds (findStart maze).1 (findStart maze).2 := findStart_inBounds maze hc.1
    have hts : ∀ t ∈ findTargets maze, InBounds t.1 t.2 :=
      fun t ht => ((mem_findTargets maze t).1 ht).1
    generalize findStart maze = s at hb ⊢
    generalize findTargets maze = ts at hts ⊢
    obtain ⟨st', h⟩ := visitAll_total pq hq extra ts
      { maze := maze, metrics := metrics0, current_x := s.1, current_y := s.2, legs := [] } 0
      hb hts
    rw [h]
    exact ⟨_, rfl⟩

theorem Walk.congr_walls {m m0 : Grid} (hw : SameWalls m m0) {sx sy x y : Int} {k : Nat}
    (w : Walk m sx sy x y k) : Walk m0 sx sy x y k := by
  induction w with
  | start => exact Walk.start
  | step _ ha hb hc ih =>
    refine Walk.step ih ha hb ?_
    intro h1
    exact hc ((hw _ _ hb).2 h1)

theorem SameWalls.flip {m m0 : Grid} (hw : SameWalls m m0) : SameWalls m0 m :=
  fun x y hb => (hw x y hb).symm

theorem SameWalls.trans {m1 m2 m3 : Grid} (h12 : SameWalls m1 m2) (h23 : SameWalls m2 m3) :
    SameWalls m1 m3 :=
  fun x y hb => (h12 x y hb).trans (h23 x y hb)

theorem SameWalls.reachable_iff {m m0 : Grid} (hw : SameWalls m m0) (sx sy tx ty : Int) :
    Reachable m sx sy tx ty ↔ Reachable m0 sx sy tx ty :=
  ⟨fun ⟨k, w⟩ => ⟨k, w.congr_walls hw⟩, fun ⟨k, w⟩ => ⟨k, w.congr_walls hw.flip⟩⟩

theorem aStar_sameWalls (pq : PQueue) (fuel : Nat) (maze : Grid) (sx sy tx ty : Int)
    (metrics : PerformanceMetrics) (b : Bool) (maze' : Grid) (metrics' : PerformanceMetrics)
    (h : aStar pq fuel maze sx sy tx ty metrics = some (b, maze', metrics')) :
    SameWalls maze' maze := by
  cases b with
  | false =>
    obtain ⟨st, -, h1, -⟩ := (aStar_false_iff _ _ _ _ _ _ _ _ _ _).1 h
    subst h1
    exact fun _ _ _ => Iff.rfl
  | true =>
    obtain ⟨node, st, -, h1, -⟩ := (aStar_true_iff _ _ _ _ _ _ _ _ _ _).1 h
    subst h1
    intro x y _
    have key := reconstruct_cells node maze
      { metrics with nodesExplored := st.nodesExplored, pathLength := 0, path := [] } x y
    by_cases he : cell (reconstruct node maze
        { metrics with nodesExplored := st.nodesExplored, pathLength := 0, path := [] }).1 x y
        = cell maze x y
    · rw [he]
    · obtain ⟨h0, h2⟩ := key he
      rw [h0, h2]
      decide

theorem aStar_targetsReached (pq : PQueue) (fuel : Nat) (maze : Grid) (sx sy tx ty : Int)
    (metrics : PerformanceMetrics) (b : Bool) (maze' : Grid) (metrics' : PerformanceMetrics)
    (h : aStar pq fuel maze sx sy tx ty metrics = some (b, maze', metrics')) :
    metrics'.targetsReached = metrics.targetsReached := by
  cases b with
  | false =>
    obtain ⟨st, -, -, h2⟩ := (aStar_false_iff _ _ _ _ _ _ _ _ _ _).1 h
    subst h2
    rfl
  | true =>
    obtain ⟨node, st, -, -, h2⟩ := (aStar_true_iff _ _ _ _ _ _ _ _ _ _).1 h
    subst h2
    exact (reconstruct_frame _ _ _).2.1

theorem setCell_sameWalls (m : Grid) (tx ty v : Int) (ht : InBounds tx ty)
    (hc : cell m tx ty ≠ 1) (hv : v ≠ 1) : SameWalls (setCell m tx ty v) m := by
  intro x y hb
  by_cases he : (x, y) = (tx, ty)
  · have h1 : x = tx := congrArg Prod.fst he
    have h2 : y = ty := congrArg Prod.snd he
    subst h1 h2
    have hset : cell (setCell m x y v) x y =
        if x.toNat = x.toNat ∧ y.toNat = y.toNat ∧ x.toNat < m.length ∧
          y.toNat < (m.getD x.toNat []).length then v else cell m x y :=
      at2_set2 0 m x y x y v
    rw [hset]
    split
    · exact ⟨fun h => absurd h hv, fun h => absurd h hc⟩
    · exact Iff.rfl
  · rw [cell_setCell_other m tx ty v x y ht hb he]

/-- One leg of the multi-goal run, for a lawful queue: the leg succeeds exactly when the
target is reachable on the initial grid, and the walls stay where they are. -/
theorem visitTarget_result (pq : PQueue) (hq : pq.Lawful) (fuel : Nat) (m0 : Grid)
    (st st' : RunState) (i : Nat) (t : Int × Int)
    (hc : InBounds st.current_x st.current_y) (ht : InBounds t.1 t.2)
    (hw : SameWalls st.maze m0) (ht1 : cell m0 t.1 t.2 ≠ 1)
    (h : visitTarget pq fuel st i t = some st') :
    SameWalls st'.maze m0 ∧
    (Reachable m0 st.current_x st.current_y t.1 t.2 →
      st'.current_x = t.1 ∧ st'.current_y = t.2 ∧
      st'.metrics.targetsReached = st.metrics.targetsReached + 1) ∧
    (¬ Reachable m0 st.current_x st.current_y t.1 t.2 →
      st'.current_x = st.current_x ∧ st'.current_y = st.current_y ∧
      st'.metrics.targetsReached = st.metrics.targetsReached) := by
  unfold visitTarget aStarMulti at h
  cases ha : aStar pq fuel st.maze st.current_x st.current_y t.1 t.2 st.metrics with
  | none =>
    rw [ha] at h
    exact absurd h (by simp)
  | some r =>
    obtain ⟨b, maze', metrics'⟩ := r
    rw [ha] at h
    have hres := aStar_result pq hq fuel st.maze _ _ _ _ hc st.metrics b maze' metrics' ha
    rw [hw.reachable_iff] at hres
    have hsw := (aStar_sameWalls pq fuel st.maze _ _ _ _ st.metrics b maze' metrics' ha).trans hw
    have htr := aStar_targetsReached pq fuel st.maze _ _ _ _ st.metrics b maze' metrics' ha
    cases b with
    | false =>
      simp only [Option.some.injEq] at h
      subst h
      have hnr : ¬ Reachable m0 st.current_x st.current_y t.1 t.2 := by
        intro hr
        exact absurd (hres.2 hr) (by decide)
      exact ⟨hsw, fun hr => absurd hr hnr, fun _ => ⟨rfl, rfl, htr⟩⟩
    | true =>
      simp only [Option.some.injEq] at h
      subst h
      have hr : Reachable m0 st.current_x st.current_y t.1 t.2 := hres.1 rfl
      refine ⟨?_, fun _ => ⟨rfl, rfl, ?_⟩, fun hn => absurd hr hn⟩
      · refine (setCell_sameWalls maze' t.1 t.2 2 ht ?_ (by decide)).trans hsw
        intro h1
        exact ht1 ((hsw _ _ ht).1 h1)
      · simp only
        rw [htr]

/-- A multi-goal run in which every target is reachable from the one before it reaches all
of them, for every lawful queue. -/
theorem visitAll_reach_all (pq : PQueue) (hq : pq.Lawful) (fuel : Nat) (m0 : Grid)
    (ts : List (Int × Int)) :
    ∀ (st st' : RunState) (i : Nat), InBounds st.current_x st.current_y →
      SameWalls st.maze m0 → (∀ t ∈ ts, InBounds t.1 t.2 ∧ cell m0 t.1 t.2 ≠ 1) →
      ChainReachable m0 (st.current_x, st.current_y) ts →
      visitAll pq fuel st i ts = some st' →
      st'.metrics.targetsReached = st.metrics.targetsReached + ts.length ∧
      (st'.current_x, st'.current_y) = ts.getLastD (st.current_x, st.current_y) := by
  induction ts with
  | nil =>
    intro st st' i _ _ _ _ h
    simp only [visitAll, Option.some.injEq] at h
    subst h
    simp
  | cons t rest ih =>
    intro st st' i hc hw hts hch h
    simp only [visitAll] at h
    cases hv : visitTarget pq fuel st i t with
    | none => rw [hv] at h; exact absurd h (by simp)
    | some st1 =>
      rw [hv] at h
      obtain ⟨ht, ht1⟩ := hts t (List.mem_cons_self _ _)
      obtain ⟨hw1, hreach, -⟩ := visitTarget_result pq hq fuel m0 st st1 i t hc ht hw ht1 hv
      obtain ⟨hx, hy, hn⟩ := hreach hch.1
      have hc1 : InBounds st1.current_x st1.current_y := by rw [hx, hy]; exact ht
      have hch1 : ChainReachable m0 (st1.current_x, st1.current_y) rest := by
        rw [hx, hy]
        exact hch.2
      obtain ⟨h1, h2⟩ := ih st1 st' (i + 1) hc1 hw1
        (fun u hu => hts u (List.mem_cons_of_mem _ hu)) hch1 h
      refine ⟨?_, ?_⟩
      · rw [h1, hn, List.length_cons]
        push_cast
        ring
      · rw [h2, hx, hy]
        cases rest <;> rfl

/-! ## Scenario B -/

theorem reachable_of_run (fuel : Nat) (maze : Grid) (sx sy tx ty : Int) (hs : InBounds sx sy)
    (h : (aStar listPQ fuel maze sx sy tx ty metrics0).map (fun r => r.1) = some true) :
    Reachable maze sx sy tx ty := by
  rw [Option.map_eq_some'] at h
  obtain ⟨r, hr, hb⟩ := h
  obtain ⟨b, maze', metrics'⟩ := r
  simp only at hb
  subst hb
  exact (aStar_result listPQ listPQ_lawful fuel maze sx sy tx ty hs metrics0 true maze'
    metrics' hr).1 rfl

set_option maxRecDepth 1000000 in
theorem multiMaze_targets :
    findTargets multiMaze = [(3, 20), (4, 20), (5, 5), (7, 15), (9, 18)] := by
  decide

set_option maxRecDepth 1000000 in
theorem multiMaze_start : findStart multiMaze = (2, 2) := by
  decide

set_option maxRecDepth 1000000 in
set_option maxHeartbeats 4000000 in
theorem multiMaze_leg0 :
    (aStar listPQ 400 multiMaze 2 2 3 20 metrics0).map (fun r => r.1) = some true := by
  decide

set_option maxRecDepth 1000000 in
set_option maxHeartbeats 4000000 in
theorem multiMaze_leg1 :
    (aStar listPQ 400 multiMaze 3 20 4 20 metrics0).map (fun r => r.1) = some true := by
  decide

set_option maxRecDepth 1000000 in
set_option maxHeartbeats 4000000 in
theorem multiMaze_leg2 :
    (aStar listPQ 400 multiMaze 4 20 5 5 metrics0).map (fun r => r.1) = some true := by
  decide

set_option maxRecDepth 1000000 in
set_option maxHeartbeats 4000000 in
theorem multiMaze_leg3 :
    (aStar listPQ 400 multiMaze 5 5 7 15 metrics0).map (fun r => r.1) = some true := by
  decide

set_option maxRecDepth 1000000 in
set_option maxHeartbeats 4000000 in
theorem multiMaze_leg4 :
    (aStar listPQ 400 multiMaze 7 15 9 18 metrics0).map (fun r => r.1) = some true := by
  decide

theorem multiMaze_chain :
    ChainReachable multiMaze (2, 2) [(3, 20), (4, 20), (5, 5), (7, 15), (9, 18)] :=
  ⟨reachable_of_run 400 multiMaze 2 2 3 20 (by decide) multiMaze_leg0,
   reachable_of_run 400 multiMaze 3 20 4 20 (by decide) multiMaze_leg1,
   reachable_of_run 400 multiMaze 4 20 5 5 (by decide) multiMaze_leg2,
   reachable_of_run 400 multiMaze 5 5 7 15 (by decide) multiMaze_leg3,
   reachable_of_run 400 multiMaze 7 15 9 18 (by decide) multiMaze_leg4, trivial⟩

set_option maxRecDepth 1000000 in
set_option maxHeartbeats 4000000 in
/-- The multi-goal run of Scenario B with the reference queue. -/
theorem multiMaze_run :
    ((mainMulti listPQ 400 multiMaze).bind MainOutcome.final?).map
      (fun st => (st.legs.map Leg.target, st.legs.map (fun l => l.found),
        st.metrics.targetsReached, st.current_x, st.current_y))
      = some ([(3, 20), (4, 20), (5, 5), (7, 15), (9, 18)], [true, true, true, true, true],
          5, 9, 18) := by
  decide

/-- C12 (as stated, refuted). On the grid built by the multi-target `main`, five goals are
discovered, in the order (3,20), (4,20), (5,5), (7,15), (9,18), not the four goals (4,20),
(7,15), (5,5), (9,18); all five legs succeed, so the run ends with `targetsReached == 5`,
not 4, at the position (9,18). -/
theorem scenarioB_counterexample :
    findTargets multiMaze = [(3, 20), (4, 20), (5, 5), (7, 15), (9, 18)] ∧
    ((mainMulti listPQ 400 multiMaze).bind MainOutcome.final?).map
      (fun st => (st.legs.map Leg.target, st.legs.map (fun l => l.found),
        st.metrics.targetsReached, st.current_x, st.current_y))
      = some ([(3, 20), (4, 20), (5, 5), (7, 15), (9, 18)], [true, true, true, true, true],
          5, 9, 18) ∧
    ¬ (findTargets multiMaze = [(4, 20), (7, 15), (5, 5), (9, 18)]) ∧
    ¬ (((mainMulti listPQ 400 multiMaze).bind MainOutcome.final?).map
      (fun st => st.metrics.targetsReached) = some 4) := by
  refine ⟨multiMaze_targets, multiMaze_run, ?_, ?_⟩
  · rw [multiMaze_targets]
    decide
  · have h := multiMaze_run
    rw [Option.map_eq_some'] at h
    obtain ⟨st, hst, hval⟩ := h
    rw [hst]
    simp only [Prod.mk.injEq] at hval
    simp only [Option.map_some', Option.some.injEq]
    rw [hval.2.2.1]
    decide

/-- C12 (amended). Scenario B: on the reference grid as built by the multi-target `main`,
the goals are discovered in row-major order, in which (4,20), (5,5), (7,15), (9,18) come in
that order; the run reaches every discovered goal (`metrics.targetsReached` equals the
number of discovered goals) and ends with current position (9,18), whatever the queue does
among entries of equal `f`. -/
theorem scenarioB (pq : PQueue) (hq : pq.Lawful) :
    (findTargets multiMaze).Pairwise RowMajorLt ∧
    List.Sublist [(4, 20), (5, 5), (7, 15), (9, 18)] (findTargets multiMaze) ∧
    (∃ final, mainMulti pq (1 + 4 * ROW * COL) multiMaze = some (MainOutcome.completed final)) ∧
    ∀ fuel o, mainMulti pq fuel multiMaze = some o →
      ∃ final, o = MainOutcome.completed final ∧
        final.legs.map Leg.target = findTargets multiMaze ∧
        final.metrics.targetsReached = (findTargets multiMaze).length ∧
        (final.current_x, final.current_y) = (9, 18) := by
  have hall : ∀ fuel o, mainMulti pq fuel multiMaze = some o →
      ∃ final, o = MainOutcome.completed final ∧
        final.legs.map Leg.target = findTargets multiMaze ∧
        final.metrics.targetsReached = (findTargets multiMaze).length ∧
        (final.current_x, final.current_y) = (9, 18) := by
    intro fuel o h
    cases o with
    | noStartOrTargets =>
      exfalso
      unfold mainMulti at h
      simp only [multiMaze_start, multiMaze_targets] at h
      rw [if_neg (by decide)] at h
      rw [Option.map_eq_some'] at h
      obtain ⟨st, -, he⟩ := h
      exact absurd he (by simp)
    | completed final =>
      obtain ⟨-, hrun⟩ := mainMulti_completed pq fuel multiMaze final h
      refine ⟨final, rfl, ?_, ?_⟩
      · have := (visitAll_legs pq fuel _ _ _ _ hrun).1
        simpa using this
      · rw [multiMaze_start, multiMaze_targets] at hrun
        have hts : ∀ t ∈ [((3 : Int), (20 : Int)), (4, 20), (5, 5), (7, 15), (9, 18)],
            InBounds t.1 t.2 ∧ cell multiMaze t.1 t.2 ≠ 1 := by
          decide
        obtain ⟨h1, h2⟩ := visitAll_reach_all pq hq fuel multiMaze _ _ final 0
          (by decide) (fun _ _ _ => Iff.rfl) hts multiMaze_chain hrun
        rw [multiMaze_targets]
        refine ⟨?_, ?_⟩
        · rw [h1]
          rfl
        · rw [h2]
          rfl
  refine ⟨findTargets_sorted multiMaze, ?_, ?_, hall⟩
  · rw [multiMaze_targets]
    exact List.Sublist.cons _ (List.Sublist.refl _)
  · obtain ⟨o, ho⟩ := mainMulti_total pq hq multiMaze 0
    obtain ⟨final, hf, -⟩ := hall _ o ho
    subst hf
    exact ⟨final, ho⟩

theorem scenarioB_witness :
    listPQ.Lawful ∧
    ((findTargets multiMaze).Pairwise RowMajorLt ∧
    List.Sublist [(4, 20), (5, 5), (7, 15), (9, 18)] (findTargets multiMaze) ∧
    (∃ final, mainMulti listPQ (1 + 4 * ROW * COL) multiMaze
      = some (MainOutcome.completed final)) ∧
    ∀ fuel o, mainMulti listPQ fuel multiMaze = some o →
      ∃ final, o = MainOutcome.completed final ∧
        final.legs.map Leg.target = findTargets multiMaze ∧
        final.metrics.targetsReached = (findTargets multiMaze).length ∧
        (final.current_x, final.current_y) = (9, 18)) :=
  ⟨listPQ_lawful, scenarioB listPQ listPQ_lawful⟩

/-! ## The path and the grid across the legs -/

theorem lastFoundPath_snoc (legs : List Leg) (l : Leg) :
    lastFoundPath (legs ++ [l]) = if l.found then l.path else lastFoundPath legs := by
  unfold lastFoundPath
  rw [List.reverse_append, List.reverse_singleton, List.singleton_append, List.find?_cons]
  cases hf : l.found <;> simp

theorem aStar_false_path (pq : PQueue) (fuel : Nat) (maze : Grid) (sx sy tx ty : Int)
    (metrics : PerformanceMetrics) (maze' : Grid) (metrics' : PerformanceMetrics)
    (h : aStar pq fuel maze sx sy tx ty metrics = some (false, maze', metrics')) :
    maze' = maze ∧ metrics'.path = metrics.path := by
  obtain ⟨st, -, h1, h2⟩ := (aStar_false_iff _ _ _ _ _ _ _ _ _ _).1 h
  subst h1 h2
  exact ⟨rfl, rfl⟩

theorem visitTarget_path (pq : PQueue) (fuel : Nat) (st st' : RunState) (i : Nat)
    (t : Int × Int) (hp : st.metrics.path = lastFoundPath st.legs)
    (h : visitTarget pq fuel st i t = some st') :
    st'.metrics.path = lastFoundPath st'.legs := by
  unfold visitTarget aStarMulti at h
  cases ha : aStar pq fuel st.maze st.current_x st.current_y t.1 t.2 st.metrics with
  | none =>
    rw [ha] at h
    exact absurd h (by simp)
  | some r =>
    obtain ⟨b, maze', metrics'⟩ := r
    rw [ha] at h
    cases b with
    | false =>
      simp only [Option.some.injEq] at h
      subst h
      simp only [lastFoundPath_snoc]
      rw [(aStar_false_path pq fuel _ _ _ _ _ _ _ _ ha).2, hp]
      simp
    | true =>
      simp only [Option.some.injEq] at h
      subst h
      simp only [lastFoundPath_snoc]
      simp

theorem visitAll_path (pq : PQueue) (fuel : Nat) (ts : List (Int × Int)) :
    ∀ (st st' : RunState) (i : Nat), st.metrics.path = lastFoundPath st.legs →
      visitAll pq fuel st i ts = some st' → st'.metrics.path = lastFoundPath st'.legs := by
  induction ts with
  | nil =>
    intro st st' i hp h
    simp only [visitAll, Option.some.injEq] at h
    subst h
    exact hp
  | cons t rest ih =>
    intro st st' i hp h
    simp only [visitAll] at h
    cases hv : visitTarget pq fuel st i t with
    | none => rw [hv] at h; exact absurd h (by simp)
    | some st1 =>
      rw [hv] at h
      exact ih st1 st' (i + 1) (visitTarget_path pq fuel st st1 i t hp hv) h

theorem reconstruct_shape (n : Node) (maze : Grid) (m : PerformanceMetrics)
    (hm : GridShape maze) : GridShape (reconstruct n maze m).1 := by
  induction n generalizing maze m with
  | root x y g h => exact hm
  | child x y g h p ih =>
    simp only [reconstruct]
    split
    · exact ih _ _ (setCell_shape maze hm x y 2)
    · exact ih _ _ hm

theorem aStar_shape (pq : PQueue) (fuel : Nat) (maze : Grid) (sx sy tx ty : Int)
    (metrics : PerformanceMetrics) (b : Bool) (maze' : Grid) (metrics' : PerformanceMetrics)
    (h : aStar pq fuel maze sx sy tx ty metrics = some (b, maze', metrics'))
    (hm : GridShape maze) : GridShape maze' := by
  cases b with
  | false =>
    obtain ⟨st, -, h1, -⟩ := (aStar_false_iff _ _ _ _ _ _ _ _ _ _).1 h
    subst h1
    exact hm
  | true =>
    obtain ⟨node, st, -, h1, -⟩ := (aStar_true_iff _ _ _ _ _ _ _ _ _ _).1 h
    subst h1
    exact reconstruct_shape _ _ _ hm

/-- The grid and the path built by the reconstruction loop do not depend on the counters of
the metrics handed in. -/
theorem reconstruct_congr (n : Node) (maze : Grid) (m1 m2 : PerformanceMetrics)
    (hp : m1.path = m2.path) :
    (reconstruct n maze m1).1 = (reconstruct n maze m2).1 ∧
    (reconstruct n maze m1).2.path = (reconstruct n maze m2).2.path := by
  induction n generalizing maze m1 m2 with
  | root x y g h => exact ⟨rfl, hp⟩
  | child x y g h p ih =>
    simp only [reconstruct]
    split
    · exact ih _ _ _ (by simp only [hp])
    · exact ih _ _ _ hp

/-- A successful aStar replaces the path: the path and the grid it returns are the same
whatever metrics, in particular whatever path, were handed in. -/
theorem aStar_path_reset (pq : PQueue) (fuel : Nat) (maze : Grid) (sx sy tx ty : Int)
    (m1 m2 : PerformanceMetrics) (maze1 maze2 : Grid) (m1' m2' : PerformanceMetrics)
    (h1 : aStar pq fuel maze sx sy tx ty m1 = some (true, maze1, m1'))
    (h2 : aStar pq fuel maze sx sy tx ty m2 = some (true, maze2, m2')) :
    m1'.path = m2'.path ∧ maze1 = maze2 := by
  obtain ⟨node, st, hrun, a1, a2⟩ := (aStar_true_iff _ _ _ _ _ _ _ _ _ _).1 h1
  obtain ⟨node', st', hrun', b1, b2⟩ := (aStar_true_iff _ _ _ _ _ _ _ _ _ _).1 h2
  rw [hrun] at hrun'
  simp only [Option.some.injEq, Prod.mk.injEq] at hrun'
  obtain ⟨hn, hst⟩ := hrun'
  subst hn hst a1 a2 b1 b2
  have := reconstruct_congr node maze
    { m1 with nodesExplored := st.nodesExplored, pathLength := 0, path := [] }
    { m2 with nodesExplored := st.nodesExplored, pathLength := 0, path := [] } rfl
  exact ⟨this.2, this.1⟩

theorem cell_setCell_two (m : Grid) (tx ty x y : Int) :
    cell (setCell m tx ty 2) x y = 2 ∨ cell (setCell m tx ty 2) x y = cell m x y := by
  have hset : cell (setCell m tx ty 2) x y =
      if tx.toNat = x.toNat ∧ ty.toNat = y.toNat ∧ tx.toNat < m.length ∧
        ty.toNat < (m.getD tx.toNat []).length then 2 else cell m x y :=
    at2_set2 0 m tx ty x y 2
  rw [hset]
  split
  · exact Or.inl rfl
  · exact Or.inr rfl

/-- The coordinates a successful aStar leaves in the path: cells inside the grid that held 0
when the call began and hold 2 when it returns. -/
theorem aStar_recorded (pq : PQueue) (hq : pq.Lawful) (fuel : Nat) (maze : Grid)
    (hm : GridShape maze) (sx sy tx ty : Int) (hs : InBounds sx sy)
    (metrics : PerformanceMetrics) (maze' : Grid) (metrics' : PerformanceMetrics)
    (h : aStar pq fuel maze sx sy tx ty metrics = some (true, maze', metrics')) :
    (∀ p ∈ metrics'.path, InBounds p.1 p.2 ∧ cell maze p.1 p.2 = 0 ∧ cell maze' p.1 p.2 = 2) ∧
    (∀ x y, InBounds x y → cell maze x y ≠ 0 → cell maze' x y = cell maze x y) ∧
    (∀ x y, InBounds x y → cell maze' x y = 0 → cell maze x y = 0) := by
  obtain ⟨node, -, hg, hpath, -, hcell⟩ :=
    aStar_true_path pq hq fuel maze sx sy tx ty hs metrics maze' metrics' h
  have hcell := hcell hm
  refine ⟨?_, ?_, ?_⟩
  · intro p hp
    rw [hpath] at hp
    obtain ⟨a, ha, rfl⟩ := List.mem_map.1 hp
    unfold markedNodes at ha
    obtain ⟨hal, ha0⟩ := List.mem_filter.1 ha
    have ha0 : cell maze a.x a.y = 0 := by simpa using ha0
    have hb : InBounds a.x a.y := hg.1.links_inBounds a hal
    refine ⟨hb, ha0, ?_⟩
    have hmem : (a.x, a.y) ∈ node.links.map Node.pos := List.mem_map.2 ⟨a, hal, rfl⟩
    have := hcell a.x a.y hb
    rw [if_pos ⟨ha0, hmem⟩] at this
    exact this
  · intro x y hb hne
    have := hcell x y hb
    rw [if_neg (fun hc => hne hc.1)] at this
    exact this
  · intro x y hb h0
    have := hcell x y hb
    by_cases hc : cell maze x y = 0 ∧ (x, y) ∈ node.links.map Node.pos
    · exact hc.1
    · rw [if_neg hc] at this
      rw [← this]
      exact h0

theorem visitTarget_legsInv (pq : PQueue) (hq : pq.Lawful) (fuel : Nat) (m0 : Grid)
    (st st' : RunState) (i : Nat) (t : Int × Int) (ht : InBounds t.1 t.2)
    (hI : LegsInv m0 st) (h : visitTarget pq fuel st i t = some st') : LegsInv m0 st' := by
  unfold visitTarget aStarMulti at h
  cases ha : aStar pq fuel st.maze st.current_x st.current_y t.1 t.2 st.metrics with
  | none =>
    rw [ha] at h
    exact absurd h (by simp)
  | some r =>
    obtain ⟨b, maze', metrics'⟩ := r
    rw [ha] at h
    cases b with
    | false =>
      simp only [Option.some.injEq] at h
      subst h
      obtain ⟨hmz, -⟩ := aStar_false_path pq fuel _ _ _ _ _ _ _ _ ha
      subst hmz
      refine ⟨hI.shape, hI.current, hI.free, ?_, ?_⟩
      · intro l hl hf p hp
        rcases List.mem_append.1 hl with hl | hl
        · exact hI.recorded l hl hf p hp
        · rw [List.mem_singleton] at hl
          subst hl
          exact absurd hf (by simp)
      · refine List.pairwise_append.2 ⟨hI.disjoint, List.pairwise_singleton _ _, ?_⟩
        intro a _ b hb _ hf
        rw [List.mem_singleton] at hb
        subst hb
        exact absurd hf (by simp)
    | true =>
      simp only [Option.some.injEq] at h
      subst h
      obtain ⟨hrec, hkeep, hzero⟩ := aStar_recorded pq hq fuel st.maze hI.shape _ _ _ _
        hI.current st.metrics maze' metrics' ha
      have hsh : GridShape maze' := aStar_shape pq fuel _ _ _ _ _ _ _ _ _ ha hI.shape
      have htwo : ∀ x y, cell maze' x y = 2 → cell (setCell maze' t.1 t.2 2) x y = 2 := by
        intro x y h2
        rcases cell_setCell_two maze' t.1 t.2 x y with h3 | h3
        · exact h3
        · rw [h3, h2]
      refine ⟨setCell_shape maze' hsh _ _ _, ht, ?_, ?_, ?_⟩
      · intro x y hb h0
        apply hI.free x y hb
        apply hzero x y hb
        rcases cell_setCell_two maze' t.1 t.2 x y with h3 | h3
        · simp only at h0
          rw [h3] at h0
          exact absurd h0 (by decide)
        · rw [← h3]
          exact h0
      · intro l hl hf p hp
        rcases List.mem_append.1 hl with hl | hl
        · obtain ⟨hb, h0, hs2, h2⟩ := hI.recorded l hl hf p hp
          refine ⟨hb, h0, hs2, htwo _ _ ?_⟩
          rw [hkeep p.1 p.2 hb (by rw [h2]; decide)]
          exact h2
        · rw [List.mem_singleton] at hl
          subst hl
          obtain ⟨hb, h0, h2⟩ := hrec p hp
          exact ⟨hb, hI.free p.1 p.2 hb h0, h2, htwo _ _ h2⟩
      · refine List.pairwise_append.2 ⟨hI.disjoint, List.pairwise_singleton _ _, ?_⟩
        intro a ha' b hb haf _ p hp hpb
        rw [List.mem_singleton] at hb
        subst hb
        obtain ⟨-, -, -, h2⟩ := hI.recorded a ha' haf p hp
        obtain ⟨-, h0, -⟩ := hrec p hpb
        rw [h2] at h0
        exact absurd h0 (by decide)

theorem visitAll_legsInv (pq : PQueue) (hq : pq.Lawful) (fuel : Nat) (m0 : Grid)
    (ts : List (Int × Int)) :
    ∀ (st st' : RunState) (i : Nat), (∀ t ∈ ts, InBounds t.1 t.2) → LegsInv m0 st →
      visitAll pq fuel st i ts = some st' → LegsInv m0 st' := by
  induction ts with
  | nil =>
    intro st st' i _ hI h
    simp only [visitAll, Option.some.injEq] at h
    subst h
    exact hI
  | cons t rest ih =>
    intro st st' i hts hI h
    simp only [visitAll] at h
    cases hv : visitTarget pq fuel st i t with
    | none => rw [hv] at h; exact absurd h (by simp)
    | some st1 =>
      rw [hv] at h
      exact ih st1 st' (i + 1) (fun u hu => hts u (List.mem_cons_of_mem _ hu))
        (visitTarget_legsInv pq hq fuel m0 st st1 i t (hts t (List.mem_cons_self _ _)) hI hv) h

theorem visitAll_snoc (pq : PQueue) (fuel : Nat) (ts : List (Int × Int)) (t : Int × Int) :
    ∀ (st : RunState) (i : Nat), visitAll pq fuel st i (ts ++ [t]) =
      (visitAll pq fuel st i ts).bind (fun s => visitTarget pq fuel s (i + ts.length) t) := by
  induction ts with
  | nil =>
    intro st i
    simp only [List.nil_append, visitAll, List.length_nil, Nat.add_zero, Option.some_bind]
    cases visitTarget pq fuel st i t <;> rfl
  | cons u rest ih =>
    intro st i
    simp only [List.cons_append, visitAll, List.length_cons]
    cases hv : visitTarget pq fuel st i u with
    | none => rfl
    | some st1 =>
      have hi := ih st1 (i + 1)
      rw [show i + 1 + rest.length = i + (rest.length + 1) by omega] at hi
      exact hi

theorem visitAll_legs_length (pq : PQueue) (fuel : Nat) (ts : List (Int × Int))
    (st st' : RunState) (i : Nat) (h : visitAll pq fuel st i ts = some st') :
    st'.legs.length = st.legs.length + ts.length := by
  have := congrArg List.length (visitAll_legs pq fuel ts st st' i h).1
  simpa using this

/-- What one iteration of the loop over the targets logs: the position the search started
from, and the path, which a successful search records anew along the parent chain of its
goal node and a failed search leaves as it was. -/
theorem visitTarget_record (pq : PQueue) (hq : pq.Lawful) (fuel : Nat) (st st' : RunState)
    (i : Nat) (t : Int × Int) (hc : InBounds st.current_x st.current_y)
    (h : visitTarget pq fuel st i t = some st') :
    ∃ l, st'.legs = st.legs ++ [l] ∧ l.sx = st.current_x ∧ l.sy = st.current_y ∧
      (l.found = true → ∃ node, goalNode pq fuel st.maze l.sx l.sy l.tx l.ty = some node ∧
        l.path = (markedNodes st.maze node).map Node.pos) ∧
      (l.found = false → l.path = st.metrics.path) := by
  unfold visitTarget aStarMulti at h
  cases ha : aStar pq fuel st.maze st.current_x st.current_y t.1 t.2 st.metrics with
  | none =>
    rw [ha] at h
    exact absurd h (by simp)
  | some r =>
    obtain ⟨b, maze', metrics'⟩ := r
    rw [ha] at h
    cases b with
    | false =>
      simp only [Option.some.injEq] at h
      subst h
      refine ⟨_, rfl, rfl, rfl, fun hf => absurd hf (by simp), fun _ => ?_⟩
      exact (aStar_false_path pq fuel _ _ _ _ _ _ _ _ ha).2
    | true =>
      simp only [Option.some.injEq] at h
      subst h
      obtain ⟨node, hnode, -, hpath, -, -⟩ :=
        aStar_true_path pq hq fuel st.maze _ _ _ _ hc st.metrics maze' metrics' ha
      exact ⟨_, rfl, rfl, rfl, fun _ => ⟨node, hnode, hpath⟩, fun hf => absurd hf (by simp)⟩

/-- Every logged leg in terms of the state in which its iteration began. -/
theorem visitAll_record (pq : PQueue) (hq : pq.Lawful) (fuel : Nat) (m0 : Grid)
    (init : RunState) (hI : LegsInv m0 init) (hnil : init.legs = []) (ts : List (Int × Int)) :
    (∀ t ∈ ts, InBounds t.1 t.2) → ∀ final, visitAll pq fuel init 0 ts = some final →
      ∀ k l, final.legs[k]? = some l →
        ∃ before, visitAll pq fuel init 0 (ts.take k) = some before ∧
          l.sx = before.current_x ∧ l.sy = before.current_y ∧
          (l.found = true → ∃ node,
            goalNode pq fuel before.maze l.sx l.sy l.tx l.ty = some node ∧
            l.path = (markedNodes before.maze node).map Node.pos) ∧
          (l.found = false → l.path = before.metrics.path) := by
  induction ts using List.reverseRecOn with
  | nil =>
    intro _ final h k l hk
    simp only [visitAll, Option.some.injEq] at h
    subst h
    rw [hnil] at hk
    exact absurd hk (by simp)
  | append_singleton ts' t ih =>
    intro hts final h k l hk
    rw [visitAll_snoc] at h
    cases hmid : visitAll pq fuel init 0 ts' with
    | none =>
      rw [hmid] at h
      exact absurd h (by simp)
    | some mid =>
      rw [hmid] at h
      simp only [Option.some_bind, Nat.zero_add] at h
      have hts' : ∀ u ∈ ts', InBounds u.1 u.2 := fun u hu => hts u (List.mem_append_left _ hu)
      have hImid : LegsInv m0 mid := visitAll_legsInv pq hq fuel m0 ts' init mid 0 hts' hI hmid
      have hlen : mid.legs.length = ts'.length := by
        have := visitAll_legs_length pq fuel ts' init mid 0 hmid
        rw [hnil] at this
        simpa using this
      obtain ⟨lnew, hlegs, hsx, hsy, hfound, hfail⟩ :=
        visitTarget_record pq hq fuel mid final ts'.length t hImid.current h
      rw [hlegs] at hk
      by_cases hlt : k < mid.legs.length
      · rw [List.getElem?_append_left hlt] at hk
        obtain ⟨before, hb, rest⟩ := ih hts' mid hmid k l hk
        refine ⟨before, ?_, rest⟩
        rw [List.take_append_of_le_length (by omega)]
        exact hb
      · have hge : mid.legs.length ≤ k := Nat.le_of_not_lt hlt
        rw [List.getElem?_append_right hge] at hk
        have hk0 : k - mid.legs.length = 0 := by
          by_contra hne
          have h1 : ([lnew] : List Leg)[k - mid.legs.length]? = none :=
            List.getElem?_eq_none (by simp; omega)
          rw [h1] at hk
          exact absurd hk (by simp)
        have hkeq : k = ts'.length := by omega
        rw [hk0] at hk
        simp only [List.getElem?_cons_zero, Option.some.injEq] at hk
        subst hk
        refine ⟨mid, ?_, hsx, hsy, hfound, hfail⟩
        rw [hkeq, List.take_left']
        · exact hmid
        · rfl

theorem legsInv_init (m0 : Grid) (hm : GridShape m0) (x y : Int) (hb : InBounds x y) :
    LegsInv m0 { maze := m0, metrics := metrics0, current_x := x, current_y := y, legs := [] } :=
  ⟨hm, hb, fun _ _ _ h0 => h0, fun l hl => absurd hl (List.not_mem_nil l), List.Pairwise.nil⟩

/-- C14 (as stated, refuted). On a grid of free cells with the start marker at (0,0) and goal
markers at (0,3) and (0,6), both legs succeed; the first leg records `[(0,2), (0,1)]`, the
second `[(0,5), (0,4)]`, and the path left in the metrics after the run is `[(0,5), (0,4)]`:
the coordinates of the first leg are gone. -/
theorem multi_path_counterexample :
    mainMulti listPQ 10 twoGoalField = some (MainOutcome.completed twoGoalFinal) ∧
    twoGoalFinal.legs.map (fun l => (l.found, l.path))
      = [(true, [(0, 2), (0, 1)]), (true, [(0, 5), (0, 4)])] ∧
    twoGoalFinal.metrics.path = [(0, 5), (0, 4)] ∧
    ¬ HoldsEveryLegPath twoGoalFinal.legs twoGoalFinal.metrics.path := by
  refine ⟨twoGoalField_run, ?_, ?_, ?_⟩ <;> decide

/-- C14 (amended). The path is replaced by each successful leg: a successful aStar returns
the same path whatever path it was handed; leg by leg, the path right after a successful
aStar call is the list of coordinates that call recorded along the parent chain of its goal
node, on the grid handed to it, and a failed call leaves the path as it was.  After all legs
of a multi-goal run the `metrics.path` handed to saveReport is the coordinate list recorded
by the last successful leg (and is empty when no leg succeeded), and it holds no coordinate
recorded by an earlier successful leg: the coordinates recorded by a successful leg are
cells that held 0 in the initial grid and hold 2 from then on, so no two successful legs
record a coordinate in common.  saveReport writes the path one coordinate per line. -/
theorem multi_path_last_leg (pq : PQueue) (hq : pq.Lawful) (fuel : Nat) (maze : Grid)
    (hm : GridShape maze) (final : RunState)
    (h : mainMulti pq fuel maze = some (MainOutcome.completed final)) :
    (∀ (grid : Grid) (sx sy tx ty : Int) (m1 m2 : PerformanceMetrics) (r1 r2 : Grid × PerformanceMetrics),
      aStar pq fuel grid sx sy tx ty m1 = some (true, r1) →
      aStar pq fuel grid sx sy tx ty m2 = some (true, r2) → r1.2.path = r2.2.path) ∧
    (∀ k l, final.legs[k]? = some l →
      ∃ before, stateBefore pq fuel maze k = some before ∧
        l.sx = before.current_x ∧ l.sy = before.current_y ∧
        (l.found = true → ∃ node,
          goalNode pq fuel before.maze l.sx l.sy l.tx l.ty = some node ∧
          l.path = (markedNodes before.maze node).map Node.pos) ∧
        (l.found = false → l.path = before.metrics.path)) ∧
    final.metrics.path = lastFoundPath final.legs ∧
    (∀ pre l post, final.legs = pre ++ l :: post → l.found = true →
      (∀ l' ∈ post, l'.found = false) →
      final.metrics.path = l.path ∧
      ∀ l' ∈ pre, l'.found = true → ∀ p ∈ l'.path, p ∉ final.metrics.path) ∧
    (∀ l ∈ final.legs, l.found = true → ∀ p ∈ l.path,
      InBounds p.1 p.2 ∧ cell maze p.1 p.2 = 0 ∧ cell l.mazeSearched p.1 p.2 = 2 ∧
        cell final.maze p.1 p.2 = 2) ∧
    final.legs.Pairwise LegsDisjoint ∧
    saveReportPathLines final.metrics = (lastFoundPath final.legs).map
      (fun point => "(" ++ toString point.1 ++ ", " ++ toString point.2 ++ ")") := by
  obtain ⟨hne, hrun⟩ := mainMulti_completed pq fuel maze final h
  have hstart : InBounds (findStart maze).1 (findStart maze).2 :=
    findStart_inBounds maze (fun h1 => hne (Or.inl h1))
  have hts : ∀ t ∈ findTargets maze, InBounds t.1 t.2 :=
    fun t ht => ((mem_findTargets maze t).1 ht).1
  have hp : final.metrics.path = lastFoundPath final.legs :=
    visitAll_path pq fuel _ _ _ _ rfl hrun
  have hrec : ∀ k l, final.legs[k]? = some l →
      ∃ before, stateBefore pq fuel maze k = some before ∧
        l.sx = before.current_x ∧ l.sy = before.current_y ∧
        (l.found = true → ∃ node,
          goalNode pq fuel before.maze l.sx l.sy l.tx l.ty = some node ∧
          l.path = (markedNodes before.maze node).map Node.pos) ∧
        (l.found = false → l.path = before.metrics.path) := by
    unfold stateBefore
    generalize findStart maze = s at hrun hstart
    generalize findTargets maze = ts at hrun hts
    exact visitAll_record pq hq fuel maze _ (legsInv_init maze hm s.1 s.2 hstart) rfl ts hts
      final hrun
  have hI : LegsInv maze final := by
    generalize findStart maze = s at hrun hstart
    generalize findTargets maze = ts at hrun hts
    exact visitAll_legsInv pq hq fuel maze ts _ final 0 hts
      (legsInv_init maze hm s.1 s.2 hstart) hrun
  refine ⟨?_, hrec, hp, ?_, hI.recorded, hI.disjoint, ?_⟩
  · intro grid sx sy tx ty m1 m2 r1 r2 h1 h2
    exact (aStar_path_reset pq fuel grid sx sy tx ty m1 m2 r1.1 r2.1 r1.2 r2.2 h1 h2).1
  · intro pre l post hl hf hpost
    have hlast : final.metrics.path = l.path := by
      rw [hp, hl]
      clear hl hp
      induction post using List.reverseRecOn with
      | nil =>
        rw [lastFoundPath_snoc, hf]
        rfl
      | append_singleton post' l' ih =>
        have hl' : l'.found = false := hpost l' (by simp)
        have : pre ++ l :: (post' ++ [l']) = (pre ++ l :: post') ++ [l'] := by simp
        rw [this, lastFoundPath_snoc, hl']
        exact ih (fun u hu => hpost u (by simp [hu]))
    refine ⟨hlast, ?_⟩
    intro l' hl' hf' p hp'
    rw [hlast]
    have hd := hI.disjoint
    rw [hl] at hd
    exact (List.pairwise_append.1 hd).2.2 l' hl' l (List.mem_cons_self _ _) hf' hf p hp'
  · unfold saveReportPathLines
    rw [hp]

set_option maxRecDepth 1000000 in
theorem multi_path_last_leg_witness :
    listPQ.Lawful ∧ GridShape twoGoalField ∧
    mainMulti listPQ 10 twoGoalField = some (MainOutcome.completed twoGoalFinal) ∧
    ((∀ (grid : Grid) (sx sy tx ty : Int) (m1 m2 : PerformanceMetrics) (r1 r2 : Grid × PerformanceMetrics),
      aStar listPQ 10 grid sx sy tx ty m1 = some (true, r1) →
      aStar listPQ 10 grid sx sy tx ty m2 = some (true, r2) → r1.2.path = r2.2.path) ∧
    (∀ k l, twoGoalFinal.legs[k]? = some l →
      ∃ before, stateBefore listPQ 10 twoGoalField k = some before ∧
        l.sx = before.current_x ∧ l.sy = before.current_y ∧
        (l.found = true → ∃ node,
          goalNode listPQ 10 before.maze l.sx l.sy l.tx l.ty = some node ∧
          l.path = (markedNodes before.maze node).map Node.pos) ∧
        (l.found = false → l.path = before.metrics.path)) ∧
    twoGoalFinal.metrics.path = lastFoundPath twoGoalFinal.legs ∧
    (∀ pre l post, twoGoalFinal.legs = pre ++ l :: post → l.found = true →
      (∀ l' ∈ post, l'.found = false) →
      twoGoalFinal.metrics.path = l.path ∧
      ∀ l' ∈ pre, l'.found = true → ∀ p ∈ l'.path, p ∉ twoGoalFinal.metrics.path) ∧
    (∀ l ∈ twoGoalFinal.legs, l.found = true → ∀ p ∈ l.path,
      InBounds p.1 p.2 ∧ cell twoGoalField p.1 p.2 = 0 ∧ cell l.mazeSearched p.1 p.2 = 2 ∧
        cell twoGoalFinal.maze p.1 p.2 = 2) ∧
    twoGoalFinal.legs.Pairwise LegsDisjoint ∧
    saveReportPathLines twoGoalFinal.metrics = (lastFoundPath twoGoalFinal.legs).map
      (fun point => "(" ++ toString point.1 ++ ", " ++ toString point.2 ++ ")")) :=
  ⟨listPQ_lawful, by decide, twoGoalField_run,
    multi_path_last_leg listPQ listPQ_lawful 10 twoGoalField (by decide) twoGoalFinal
      twoGoalField_run⟩

theorem reachedTargets_snoc (legs : List Leg) (l : Leg) :
    reachedTargets (legs ++ [l])
      = reachedTargets legs ++ (if l.found then [l.target] else []) := by
  unfold reachedTargets
  rw [List.filter_append, List.map_append]
  cases hf : l.found <;> simp [List.filter, hf]

theorem MarksFreeOrReached.mono {m0 m : Grid} {r r' : List (Int × Int)}
    (h : MarksFreeOrReached m0 m r) (hr : ∀ p ∈ r, p ∈ r') : MarksFreeOrReached m0 m r' := by
  intro x y hb
  rcases h x y hb with h1 | ⟨h2, h3 | h3⟩
  · exact Or.inl h1
  · exact Or.inr ⟨h2, Or.inl h3⟩
  · exact Or.inr ⟨h2, Or.inr (hr _ h3)⟩

theorem aStar_cells (pq : PQueue) (fuel : Nat) (maze : Grid) (sx sy tx ty : Int)
    (metrics : PerformanceMetrics) (b : Bool) (maze' : Grid) (metrics' : PerformanceMetrics)
    (h : aStar pq fuel maze sx sy tx ty metrics = some (b, maze', metrics')) (x y : Int) :
    cell maze' x y = cell maze x y ∨ (cell maze x y = 0 ∧ cell maze' x y = 2) := by
  cases b with
  | false =>
    obtain ⟨st, -, h1, -⟩ := (aStar_false_iff _ _ _ _ _ _ _ _ _ _).1 h
    subst h1
    exact Or.inl rfl
  | true =>
    obtain ⟨node, st, -, h1, -⟩ := (aStar_true_iff _ _ _ _ _ _ _ _ _ _).1 h
    subst h1
    by_cases he : cell (reconstruct node maze
        { metrics with nodesExplored := st.nodesExplored, pathLength := 0, path := [] }).1 x y
        = cell maze x y
    · exact Or.inl he
    · exact Or.inr (reconstruct_cells node maze _ x y he)

theorem MarksFreeOrReached.after_aStar {m0 m m' : Grid} {r : List (Int × Int)}
    (h : MarksFreeOrReached m0 m r)
    (hc : ∀ x y, cell m' x y = cell m x y ∨ (cell m x y = 0 ∧ cell m' x y = 2)) :
    MarksFreeOrReached m0 m' r := by
  intro x y hb
  rcases hc x y with h1 | ⟨h0, h2⟩
  · rw [h1]
    exact h x y hb
  · rcases h x y hb with h3 | ⟨h3, -⟩
    · exact Or.inr ⟨h2, Or.inl (by rw [← h3, h0])⟩
    · rw [h0] at h3
      exact absurd h3 (by decide)

theorem MarksFreeOrReached.after_mark {m0 m : Grid} {r : List (Int × Int)} {t : Int × Int}
    (h : MarksFreeOrReached m0 m r) (ht : InBounds t.1 t.2) :
    MarksFreeOrReached m0 (setCell m t.1 t.2 2) (r ++ [t]) := by
  intro x y hb
  by_cases he : (x, y) = t
  · have hset : cell (setCell m t.1 t.2 2) x y =
        if t.1.toNat = x.toNat ∧ t.2.toNat = y.toNat ∧ t.1.toNat < m.length ∧
          t.2.toNat < (m.getD t.1.toNat []).length then 2 else cell m x y :=
      at2_set2 0 m t.1 t.2 x y 2
    rw [hset]
    split
    · exact Or.inr ⟨rfl, Or.inr (by rw [he]; simp)⟩
    · exact (h.mono (fun p hp => List.mem_append_left _ hp)) x y hb
  · rw [cell_setCell_other m t.1 t.2 2 x y ht hb he]
    exact (h.mono (fun p hp => List.mem_append_left _ hp)) x y hb

theorem visitTarget_grid (pq : PQueue) (fuel : Nat) (m0 : Grid) (st st' : RunState) (i : Nat)
    (t : Int × Int) (ht : InBounds t.1 t.2)
    (hJ : MarksFreeOrReached m0 st.maze (reachedTargets st.legs))
    (hL : ∀ k l, st.legs[k]? = some l →
      MarksFreeOrReached m0 l.mazeSearched (reachedTargets (st.legs.take k)))
    (h : visitTarget pq fuel st i t = some st') :
    MarksFreeOrReached m0 st'.maze (reachedTargets st'.legs) ∧
    ∀ k l, st'.legs[k]? = some l →
      MarksFreeOrReached m0 l.mazeSearched (reachedTargets (st'.legs.take k)) := by
  unfold visitTarget aStarMulti at h
  cases ha : aStar pq fuel st.maze st.current_x st.current_y t.1 t.2 st.metrics with
  | none =>
    rw [ha] at h
    exact absurd h (by simp)
  | some r =>
    obtain ⟨b, maze', metrics'⟩ := r
    rw [ha] at h
    have hsearched : MarksFreeOrReached m0 maze' (reachedTargets st.legs) :=
      hJ.after_aStar (aStar_cells pq fuel st.maze _ _ _ _ st.metrics b maze' metrics' ha)
    have hlegs : ∀ (l0 : Leg), l0.mazeSearched = maze' → ∀ k l, (st.legs ++ [l0])[k]? = some l →
        MarksFreeOrReached m0 l.mazeSearched (reachedTargets ((st.legs ++ [l0]).take k)) := by
      intro l0 hl0 k l hk
      by_cases hlt : k < st.legs.length
      · rw [List.getElem?_append_left hlt] at hk
        rw [List.take_append_of_le_length (Nat.le_of_lt hlt)]
        exact hL k l hk
      · have hge : st.legs.length ≤ k := Nat.le_of_not_lt hlt
        rw [List.getElem?_append_right hge] at hk
        have hk0 : k - st.legs.length = 0 := by
          by_contra hne
          have h1 : ([l0] : List Leg)[k - st.legs.length]? = none :=
            List.getElem?_eq_none (by simp; omega)
          rw [h1] at hk
          exact absurd hk (by simp)
        have hkeq : k = st.legs.length := by omega
        rw [hk0] at hk
        simp only [List.getElem?_cons_zero, Option.some.injEq] at hk
        subst hk
        rw [hkeq, List.take_left', hl0]
        · exact hsearched
        · rfl
    cases b with
    | false =>
      simp only [Option.some.injEq] at h
      subst h
      refine ⟨?_, hlegs _ rfl⟩
      simp only [reachedTargets_snoc]
      exact hsearched.mono (fun p hp => List.mem_append_left _ hp)
    | true =>
      simp only [Option.some.injEq] at h
      subst h
      refine ⟨?_, hlegs _ rfl⟩
      simp only [reachedTargets_snoc]
      exact hsearched.after_mark ht

theorem visitAll_grid (pq : PQueue) (fuel : Nat) (m0 : Grid) (ts : List (Int × Int)) :
    ∀ (st st' : RunState) (i : Nat), (∀ t ∈ ts, InBounds t.1 t.2) →
      MarksFreeOrReached m0 st.maze (reachedTargets st.legs) →
      (∀ k l, st.legs[k]? = some l →
        MarksFreeOrReached m0 l.mazeSearched (reachedTargets (st.legs.take k))) →
      visitAll pq fuel st i ts = some st' →
      MarksFreeOrReached m0 st'.maze (reachedTargets st'.legs) ∧
      ∀ k l, st'.legs[k]? = some l →
        MarksFreeOrReached m0 l.mazeSearched (reachedTargets (st'.legs.take k)) := by
  induction ts with
  | nil =>
    intro st st' i _ hJ hL h
    simp only [visitAll, Option.some.injEq] at h
    subst h
    exact ⟨hJ, hL⟩
  | cons t rest ih =>
    intro st st' i hts hJ hL h
    simp only [visitAll] at h
    cases hv : visitTarget pq fuel st i t with
    | none => rw [hv] at h; exact absurd h (by simp)
    | some st1 =>
      rw [hv] at h
      obtain ⟨hJ1, hL1⟩ := visitTarget_grid pq fuel m0 st st1 i t
        (hts t (List.mem_cons_self _ _)) hJ hL hv
      exact ih st1 st' (i + 1) (fun u hu => hts u (List.mem_cons_of_mem _ hu)) hJ1 hL1 h

theorem reachedTargets_subset (legs : List Leg) :
    ∀ p ∈ reachedTargets legs, p ∈ legs.map Leg.target := by
  intro p hp
  unfold reachedTargets at hp
  obtain ⟨l, hl, rfl⟩ := List.mem_map.1 hp
  exact List.mem_map.2 ⟨l, (List.mem_filter.1 hl).1, rfl⟩

/-- C17 (as stated, refuted). On a grid of free cells with the start marker at (0,0) and goal
markers at (0,3) and (0,6), the goal cell (0,3) holds 9 in the initial grid and 2 at the end
of the multi-goal run: `main` overwrites a reached goal with the path mark. -/
theorem multi_grid_counterexample :
    mainMulti listPQ 10 twoGoalField = some (MainOutcome.completed twoGoalFinal) ∧
    cell twoGoalField 0 3 = 9 ∧ cell twoGoalFinal.maze 0 3 = 2 ∧
    ¬ MarksOnlyFree twoGoalField twoGoalFinal.maze := by
  refine ⟨twoGoalField_run, by decide, by decide, ?_⟩
  intro h
  have := h 0 3 (by decide) (by decide)
  exact absurd this (by decide)

/-- C17 (amended). Grid invariant over a whole multi-goal run: right after every aStar call,
after every iteration of the loop over the targets and at the end of the run, every cell
either holds the value it held in the initial grid, or
holds 2 and either held 0 (Free) in the initial grid or is a goal reached by an earlier leg
(`main` overwrites a reached goal with 2); the reached goals are cells that held a goal
marker, so a cell that held the start marker, a wall, or any value other than 0 and the goal
markers is never overwritten. -/
theorem multi_grid_invariant (pq : PQueue) (fuel : Nat) (maze : Grid) (final : RunState)
    (h : mainMulti pq fuel maze = some (MainOutcome.completed final)) :
    MarksFreeOrReached maze final.maze (reachedTargets final.legs) ∧
    (∀ k l, final.legs[k]? = some l →
      MarksFreeOrReached maze l.mazeSearched (reachedTargets (final.legs.take k))) ∧
    (∀ p ∈ reachedTargets final.legs, InBounds p.1 p.2 ∧ IsGoalMarker (cell maze p.1 p.2)) ∧
    (∀ x y, InBounds x y → cell maze x y ≠ 0 → ¬ IsGoalMarker (cell maze x y) →
      cell final.maze x y = cell maze x y ∧
      ∀ l ∈ final.legs, cell l.mazeSearched x y = cell maze x y) ∧
    (∀ k st, visitAll pq fuel
        { maze := maze, metrics := metrics0, current_x := (findStart maze).1,
          current_y := (findStart maze).2, legs := [] } 0 ((findTargets maze).take k) = some st →
      MarksFreeOrReached maze st.maze (reachedTargets st.legs)) := by
  obtain ⟨-, hrun⟩ := mainMulti_completed pq fuel maze final h
  have hts : ∀ t ∈ findTargets maze, InBounds t.1 t.2 :=
    fun t ht => ((mem_findTargets maze t).1 ht).1
  obtain ⟨hJ, hL⟩ := visitAll_grid pq fuel maze (findTargets maze) _ final 0 hts
    (fun x y _ => Or.inl rfl) (fun k l hk => by simp at hk) hrun
  have htargets : final.legs.map Leg.target = findTargets maze := by
    have := (visitAll_legs pq fuel _ _ _ _ hrun).1
    simpa using this
  have hreached : ∀ p ∈ reachedTargets final.legs,
      InBounds p.1 p.2 ∧ IsGoalMarker (cell maze p.1 p.2) := by
    intro p hp
    have := reachedTargets_subset final.legs p hp
    rw [htargets] at this
    exact (mem_findTargets maze p).1 this
  refine ⟨hJ, hL, hreached, ?_, ?_⟩
  swap
  · intro k st hk
    exact (visitAll_grid pq fuel maze ((findTargets maze).take k) _ st 0
      (fun t ht => hts t (List.mem_of_mem_take ht))
      (fun x y _ => Or.inl rfl) (fun k l hk => by simp at hk) hk).1
  intro x y hb h0 hg
  have key : ∀ m r, (∀ p ∈ r, p ∈ reachedTargets final.legs) →
      MarksFreeOrReached maze m r → cell m x y = cell maze x y := by
    intro m r hr hm
    rcases hm x y hb with h1 | ⟨-, h2 | h2⟩
    · exact h1
    · exact absurd h2 h0
    · exact absurd (hreached _ (hr _ h2)).2 hg
  refine ⟨key _ _ (fun p hp => hp) hJ, ?_⟩
  intro l hl
  obtain ⟨k, hk⟩ := List.mem_iff_getElem?.1 hl
  refine key _ _ ?_ (hL k l hk)
  intro p hp
  unfold reachedTargets at hp ⊢
  obtain ⟨l', hl', rfl⟩ := List.mem_map.1 hp
  have hmem := List.mem_filter.1 hl'
  exact List.mem_map.2 ⟨l', List.mem_filter.2 ⟨List.mem_of_mem_take hmem.1, hmem.2⟩, rfl⟩

theorem multi_grid_invariant_witness :
    mainMulti listPQ 10 twoGoalField = some (MainOutcome.completed twoGoalFinal) ∧
    (MarksFreeOrReached twoGoalField twoGoalFinal.maze (reachedTargets twoGoalFinal.legs) ∧
    (∀ k l, twoGoalFinal.legs[k]? = some l →
      MarksFreeOrReached twoGoalField l.mazeSearched
        (reachedTargets (twoGoalFinal.legs.take k))) ∧
    (∀ p ∈ reachedTargets twoGoalFinal.legs,
      InBounds p.1 p.2 ∧ IsGoalMarker (cell twoGoalField p.1 p.2)) ∧
    (∀ x y, InBounds x y → cell twoGoalField x y ≠ 0 →
      ¬ IsGoalMarker (cell twoGoalField x y) →
      cell twoGoalFinal.maze x y = cell twoGoalField x y ∧
      ∀ l ∈ twoGoalFinal.legs, cell l.mazeSearched x y = cell twoGoalField x y) ∧
    (∀ k st, visitAll listPQ 10
        { maze := twoGoalField, metrics := metrics0, current_x := (findStart twoGoalField).1,
          current_y := (findStart twoGoalField).2, legs := [] } 0
        ((findTargets twoGoalField).take k) = some st →
      MarksFreeOrReached twoGoalField st.maze (reachedTargets st.legs))) :=
  ⟨twoGoalField_run, multi_grid_invariant listPQ 10 twoGoalField twoGoalFinal twoGoalField_run⟩

/-! ## The trace of the search loop -/

theorem popTrace_empty (pq : PQueue) (maze : Grid) (tx ty : Int) (fuel : Nat)
    (st : SearchState pq.Q) (h : pq.pop st.openSet = none) :
    popTrace pq maze tx ty fuel st = [] := by
  cases fuel <;> simp [popTrace, h]

theorem popTrace_zero (pq : PQueue) (maze : Grid) (tx ty : Int) (st : SearchState pq.Q) :
    popTrace pq maze tx ty 0 st = [] := by
  cases hp : pq.pop st.openSet with
  | none => exact popTrace_empty pq maze tx ty 0 st hp
  | some p => simp [popTrace, hp]

theorem popTrace_succ (pq : PQueue) (maze : Grid) (tx ty : Int) (fuel : Nat)
    (st : SearchState pq.Q) (cur : Node) (rest : pq.Q)
    (h : pq.pop st.openSet = some (cur, rest)) :
    popTrace pq maze tx ty (fuel + 1) st =
      if isClosed st.closed cur.x cur.y then
        (cur, true) :: popTrace pq maze tx ty fuel
          { openSet := rest, closed := st.closed, nodesExplored := st.nodesExplored + 1 }
      else if cur.x = tx ∧ cur.y = ty then
        [(cur, false)]
      else
        (cur, false) :: popTrace pq maze tx ty fuel
          { openSet := pushNeighbors pq maze tx ty cur (set2 st.closed cur.x cur.y true) rest,
            closed := set2 st.closed cur.x cur.y true,
            nodesExplored := st.nodesExplored + 1 } := by
  rw [popTrace]
  simp only [h]

/-- Induction along the runs of the search loop that keep the loop invariant. -/
theorem searchLoop_induction (pq : PQueue) (elems : pq.Q → Multiset Node)
    (laws : pq.Laws elems) (maze : Grid) (sx sy tx ty : Int) (hs : InBounds sx sy)
    (motive : Nat → SearchState pq.Q → Option Node → SearchState pq.Q → Prop)
    (h_empty : ∀ fuel st, Inv maze sx sy tx ty st.closed (elems st.openSet) →
      pq.pop st.openSet = none → elems st.openSet = 0 → motive fuel st none st)
    (h_skip : ∀ fuel st cur rest res st',
      Inv maze sx sy tx ty st.closed (cur ::ₘ elems rest) →
      pq.pop st.openSet = some (cur, rest) → elems st.openSet = cur ::ₘ elems rest →
      (∀ m ∈ cur ::ₘ elems rest, Compare cur m = false) →
      isClosed st.closed cur.x cur.y = true →
      motive fuel
        { openSet := rest, closed := st.closed, nodesExplored := st.nodesExplored + 1 }
        res st' →
      motive (fuel + 1) st res st')
    (h_goal : ∀ fuel st cur rest,
      Inv maze sx sy tx ty st.closed (cur ::ₘ elems rest) →
      pq.pop st.openSet = some (cur, rest) → elems st.openSet = cur ::ₘ elems rest →
      (∀ m ∈ cur ::ₘ elems rest, Compare cur m = false) →
      isClosed st.closed cur.x cur.y = false → cur.x = tx ∧ cur.y = ty →
      motive (fuel + 1) st (some cur)
        { openSet := rest, closed := set2 st.closed cur.x cur.y true,
          nodesExplored := st.nodesExplored + 1 })
    (h_expand : ∀ fuel st cur rest res st',
      Inv maze sx sy tx ty st.closed (cur ::ₘ elems rest) →
      pq.pop st.openSet = some (cur, rest) → elems st.openSet = cur ::ₘ elems rest →
      (∀ m ∈ cur ::ₘ elems rest, Compare cur m = false) →
      isClosed st.closed cur.x cur.y = false → ¬ (cur.x = tx ∧ cur.y = ty) →
      Inv maze sx sy tx ty (set2 st.closed cur.x cur.y true)
        (elems rest + (pushedNodes maze tx ty cur (set2 st.closed cur.x cur.y true)
          : List Node)) →
      elems (pushNeighbors pq maze tx ty cur (set2 st.closed cur.x cur.y true) rest)
        = elems rest + (pushedNodes maze tx ty cur (set2 st.closed cur.x cur.y true)
          : List Node) →
      motive fuel
        { openSet := pushNeighbors pq maze tx ty cur (set2 st.closed cur.x cur.y true) rest,
          closed := set2 st.closed cur.x cur.y true,
          nodesExplored := st.nodesExplored + 1 }
        res st' →
      motive (fuel + 1) st res st') :
    ∀ fuel st res st', Inv maze sx sy tx ty st.closed (elems st.openSet) →
      searchLoop pq maze tx ty fuel st = some (res, st') → motive fuel st res st' := by
  intro fuel
  induction fuel with
  | zero =>
    intro st res st' inv h
    cases hp : pq.pop st.openSet with
    | none =>
      rw [searchLoop_empty _ _ _ _ _ _ hp] at h
      simp only [Option.some.injEq, Prod.mk.injEq] at h
      obtain ⟨rfl, rfl⟩ := h
      exact h_empty 0 st inv hp (laws.pop_none _ hp)
    | some p =>
      obtain ⟨cur, rest⟩ := p
      rw [searchLoop_zero _ _ _ _ _ cur rest hp] at h
      exact absurd h (by simp)
  | succ fuel ih =>
    intro st res st' inv h
    cases hp : pq.pop st.openSet with
    | none =>
      rw [searchLoop_empty _ _ _ _ _ _ hp] at h
      simp only [Option.some.injEq, Prod.mk.injEq] at h
      obtain ⟨rfl, rfl⟩ := h
      exact h_empty (fuel + 1) st inv hp (laws.pop_none _ hp)
    | some p =>
      obtain ⟨cur, rest⟩ := p
      obtain ⟨hel, hmin⟩ := laws.pop_some _ _ _ hp
      rw [hel] at inv hmin
      rw [searchLoop_succ _ _ _ _ _ _ cur rest hp] at h
      by_cases hc : isClosed st.closed cur.x cur.y = true
      · rw [if_pos hc] at h
        exact h_skip fuel st cur rest res st' inv hp hel hmin hc
          (ih _ res st' (inv.skip hc) h)
      · rw [if_neg hc] at h
        have hc' : isClosed st.closed cur.x cur.y = false := by simpa using hc
        by_cases hg : cur.x = tx ∧ cur.y = ty
        · rw [if_pos hg] at h
          simp only [Option.some.injEq, Prod.mk.injEq] at h
          obtain ⟨rfl, rfl⟩ := h
          exact h_goal fuel st cur rest inv hp hel hmin hc' hg
        · rw [if_neg hg] at h
          have hel2 := elems_pushNeighbors pq elems laws.push maze tx ty cur
            (set2 st.closed cur.x cur.y true) rest
          have inv2 := inv.expand hs hmin hc' hg
          exact h_expand fuel st cur rest res st' inv hp hel hmin hc' hg inv2 hel2
            (ih _ res st' (by simp only; rw [hel2]; exact inv2) h)

theorem expandedPositions_cons_discarded (n : Node) (tr : List (Node × Bool)) :
    expandedPositions ((n, true) :: tr) = expandedPositions tr := by
  simp [expandedPositions]

theorem expandedPositions_cons_closed (n : Node) (tr : List (Node × Bool)) :
    expandedPositions ((n, false) :: tr) = n.pos :: expandedPositions tr := by
  simp [expandedPositions]

theorem trace_length_split (tr : List (Node × Bool)) :
    tr.length = (expandedPositions tr).length + discardedCount tr := by
  induction tr with
  | nil => rfl
  | cons e rest ih =>
    obtain ⟨n, b⟩ := e
    cases b with
    | true =>
      rw [expandedPositions_cons_discarded]
      simp only [discardedCount, List.length_cons] at ih ⊢
      simp only [List.filter_cons_of_pos, List.length_cons]
      omega
    | false =>
      rw [expandedPositions_cons_closed]
      simp only [discardedCount, List.length_cons] at ih ⊢
      simp only [Bool.false_eq_true, not_false_eq_true, List.filter_cons_of_neg]
      omega

/-- What a run of the search loop does, in terms of its trace: the counter grows by the
number of popped entries, every popped entry is a well-formed node, no position is closed
twice, the positions closed at the end are those closed before and those closed by the run,
and a run that ends with an empty frontier keeps the invariant. -/
theorem searchLoop_trace (pq : PQueue) (elems : pq.Q → Multiset Node) (laws : pq.Laws elems)
    (maze : Grid) (sx sy tx ty : Int) (hs : InBounds sx sy) :
    ∀ fuel st res st', Inv maze sx sy tx ty st.closed (elems st.openSet) →
      searchLoop pq maze tx ty fuel st = some (res, st') →
      st'.nodesExplored = st.nodesExplored + (popTrace pq maze tx ty fuel st).length ∧
      (∀ e ∈ popTrace pq maze tx ty fuel st, e.1.WF maze sx sy tx ty) ∧
      (expandedPositions (popTrace pq maze tx ty fuel st)).Nodup ∧
      (∀ p ∈ expandedPositions (popTrace pq maze tx ty fuel st),
        InBounds p.1 p.2 ∧ isClosed st.closed p.1 p.2 = false) ∧
      (∀ x y, InBounds x y → (isClosed st'.closed x y = true ↔
        isClosed st.closed x y = true ∨
          (x, y) ∈ expandedPositions (popTrace pq maze tx ty fuel st))) ∧
      (res = none → Inv maze sx sy tx ty st'.closed 0) := by
  apply searchLoop_induction pq elems laws maze sx sy tx ty hs
  · intro fuel st inv hp hel
    rw [popTrace_empty _ _ _ _ _ _ hp]
    refine ⟨by simp, by simp, by simp [expandedPositions], by simp [expandedPositions],
      by simp [expandedPositions], ?_⟩
    intro _
    rw [← hel]
    exact inv
  · intro fuel st cur rest res st' inv hp hel hmin hc ih
    rw [popTrace_succ _ _ _ _ _ _ cur rest hp, if_pos hc]
    obtain ⟨h1, h2, h3, h4, h5, h6⟩ := ih
    simp only [expandedPositions_cons_discarded]
    refine ⟨?_, ?_, h3, h4, h5, h6⟩
    · simp only at h1
      rw [h1, List.length_cons]
      push_cast
      ring
    · intro e he
      rcases List.mem_cons.1 he with h | h
      · rw [h]
        exact inv.wf cur (Multiset.mem_cons_self _ _)
      · exact h2 e h
  · intro fuel st cur rest inv hp hel hmin hc hg
    have hc1 : ¬ (isClosed st.closed cur.x cur.y = true) := by rw [hc]; decide
    rw [popTrace_succ _ _ _ _ _ _ cur rest hp, if_neg hc1, if_pos hg]
    have hwf := inv.wf cur (Multiset.mem_cons_self _ _)
    have hb : InBounds cur.x cur.y := hwf.pos_inBounds hs
    simp only [expandedPositions_cons_closed]
    refine ⟨by simp, ?_, by simp [expandedPositions], ?_, ?_, by simp⟩
    · intro e he
      rw [List.mem_singleton] at he
      rw [he]
      exact hwf
    · intro p hp'
      simp only [expandedPositions, List.filter_nil, List.map_nil, List.mem_singleton] at hp'
      rw [hp']
      exact ⟨hb, hc⟩
    · intro x y hxy
      rw [isClosed_set2 st.closed _ _ _ _ inv.shape hb hxy]
      simp only [expandedPositions, List.filter_nil, List.map_nil, List.mem_singleton,
        Bool.or_eq_true, decide_eq_true_eq, Node.pos, Prod.mk.injEq]
      constructor
      · rintro (⟨h1, h2⟩ | h)
        · exact Or.inr ⟨h1.symm, h2.symm⟩
        · exact Or.inl h
      · rintro (h | ⟨h1, h2⟩)
        · exact Or.inr h
        · exact Or.inl ⟨h1.symm, h2.symm⟩
  · intro fuel st cur rest res st' inv hp hel hmin hc hg inv2 hel2 ih
    have hc1 : ¬ (isClosed st.closed cur.x cur.y = true) := by rw [hc]; decide
    rw [popTrace_succ _ _ _ _ _ _ cur rest hp, if_neg hc1, if_neg hg]
    have hwf := inv.wf cur (Multiset.mem_cons_self _ _)
    have hb : InBounds cur.x cur.y := hwf.pos_inBounds hs
    obtain ⟨h1, h2, h3, h4, h5, h6⟩ := ih
    simp only at h1 h4 h5
    simp only [expandedPositions_cons_closed]
    have hsplit : ∀ p ∈ expandedPositions (popTrace pq maze tx ty fuel
        { openSet := pushNeighbors pq maze tx ty cur (set2 st.closed cur.x cur.y true) rest,
          closed := set2 st.closed cur.x cur.y true,
          nodesExplored := st.nodesExplored + 1 }),
        InBounds p.1 p.2 ∧ p ≠ cur.pos ∧ isClosed st.closed p.1 p.2 = false := by
      intro p hp'
      obtain ⟨hpb, hpc⟩ := h4 p hp'
      rw [isClosed_set2 st.closed _ _ _ _ inv.shape hb hpb] at hpc
      simp only [Bool.or_eq_false_iff, decide_eq_false_iff_not] at hpc
      refine ⟨hpb, ?_, hpc.2⟩
      intro he
      apply hpc.1
      rw [he]
      exact ⟨rfl, rfl⟩
    refine ⟨?_, ?_, ?_, ?_, ?_, h6⟩
    · rw [h1, List.length_cons]
      push_cast
      ring
    · intro e he
      rcases List.mem_cons.1 he with h | h
      · rw [h]
        exact hwf
      · exact h2 e h
    · rw [List.nodup_cons]
      exact ⟨fun hmem => (hsplit _ hmem).2.1 rfl, h3⟩
    · intro p hp'
      rcases List.mem_cons.1 hp' with h | h
      · rw [h]
        exact ⟨hb, hc⟩
      · exact ⟨(hsplit p h).1, (hsplit p h).2.2⟩
    · intro x y hxy
      rw [h5 x y hxy, isClosed_set2 st.closed _ _ _ _ inv.shape hb hxy]
      simp only [Bool.or_eq_true, decide_eq_true_eq, List.mem_cons, Node.pos, Prod.mk.injEq]
      constructor
      · rintro ((⟨h1, h2⟩ | h) | h)
        · exact Or.inr (Or.inl ⟨h1.symm, h2.symm⟩)
        · exact Or.inl h
        · exact Or.inr (Or.inr h)
      · rintro (h | ⟨h1, h2⟩ | h)
        · exact Or.inl (Or.inr h)
        · exact Or.inl (Or.inl ⟨h1.symm, h2.symm⟩)
        · exact Or.inr h

/-! ## Expansions and the explored counter -/

theorem aStar_run (pq : PQueue) (fuel : Nat) (maze : Grid) (sx sy tx ty : Int)
    (metrics : PerformanceMetrics) (b : Bool) (maze' : Grid) (metrics' : PerformanceMetrics)
    (h : aStar pq fuel maze sx sy tx ty metrics = some (b, maze', metrics')) :
    ∃ res st', searchLoop pq maze tx ty fuel (initState pq sx sy tx ty) = some (res, st') ∧
      metrics'.nodesExplored = st'.nodesExplored ∧ (b = false ↔ res = none) ∧
      (b = false → maze' = maze) := by
  cases b with
  | false =>
    obtain ⟨st, hrun, h1, h2⟩ := (aStar_false_iff _ _ _ _ _ _ _ _ _ _).1 h
    subst h2
    exact ⟨none, st, hrun, rfl, by simp, fun _ => h1⟩
  | true =>
    obtain ⟨node, st, hrun, -, h2⟩ := (aStar_true_iff _ _ _ _ _ _ _ _ _ _).1 h
    subst h2
    exact ⟨some node, st, hrun, (reconstruct_frame _ _ _).1, by simp, by simp⟩

theorem initState_inv (pq : PQueue) (elems : pq.Q → Multiset Node) (laws : pq.Laws elems)
    (maze : Grid) (sx sy tx ty : Int) :
    Inv maze sx sy tx ty (initState pq sx sy tx ty).closed
      (elems (initState pq sx sy tx ty).openSet) := by
  rw [initState_elems pq elems laws sx sy tx ty]
  exact Inv.init maze sx sy tx ty

/-- C18. No cell is expanded twice: in every run of aStar that returns, `nodesExplored` is
at least 1 and counts the popped entries; the positions for which the loop body gets past
the closed-set check (closing the position and generating its neighbours) are pairwise
distinct, so that part of the body runs at most once per position; and an entry popped while
its position is already closed is discarded: the loop goes on with the rest of the frontier,
the same closed set and the counter plus one, no neighbour is pushed, and the grid, which
the loop only reads, is the same (a run that returns false returns the grid unchanged). -/
theorem aStar_no_cell_expanded_twice (pq : PQueue) (hq : pq.Lawful) (fuel : Nat) (maze : Grid)
    (sx sy tx ty : Int) (hs : InBounds sx sy) (metrics : PerformanceMetrics) (b : Bool)
    (maze' : Grid) (metrics' : PerformanceMetrics)
    (h : aStar pq fuel maze sx sy tx ty metrics = some (b, maze', metrics')) :
    1 ≤ metrics'.nodesExplored ∧
    metrics'.nodesExplored = (popTrace pq maze tx ty fuel (initState pq sx sy tx ty)).length ∧
    (expandedPositions (popTrace pq maze tx ty fuel (initState pq sx sy tx ty))).Nodup ∧
    (∀ (st : SearchState pq.Q) (cur : Node) (rest : pq.Q) (fuel' : Nat),
      pq.pop st.openSet = some (cur, rest) → isClosed st.closed cur.x cur.y = true →
      searchLoop pq maze tx ty (fuel' + 1) st = searchLoop pq maze tx ty fuel'
        { openSet := rest, closed := st.closed, nodesExplored := st.nodesExplored + 1 } ∧
      popTrace pq maze tx ty (fuel' + 1) st = (cur, true) :: popTrace pq maze tx ty fuel'
        { openSet := rest, closed := st.closed, nodesExplored := st.nodesExplored + 1 }) ∧
    (b = false → maze' = maze) := by
  obtain ⟨elems, laws⟩ := hq
  obtain ⟨res, st', hrun, hn, -, hgrid⟩ := aStar_run pq fuel maze sx sy tx ty metrics b maze' metrics' h
  obtain ⟨b1, -, -, -⟩ := searchLoop_sound pq elems laws maze sx sy tx ty hs fuel res st' hrun
  obtain ⟨h1, -, h3, -, -, -⟩ := searchLoop_trace pq elems laws maze sx sy tx ty hs fuel _ res st'
    (initState_inv pq elems laws maze sx sy tx ty) hrun
  refine ⟨by rw [hn]; exact b1, ?_, h3, ?_, hgrid⟩
  · rw [hn, h1]
    simp [initState]
  · intro st cur rest fuel' hp hc
    refine ⟨?_, ?_⟩
    · rw [searchLoop_succ _ _ _ _ _ _ cur rest hp, if_pos hc]
    · rw [popTrace_succ _ _ _ _ _ _ cur rest hp, if_pos hc]

theorem aStar_no_cell_expanded_twice_witness :
    listPQ.Lawful ∧ InBounds 0 0 ∧
    aStar listPQ 10 markedField 0 0 0 3 metrics0
      = some (true, markedFieldAfter, markedFieldMetrics) ∧
    (1 ≤ markedFieldMetrics.nodesExplored ∧
    markedFieldMetrics.nodesExplored
      = (popTrace listPQ markedField 0 3 10 (initState listPQ 0 0 0 3)).length ∧
    (expandedPositions (popTrace listPQ markedField 0 3 10 (initState listPQ 0 0 0 3))).Nodup ∧
    (∀ (st : SearchState listPQ.Q) (cur : Node) (rest : listPQ.Q) (fuel' : Nat),
      listPQ.pop st.openSet = some (cur, rest) → isClosed st.closed cur.x cur.y = true →
      searchLoop listPQ markedField 0 3 (fuel' + 1) st = searchLoop listPQ markedField 0 3 fuel'
        { openSet := rest, closed := st.closed, nodesExplored := st.nodesExplored + 1 } ∧
      popTrace listPQ markedField 0 3 (fuel' + 1) st
        = (cur, true) :: popTrace listPQ markedField 0 3 fuel'
        { openSet := rest, closed := st.closed, nodesExplored := st.nodesExplored + 1 }) ∧
    (true = false → markedFieldAfter = markedField)) :=
  ⟨listPQ_lawful, by decide, by decide,
    aStar_no_cell_expanded_twice listPQ listPQ_lawful 10 markedField 0 0 0 3 (by decide)
      metrics0 true markedFieldAfter markedFieldMetrics (by decide)⟩

/-! ## The explored counter on an unreachable goal -/

theorem region_closed (maze : Grid) (sx sy : Int) (cells : List (Int × Int))
    (hstart : (sx, sy) ∈ cells)
    (hclosed : ∀ p ∈ cells, ∀ d ∈ List.zip dx dy,
      isValid (p.1 + d.1) (p.2 + d.2) maze = true → (p.1 + d.1, p.2 + d.2) ∈ cells)
    {x y : Int} {k : Nat} (w : Walk maze sx sy x y k) : (x, y) ∈ cells := by
  induction w with
  | start => exact hstart
  | @step x y x' y' k _ ha hb hc ih =>
    obtain ⟨d, hd, h1, h2⟩ := (adj_iff_dir _ _ _ _).1 ha
    subst h1 h2
    exact hclosed (x, y) ih d hd ((isValid_iff _ _ _).2 ⟨hb, hc⟩)

theorem Reachable.step {maze : Grid} {sx sy x y x' y' : Int}
    (h : Reachable maze sx sy x y) (hv : isValid x' y' maze = true) (ha : Adj x y x' y') :
    Reachable maze sx sy x' y' := by
  obtain ⟨k, w⟩ := h
  obtain ⟨hb, hc⟩ := (isValid_iff _ _ _).1 hv
  exact ⟨k + 1, Walk.step w ha hb hc⟩

theorem blockGrid_region : IsRegion blockGrid 1 1 [(1, 1), (1, 2), (2, 1), (2, 2)] := by
  refine ⟨by decide, ?_⟩
  intro p
  constructor
  · intro hp
    have h11 : Reachable blockGrid 1 1 1 1 := ⟨0, Walk.start⟩
    have h12 : Reachable blockGrid 1 1 1 2 := h11.step (by decide) (by unfold Adj; decide)
    have h21 : Reachable blockGrid 1 1 2 1 := h11.step (by decide) (by unfold Adj; decide)
    have h22 : Reachable blockGrid 1 1 2 2 := h12.step (by decide) (by unfold Adj; decide)
    simp only [List.mem_cons, List.mem_singleton, List.not_mem_nil, or_false] at hp
    rcases hp with rfl | rfl | rfl | rfl
    · exact h11
    · exact h12
    · exact h21
    · exact h22
  · rintro ⟨k, w⟩
    exact region_closed blockGrid 1 1 _ (by decide) (by decide) w

/-- C15 (as stated, refuted). On a wall grid with a block of four free cells and a goal
walled in at (5,5), the region reachable from the start (1,1) has the four cells (1,1),
(1,2), (2,1), (2,2), the goal is not reachable, aStar returns false, and `nodesExplored`
is 5, not 4: the cell opposite the start is pushed twice and both entries are popped. -/
theorem aStar_explored_counterexample :
    IsRegion blockGrid 1 1 [(1, 1), (1, 2), (2, 1), (2, 2)] ∧
    ¬ Reachable blockGrid 1 1 5 5 ∧
    aStar listPQ 20 blockGrid 1 1 5 5 metrics0
      = some (false, blockGrid, { metrics0 with nodesExplored := 5 }) ∧
    ¬ (({ metrics0 with nodesExplored := 5 } : PerformanceMetrics).nodesExplored
      = ([((1 : Int), (1 : Int)), (1, 2), (2, 1), (2, 2)].length : Nat)) := by
  refine ⟨blockGrid_region, ?_, by decide, by decide⟩
  intro hr
  have := (blockGrid_region.2 (5, 5)).2 hr
  exact absurd this (by decide)

/-- C15 (amended). Enclosed goal explored count: on a 12x24 grid with in-bounds start and
goal such that the goal is not reachable from the start, aStar returns false, the positions
it closes are exactly the cells of the region reachable from the start, each closed once,
and `metrics.nodesExplored` equals the number of distinct cells in that region plus the
number of popped entries discarded because their position was already closed; so it is at
least the number of cells in the region. -/
theorem aStar_unreachable_explored (pq : PQueue) (hq : pq.Lawful) (maze : Grid)
    (hm : GridShape maze) (sx sy tx ty : Int) (hs : InBounds sx sy) (ht : InBounds tx ty)
    (hun : ¬ Reachable maze sx sy tx ty) (metrics : PerformanceMetrics) :
    (∃ maze' metrics', aStar pq (1 + 4 * ROW * COL) maze sx sy tx ty metrics
      = some (false, maze', metrics')) ∧
    ∀ fuel b maze' metrics', aStar pq fuel maze sx sy tx ty metrics
        = some (b, maze', metrics') →
      b = false ∧
      IsRegion maze sx sy
        (expandedPositions (popTrace pq maze tx ty fuel (initState pq sx sy tx ty))) ∧
      ∀ cells, IsRegion maze sx sy cells →
        (expandedPositions (popTrace pq maze tx ty fuel (initState pq sx sy tx ty))).Perm
          cells ∧
        metrics'.nodesExplored = cells.length
          + discardedCount (popTrace pq maze tx ty fuel (initState pq sx sy tx ty)) ∧
        (cells.length : Int) ≤ metrics'.nodesExplored := by
  have hall : ∀ fuel b maze' metrics', aStar pq fuel maze sx sy tx ty metrics
        = some (b, maze', metrics') →
      b = false ∧
      IsRegion maze sx sy
        (expandedPositions (popTrace pq maze tx ty fuel (initState pq sx sy tx ty))) ∧
      ∀ cells, IsRegion maze sx sy cells →
        (expandedPositions (popTrace pq maze tx ty fuel (initState pq sx sy tx ty))).Perm
          cells ∧
        metrics'.nodesExplored = cells.length
          + discardedCount (popTrace pq maze tx ty fuel (initState pq sx sy tx ty)) ∧
        (cells.length : Int) ≤ metrics'.nodesExplored := by
    intro fuel b maze' metrics' h
    have hb : b = false := by
      cases b with
      | false => rfl
      | true =>
        exact absurd ((aStar_result pq hq fuel maze sx sy tx ty hs metrics true maze'
          metrics' h).1 rfl) hun
    obtain ⟨elems, laws⟩ := hq
    obtain ⟨res, st', hrun, hn, hres, -⟩ :=
      aStar_run pq fuel maze sx sy tx ty metrics b maze' metrics' h
    have hnone : res = none := hres.1 hb
    obtain ⟨h1, h2, h3, h4, h5, h6⟩ := searchLoop_trace pq elems laws maze sx sy tx ty hs fuel _
      res st' (initState_inv pq elems laws maze sx sy tx ty) hrun
    have hinv := h6 hnone
    have hregion : IsRegion maze sx sy
        (expandedPositions (popTrace pq maze tx ty fuel (initState pq sx sy tx ty))) := by
      refine ⟨h3, ?_⟩
      intro p
      constructor
      · intro hp
        unfold expandedPositions at hp
        obtain ⟨e, he, rfl⟩ := List.mem_map.1 hp
        exact ⟨_, (h2 e (List.mem_filter.1 he).1).walk⟩
      · rintro ⟨k, w⟩
        have hpb : InBounds p.1 p.2 := w.end_inBounds hs
        have hcl : isClosed st'.closed p.1 p.2 = true := by
          by_contra hc
          obtain ⟨m, hm', -⟩ := hinv.frontier_bound hs w (by simpa using hc)
          exact absurd hm' (Multiset.not_mem_zero _)
        rcases (h5 p.1 p.2 hpb).1 hcl with h0 | h0
        · have : isClosed (initState pq sx sy tx ty).closed p.1 p.2 = false := isClosed_init _ _
          rw [this] at h0
          exact absurd h0 (by decide)
        · exact h0
    refine ⟨hb, hregion, ?_⟩
    intro cells hreg
    have hperm : (expandedPositions
        (popTrace pq maze tx ty fuel (initState pq sx sy tx ty))).Perm cells := by
      rw [List.perm_ext_iff_of_nodup h3 hreg.1]
      intro p
      rw [hreg.2 p, hregion.2 p]
    have hlen : metrics'.nodesExplored = cells.length
        + discardedCount (popTrace pq maze tx ty fuel (initState pq sx sy tx ty)) := by
      rw [hn, h1, trace_length_split, hperm.length_eq]
      simp [initState]
    refine ⟨hperm, hlen, ?_⟩
    rw [hlen]
    omega
  refine ⟨?_, hall⟩
  obtain ⟨b, maze', metrics', h, -⟩ := aStar_total pq hq maze sx sy tx ty hs metrics 0
  obtain ⟨hb, -⟩ := hall _ b maze' metrics' h
  subst hb
  exact ⟨maze', metrics', h⟩

theorem aStar_unreachable_explored_witness :
    listPQ.Lawful ∧ GridShape blockGrid ∧ InBounds 1 1 ∧ InBounds 5 5 ∧
    ¬ Reachable blockGrid 1 1 5 5 ∧
    IsRegion blockGrid 1 1 [(1, 1), (1, 2), (2, 1), (2, 2)] ∧
    ((∃ maze' metrics', aStar listPQ (1 + 4 * ROW * COL) blockGrid 1 1 5 5 metrics0
      = some (false, maze', metrics')) ∧
    ∀ fuel b maze' metrics', aStar listPQ fuel blockGrid 1 1 5 5 metrics0
        = some (b, maze', metrics') →
      b = false ∧
      IsRegion blockGrid 1 1
        (expandedPositions (popTrace listPQ blockGrid 5 5 fuel (initState listPQ 1 1 5 5))) ∧
      ∀ cells, IsRegion blockGrid 1 1 cells →
        (expandedPositions (popTrace listPQ blockGrid 5 5 fuel (initState listPQ 1 1 5 5))).Perm
          cells ∧
        metrics'.nodesExplored = cells.length
          + discardedCount (popTrace listPQ blockGrid 5 5 fuel (initState listPQ 1 1 5 5)) ∧
        (cells.length : Int) ≤ metrics'.nodesExplored) :=
  have hun : ¬ Reachable blockGrid 1 1 5 5 := fun hr =>
    absurd ((blockGrid_region.2 (5, 5)).2 hr) (by decide)
  ⟨listPQ_lawful, by decide, by decide, by decide, hun, blockGrid_region,
    aStar_unreachable_explored listPQ listPQ_lawful blockGrid (by decide) 1 1 5 5 (by decide)
      (by decide) hun metrics0⟩

/-! ## The order of the popped entries -/

end AStar
